import Mathlib

set_option linter.unusedVariables false
set_option linter.unnecessarySimpa false

/-!
Verification development for the SimpleSpecs2 header-location and
section-spanning engine.  The definitions below are shallow embeddings of the
Python source under `src/backend`: pure functions become Lean functions on
`List Char` / `Int`, Python dicts become insertion-ordered association lists,
and the regular expressions of the source are compiled into a small explicit
backtracking matcher that follows CPython's leftmost / priority semantics.

Modelling conventions, used throughout:
* strings are `List Char`; Python's `\s`, `\w`, `str.strip`, `str.casefold`
  are modelled on the ASCII fragment (every concrete input appearing in a
  theorem below is ASCII);
* Python `float` scores are modelled as `Rat`; the only float comparison a
  theorem depends on (`coverage < 0.6`) is modelled exactly, see
  `Locator.coverageBelow`;
* Python dict iteration order is insertion order, modelled by association
  lists that update in place and append new keys.
-/

namespace PyStr

/-- U+00AD, removed by the normalizers. -/
def softHyphen : Char := '­'

/-- Model of Python's `\s` (and `str.strip` character set) on the ASCII
fragment: space, tab, newline, carriage return, vertical tab, form feed. -/
def isPySpace (c : Char) : Bool :=
  c = ' ' || c = '\t' || c = '\n' || c = '\r' || c = '\x0b' || c = '\x0c'

/-- Model of Python's `\w` on the ASCII fragment. -/
def isWordChar (c : Char) : Bool :=
  c.isAlpha || c.isDigit || c = '_'

/-- ASCII lowercasing; models `str.casefold`/`str.lower` and the effect of
`re.IGNORECASE` on the ASCII fragment. -/
def asciiLower (c : Char) : Char :=
  if 65 ≤ c.toNat ∧ c.toNat ≤ 90 then Char.ofNat (c.toNat + 32) else c

theorem toNat_ofNat_ascii {n : Nat} (h2 : n ≤ 127) : (Char.ofNat n).toNat = n := by
  have hv : n.isValidChar := Or.inl (by omega)
  rw [Char.ofNat, dif_pos hv]
  show (BitVec.ofNatLt n _).toNat = n
  simp [BitVec.toNat_ofNatLt]

theorem toNat_asciiLower (c : Char) :
    (asciiLower c).toNat = if 65 ≤ c.toNat ∧ c.toNat ≤ 90 then c.toNat + 32 else c.toNat := by
  unfold asciiLower
  split
  next h => exact toNat_ofNat_ascii (by omega)
  next h => rfl

theorem char_toNat_injective {a b : Char} (h : a.toNat = b.toNat) : a = b :=
  Char.ext (UInt32.ext h)

theorem asciiLower_idem (c : Char) : asciiLower (asciiLower c) = asciiLower c := by
  apply char_toNat_injective
  rw [toNat_asciiLower, toNat_asciiLower]
  by_cases h : 65 ≤ c.toNat ∧ c.toNat ≤ 90
  · simp only [if_pos h]
    rw [if_neg (by omega)]
  · simp only [if_neg h]

/-- Model of `str.casefold` (ASCII fragment). -/
def pyCasefold (l : List Char) : List Char := l.map asciiLower

/-- Model of `str.strip()` (no argument: strips whitespace at both ends). -/
def pyStrip (l : List Char) : List Char :=
  ((l.dropWhile isPySpace).reverse.dropWhile isPySpace).reverse

/-- Model of `str.lstrip()` (no argument). -/
def pyLstrip (l : List Char) : List Char := l.dropWhile isPySpace

/-- Model of `str.lstrip(chars)` for an explicit character set. -/
def pyLstripSet (set : List Char) (l : List Char) : List Char :=
  l.dropWhile (fun c => set.contains c)

/-- `(l.dropWhile p).length ≤ l.length`. -/
theorem dropWhile_len_le (p : Char → Bool) :
    (l : List Char) → (l.dropWhile p).length ≤ l.length
  | [] => Nat.le_refl _
  | c :: rest => by
    simp only [List.dropWhile]
    cases p c
    · simp
    · simpa using Nat.le_succ_of_le (dropWhile_len_le p rest)

end PyStr

namespace HSeq

/-! ## `backend/services/headers_sequential.py` — the text normalizer (C1)

`DOT_SPACE_RE = re.compile(r"(\d)\s*\.\s*(\d)")`, substituted once with
`\1.\2`; `MULTISPACE_RE = re.compile(r"\s+")` substituted with a space;
`CONFUSABLE_NUM_RE = re.compile(r"(?<=\d)\s*[Il]\s*(?=[\.\s])")` and
`ALPHA_ONE_RE = re.compile(r"(?<=\b[A-Za-z])\s*[Il](?=\b)")` substituted
with `"1"`.  Each substitution is a single leftmost, non-overlapping pass,
exactly as `re.sub` performs it; the scanners below reproduce that pass. -/

open PyStr

/-- One attempted match of `(\d)\s*\.\s*(\d)` at the head of the list.
Returns the two captured digits and the remainder after the match (the
second digit is consumed by the match, so scanning resumes after it).
The character classes `\d`, `\s`, `\.` are pairwise disjoint, so the greedy
`\s*` needs no backtracking. -/
def tryDotAt : List Char → Option (Char × Char × List Char)
  | [] => none
  | c :: rest =>
    if c.isDigit then
      match (rest.dropWhile isPySpace) with
      | x :: rest2 =>
        if x = '.' then
          match (rest2.dropWhile isPySpace) with
          | d :: rest3 => if d.isDigit then some (c, d, rest3) else none
          | [] => none
        else none
      | [] => none
    else none

theorem tryDotAt_len {l : List Char} {a b : Char} {r : List Char}
    (h : tryDotAt l = some (a, b, r)) : r.length < l.length := by
  match l with
  | [] => simp [tryDotAt] at h
  | c :: rest =>
    have hlen1 := dropWhile_len_le isPySpace rest
    by_cases hd : c.isDigit
    · rcases hq : rest.dropWhile isPySpace with _ | ⟨x, rest2⟩
      · simp [tryDotAt, hd, hq] at h
      · rw [hq] at hlen1
        by_cases hx : x = '.'
        · have hlen2 := dropWhile_len_le isPySpace rest2
          rcases hq2 : rest2.dropWhile isPySpace with _ | ⟨d, rest3⟩
          · simp [tryDotAt, hd, hq, hx, hq2] at h
          · rw [hq2] at hlen2
            by_cases hd2 : d.isDigit
            · simp only [tryDotAt, hd, hq, hx, hq2, hd2, if_true] at h
              cases h
              simp only [List.length_cons] at hlen1 hlen2 ⊢
              omega
            · simp [tryDotAt, hd, hq, hx, hq2, hd2] at h
        · simp [tryDotAt, hd, hq, hx] at h
    · simp [tryDotAt, hd] at h

/-- `DOT_SPACE_RE.sub(r"\1.\2", s)`: one leftmost non-overlapping pass.
The recursion is structural on a fuel argument so that concrete inputs can be
evaluated by the kernel; `tryDotAt_len` shows every match consumes at least
one character, so fuel equal to the input length never runs out. -/
def dotSubF : Nat → List Char → List Char
  | _, [] => []
  | 0, l => l
  | fuel + 1, c :: rest =>
    match tryDotAt (c :: rest) with
    | some (d1, d2, rest') => d1 :: '.' :: d2 :: dotSubF fuel rest'
    | none => c :: dotSubF fuel rest

def dotSub (l : List Char) : List Char := dotSubF l.length l

/-- `MULTISPACE_RE.sub(" ", s)`: each maximal whitespace run becomes one
space (fuelled structural recursion, fuel = input length suffices). -/
def wsCollapseF : Nat → List Char → List Char
  | _, [] => []
  | 0, l => l
  | fuel + 1, c :: rest =>
    if isPySpace c then ' ' :: wsCollapseF fuel (rest.dropWhile isPySpace)
    else c :: wsCollapseF fuel rest

def wsCollapse (l : List Char) : List Char := wsCollapseF l.length l

/-- One attempted match of `\s*[Il]\s*(?=[\.\s])` at the head (the `(?<=\d)`
lookbehind is checked by the caller).  Returns the last character the match
consumed (needed to maintain lookbehind context) and the remainder.  The
trailing greedy `\s*` backtracks at most one character: if the character
after the whitespace run is not `.` the run's final space satisfies the
lookahead instead (possible only when the run is nonempty). -/
def tryConf1At (l : List Char) : Option (Char × List Char) :=
  match (l.dropWhile isPySpace) with
  | c :: rest =>
    if c = 'I' || c = 'l' then
      let r := rest.takeWhile isPySpace
      let rest2 := rest.dropWhile isPySpace
      if rest2.headD ' ' = '.' && !rest2.isEmpty then
        -- lookahead sees the dot; the whole run is consumed
        some (if r.isEmpty then c else ' ', rest2)
      else
        if r.isEmpty then none
        else
          -- backtrack: leave the final space for the lookahead
          if r.length = 1 then some (c, r ++ rest2)
          else some (' ', r.drop (r.length - 1) ++ rest2)
    else none
  | [] => none

theorem tryConf1At_len {l : List Char} {a : Char} {r : List Char}
    (h : tryConf1At l = some (a, r)) : r.length < l.length := by
  revert h
  unfold tryConf1At
  split
  next c rest heq =>
    have hrest : rest.length + 1 ≤ l.length := by
      have := dropWhile_len_le isPySpace l
      rw [heq] at this
      simpa using this
    have hsplit : (rest.takeWhile isPySpace).length + (rest.dropWhile isPySpace).length
        = rest.length := by
      conv_rhs => rw [← List.takeWhile_append_dropWhile (p := isPySpace) (l := rest)]
      rw [List.length_append]
    split
    · simp only
      split
      · intro h
        cases h
        have := dropWhile_len_le isPySpace rest
        omega
      · split
        · intro h; cases h
        · split
          · intro h
            cases h
            simp only [List.length_append]
            omega
          · intro h
            cases h
            have h2 : ((rest.takeWhile isPySpace).drop
                ((rest.takeWhile isPySpace).length - 1)).length
                ≤ (rest.takeWhile isPySpace).length := by simp
            simp only [List.length_append]
            omega
    · intro h; cases h
  · intro h; cases h

/-- Whether the character (the one immediately before the scan position in
the original string) satisfies the `(?<=\d)` lookbehind. -/
def prevIsDigit : Option Char → Bool
  | some c => c.isDigit
  | none => false

/-- `CONFUSABLE_NUM_RE.sub("1", s)` — the scanning pass, threading the
previous original character for the lookbehind (fuelled structural
recursion, fuel = input length suffices by `tryConf1At_len`). -/
def conf1Aux : Nat → Option Char → List Char → List Char
  | _, _, [] => []
  | 0, _, l => l
  | fuel + 1, prev, c :: rest =>
    if prevIsDigit prev then
      match tryConf1At (c :: rest) with
      | some (lastC, rest') => '1' :: conf1Aux fuel (some lastC) rest'
      | none => c :: conf1Aux fuel (some c) rest
    else c :: conf1Aux fuel (some c) rest

def conf1Sub (l : List Char) : List Char := conf1Aux l.length none l

/-- One attempted match of `\s*[Il](?=\b)` at the head (the `(?<=\b[A-Za-z])`
lookbehind is checked by the caller).  Returns the character preceding the
consumed `[Il]` in the original string (`none` marker when the whitespace
run is empty), the `[Il]` character itself, and the remainder. -/
def tryConf2At (l : List Char) : Option (Bool × Char × List Char) :=
  let ws1 := l.takeWhile isPySpace
  match (l.dropWhile isPySpace) with
  | c :: rest =>
    if c = 'I' || c = 'l' then
      if rest.isEmpty || !(isWordChar (rest.headD ' ')) then
        some (ws1.isEmpty, c, rest)
      else none
    else none
  | [] => none

theorem tryConf2At_len {l : List Char} {b : Bool} {a : Char} {r : List Char}
    (h : tryConf2At l = some (b, a, r)) : r.length < l.length := by
  unfold tryConf2At at h
  revert h
  split
  next c rest heq =>
    have hrest : rest.length < l.length := by
      have := dropWhile_len_le isPySpace l
      rw [heq] at this
      simpa using this
    split
    · split
      · intro h; cases h; exact hrest
      · intro h; cases h
    · intro h; cases h
  · intro h; cases h

/-- Whether `(prev2, prev1)` satisfies the `(?<=\b[A-Za-z])` lookbehind:
the previous character is an ASCII letter with a word boundary before it. -/
def prevIsBoundedAlpha : Option Char → Option Char → Bool
  | p2, some c =>
    (c.isAlpha) && (match p2 with
      | none => true
      | some d => !(isWordChar d))
  | _, none => false

/-- `ALPHA_ONE_RE.sub("1", s)` — the scanning pass, threading the two
previous original characters (fuelled structural recursion, fuel = input
length suffices by `tryConf2At_len`). -/
def conf2Aux : Nat → Option Char → Option Char → List Char → List Char
  | _, _, _, [] => []
  | 0, _, _, l => l
  | fuel + 1, prev2, prev1, c :: rest =>
    if prevIsBoundedAlpha prev2 prev1 then
      match tryConf2At (c :: rest) with
      | some (wsEmpty, ilC, rest') =>
        '1' :: conf2Aux fuel (if wsEmpty then prev1 else some ' ') (some ilC) rest'
      | none => c :: conf2Aux fuel prev1 (some c) rest
    else c :: conf2Aux fuel prev1 (some c) rest

def conf2Sub (l : List Char) : List Char := conf2Aux l.length none none l

/-- The `if confusables:` block of `normalize`. -/
def confStage (confusables : Bool) (l : List Char) : List Char :=
  if confusables then conf2Sub (conf1Sub l) else l

/-- `normalize(value, confusables)` from `headers_sequential.py`:
remove soft hyphens, collapse spaced dot pairs (single pass), collapse
whitespace, optionally fold confusables, then `strip().casefold()`. -/
def normalize (confusables : Bool) (s : List Char) : List Char :=
  pyCasefold (pyStrip (confStage confusables
    (wsCollapse (dotSub (s.filter (fun c => c ≠ softHyphen))))))

end HSeq

namespace HSeq

open PyStr

/-! ### Idempotence analysis of `normalize` (claim C4)

The soft-hyphen removal, whitespace collapse, trim and casefold stages each
fix every `normalize` output; only the dot-collapse and confusable passes
can fail to, which is exactly what breaks idempotence (see the C4
counterexample).  The lemmas below establish the four unconditional
fixed-point facts. -/

theorem suffix_of_cons_suffix {c : Char} {t l : List Char} (h : c :: t <:+ l) : t <:+ l :=
  List.IsSuffix.trans ⟨[c], rfl⟩ h

theorem tryDotAt_spec {l : List Char} {a b : Char} {r : List Char}
    (h : tryDotAt l = some (a, b, r)) : a ∈ l ∧ b ∈ l ∧ r <:+ l := by
  match l with
  | [] => simp [tryDotAt] at h
  | c :: rest =>
    by_cases hd : c.isDigit
    · rcases hq : rest.dropWhile isPySpace with _ | ⟨x, rest2⟩
      · simp [tryDotAt, hd, hq] at h
      · by_cases hx : x = '.'
        · rcases hq2 : rest2.dropWhile isPySpace with _ | ⟨d, rest3⟩
          · simp [tryDotAt, hd, hq, hx, hq2] at h
          · by_cases hd2 : d.isDigit
            · have hs1 : x :: rest2 <:+ rest := by
                rw [← hq]; exact List.dropWhile_suffix _
              have hs2 : rest2 <:+ rest := suffix_of_cons_suffix hs1
              have hs3 : d :: rest3 <:+ rest2 := by
                rw [← hq2]; exact List.dropWhile_suffix _
              have hs4 : rest3 <:+ rest2 := suffix_of_cons_suffix hs3
              have hdm : d ∈ c :: rest :=
                List.mem_cons_of_mem _ (hs2.subset (hs3.subset (List.mem_cons_self _ _)))
              have hrs : rest3 <:+ c :: rest := (hs4.trans hs2).trans ⟨[c], rfl⟩
              simp only [tryDotAt, hd, hq, hx, hq2, hd2, if_true, Option.some.injEq,
                Prod.mk.injEq] at h
              obtain ⟨h1, h2, h3⟩ := h
              subst h1; subst h2; subst h3
              exact ⟨List.mem_cons_self _ _, hdm, hrs⟩
            · simp [tryDotAt, hd, hq, hx, hq2, hd2] at h
        · simp [tryDotAt, hd, hq, hx] at h
    · simp [tryDotAt, hd] at h

theorem tryConf1At_suffix {l : List Char} {a : Char} {r : List Char}
    (h : tryConf1At l = some (a, r)) : r <:+ l := by
  revert h
  unfold tryConf1At
  split
  next c rest heq =>
    have hsuf : rest <:+ l := suffix_of_cons_suffix (heq ▸ List.dropWhile_suffix _)
    have hdwsuf : rest.dropWhile isPySpace <:+ rest := List.dropWhile_suffix _
    have htd : rest.takeWhile isPySpace ++ rest.dropWhile isPySpace = rest :=
      List.takeWhile_append_dropWhile (p := isPySpace) (l := rest)
    split
    · simp only
      split
      · intro h; cases h; exact hdwsuf.trans hsuf
      · split
        · intro h; cases h
        · split
          · intro h
            cases h
            rw [htd]
            exact hsuf
          · intro h
            cases h
            have : (rest.takeWhile isPySpace).drop ((rest.takeWhile isPySpace).length - 1)
                ++ rest.dropWhile isPySpace
                = ((rest.takeWhile isPySpace) ++ rest.dropWhile isPySpace).drop
                  ((rest.takeWhile isPySpace).length - 1) := by
              rw [List.drop_append_of_le_length (by omega)]
            rw [this, htd]
            exact (List.drop_suffix _ _).trans hsuf
    · intro h; cases h
  · intro h; cases h

theorem tryConf2At_suffix {l : List Char} {b : Bool} {a : Char} {r : List Char}
    (h : tryConf2At l = some (b, a, r)) : r <:+ l := by
  revert h
  unfold tryConf2At
  split
  next c rest heq =>
    have hsuf : rest <:+ l := suffix_of_cons_suffix (heq ▸ List.dropWhile_suffix _)
    split
    · split
      · intro h; cases h; exact hsuf
      · intro h; cases h
    · intro h; cases h
  · intro h; cases h

theorem mem_dotSubF {fuel : Nat} {l : List Char} {c : Char}
    (h : c ∈ dotSubF fuel l) : c ∈ l ∨ c = '.' := by
  induction fuel generalizing l with
  | zero =>
    match l with
    | [] => simp [dotSubF] at h
    | x :: rest => exact Or.inl (by simpa [dotSubF] using h)
  | succ fuel ih =>
    match l with
    | [] => simp [dotSubF] at h
    | x :: rest =>
      rcases hq : tryDotAt (x :: rest) with _ | ⟨d1, d2, rest'⟩
      · rw [dotSubF, hq] at h
        rcases List.mem_cons.mp h with h1 | h1
        · exact Or.inl (h1 ▸ List.mem_cons_self _ _)
        · rcases ih h1 with h2 | h2
          · exact Or.inl (List.mem_cons_of_mem _ h2)
          · exact Or.inr h2
      · rw [dotSubF, hq] at h
        obtain ⟨ha, hb, hsuf⟩ := tryDotAt_spec hq
        rcases List.mem_cons.mp h with h1 | h1
        · exact Or.inl (h1 ▸ ha)
        rcases List.mem_cons.mp h1 with h2 | h2
        · exact Or.inr h2
        rcases List.mem_cons.mp h2 with h3 | h3
        · exact Or.inl (h3 ▸ hb)
        · rcases ih h3 with h4 | h4
          · exact Or.inl (hsuf.subset h4)
          · exact Or.inr h4

theorem mem_wsCollapseF {fuel : Nat} {l : List Char} {c : Char}
    (h : c ∈ wsCollapseF fuel l) : c ∈ l ∨ c = ' ' := by
  induction fuel generalizing l with
  | zero =>
    match l with
    | [] => simp [wsCollapseF] at h
    | x :: rest => exact Or.inl (by simpa [wsCollapseF] using h)
  | succ fuel ih =>
    match l with
    | [] => simp [wsCollapseF] at h
    | x :: rest =>
      by_cases hs : isPySpace x
      · rw [wsCollapseF, if_pos hs] at h
        rcases List.mem_cons.mp h with h1 | h1
        · exact Or.inr h1
        · rcases ih h1 with h2 | h2
          · exact Or.inl (List.mem_cons_of_mem _ ((List.dropWhile_suffix _).subset h2))
          · exact Or.inr h2
      · rw [wsCollapseF, if_neg hs] at h
        rcases List.mem_cons.mp h with h1 | h1
        · exact Or.inl (h1 ▸ List.mem_cons_self _ _)
        · rcases ih h1 with h2 | h2
          · exact Or.inl (List.mem_cons_of_mem _ h2)
          · exact Or.inr h2

theorem mem_conf1Aux {fuel : Nat} {prev : Option Char} {l : List Char} {c : Char}
    (h : c ∈ conf1Aux fuel prev l) : c ∈ l ∨ c = '1' := by
  induction fuel generalizing prev l with
  | zero =>
    match l with
    | [] => simp [conf1Aux] at h
    | x :: rest => exact Or.inl (by simpa [conf1Aux] using h)
  | succ fuel ih =>
    match l with
    | [] => simp [conf1Aux] at h
    | x :: rest =>
      by_cases hp : prevIsDigit prev
      · rcases hq : tryConf1At (x :: rest) with _ | ⟨lastC, rest'⟩
        · rw [conf1Aux, if_pos hp, hq] at h
          rcases List.mem_cons.mp h with h1 | h1
          · exact Or.inl (h1 ▸ List.mem_cons_self _ _)
          · rcases ih h1 with h2 | h2
            · exact Or.inl (List.mem_cons_of_mem _ h2)
            · exact Or.inr h2
        · rw [conf1Aux, if_pos hp, hq] at h
          rcases List.mem_cons.mp h with h1 | h1
          · exact Or.inr h1
          · rcases ih h1 with h2 | h2
            · exact Or.inl ((tryConf1At_suffix hq).subset h2)
            · exact Or.inr h2
      · rw [conf1Aux, if_neg hp] at h
        rcases List.mem_cons.mp h with h1 | h1
        · exact Or.inl (h1 ▸ List.mem_cons_self _ _)
        · rcases ih h1 with h2 | h2
          · exact Or.inl (List.mem_cons_of_mem _ h2)
          · exact Or.inr h2

theorem mem_conf2Aux {fuel : Nat} {prev2 prev1 : Option Char} {l : List Char} {c : Char}
    (h : c ∈ conf2Aux fuel prev2 prev1 l) : c ∈ l ∨ c = '1' := by
  induction fuel generalizing prev2 prev1 l with
  | zero =>
    match l with
    | [] => simp [conf2Aux] at h
    | x :: rest => exact Or.inl (by simpa [conf2Aux] using h)
  | succ fuel ih =>
    match l with
    | [] => simp [conf2Aux] at h
    | x :: rest =>
      by_cases hp : prevIsBoundedAlpha prev2 prev1
      · rcases hq : tryConf2At (x :: rest) with _ | ⟨wsE, ilC, rest'⟩
        · rw [conf2Aux, if_pos hp, hq] at h
          rcases List.mem_cons.mp h with h1 | h1
          · exact Or.inl (h1 ▸ List.mem_cons_self _ _)
          · rcases ih h1 with h2 | h2
            · exact Or.inl (List.mem_cons_of_mem _ h2)
            · exact Or.inr h2
        · rw [conf2Aux, if_pos hp, hq] at h
          rcases List.mem_cons.mp h with h1 | h1
          · exact Or.inr h1
          · rcases ih h1 with h2 | h2
            · exact Or.inl ((tryConf2At_suffix hq).subset h2)
            · exact Or.inr h2
      · rw [conf2Aux, if_neg hp] at h
        rcases List.mem_cons.mp h with h1 | h1
        · exact Or.inl (h1 ▸ List.mem_cons_self _ _)
        · rcases ih h1 with h2 | h2
          · exact Or.inl (List.mem_cons_of_mem _ h2)
          · exact Or.inr h2

theorem pyStrip_isInfix (l : List Char) : pyStrip l <:+: l := by
  unfold pyStrip
  have h1 : (l.dropWhile isPySpace) <:+ l := List.dropWhile_suffix _
  have h2 : ((l.dropWhile isPySpace).reverse.dropWhile isPySpace)
      <:+ (l.dropWhile isPySpace).reverse := List.dropWhile_suffix _
  have h3 : ((l.dropWhile isPySpace).reverse.dropWhile isPySpace).reverse
      <+: (l.dropWhile isPySpace) := by
    apply List.reverse_suffix.mp
    simpa using h2
  exact h3.isInfix.trans h1.isInfix

theorem mem_pyStrip {l : List Char} {c : Char} (h : c ∈ pyStrip l) : c ∈ l :=
  (pyStrip_isInfix l).subset h

theorem asciiLower_eq_iff {c d : Char} : asciiLower c = d ↔ (asciiLower c).toNat = d.toNat :=
  ⟨fun h => h ▸ rfl, char_toNat_injective⟩

theorem softHyphen_not_mem_normalize (conf : Bool) (x : List Char) :
    softHyphen ∉ normalize conf x := by
  intro h
  unfold normalize at h
  rcases List.mem_map.mp h with ⟨d, hd, hld⟩
  have h173 : softHyphen.toNat = 173 := by decide
  have hdAD : d = softHyphen := by
    apply char_toNat_injective
    have hln := congrArg Char.toNat hld
    rw [toNat_asciiLower, h173] at hln
    rw [h173]
    split at hln
    · omega
    · exact hln
  subst hdAD
  have h2 : softHyphen ∈ confStage conf
      (wsCollapse (dotSub (x.filter (fun c => c ≠ softHyphen)))) :=
    mem_pyStrip hd
  have h3 : softHyphen ∈ wsCollapse (dotSub (x.filter (fun c => c ≠ softHyphen))) := by
    unfold confStage at h2
    split at h2
    · rcases mem_conf2Aux h2 with h4 | h4
      · rcases mem_conf1Aux h4 with h5 | h5
        · exact h5
        · exact absurd h5 (by decide)
      · exact absurd h4 (by decide)
    · exact h2
  rcases mem_wsCollapseF h3 with h4 | h4
  · rcases mem_dotSubF h4 with h5 | h5
    · have h6 := (List.mem_filter.mp h5).2
      simp at h6
    · exact absurd h5 (by decide)
  · exact absurd h4 (by decide)

end HSeq

namespace HSeq

open PyStr

/-! ### Whitespace normal form: the whitespace-collapse, trim and casefold
stages fix every `normalize` output unconditionally. -/

/-- Every whitespace character is a plain space. -/
def plainSp (l : List Char) : Prop := ∀ c ∈ l, isPySpace c = true → c = ' '

/-- No two adjacent whitespace characters. -/
def noAdjSp (l : List Char) : Prop :=
  l.Chain' (fun a b => ¬(isPySpace a = true ∧ isPySpace b = true))

/-- Whether the first character is whitespace (`false` for the empty list). -/
def headSp : List Char → Bool
  | [] => false
  | c :: _ => isPySpace c

theorem headSp_eq {l : List Char} {c : Char} (h : l.head? = some c) :
    headSp l = isPySpace c := by
  cases l with
  | nil => cases h
  | cons x t => cases h; rfl

theorem dropWhile_headSp (l : List Char) : headSp (l.dropWhile isPySpace) = false := by
  induction l with
  | nil => rfl
  | cons c t ih =>
    by_cases h : isPySpace c
    · simpa [List.dropWhile, h] using ih
    · simp only [List.dropWhile, h]
      show isPySpace c = false
      simpa using h

theorem dropWhile_eq_self_of_headSp {l : List Char} (h : headSp l = false) :
    l.dropWhile isPySpace = l := by
  cases l with
  | nil => rfl
  | cons c t =>
    have hc : isPySpace c = false := h
    simp [List.dropWhile, hc]

theorem headSp_wsCollapseF (fuel : Nat) (l : List Char) :
    headSp (wsCollapseF fuel l) = headSp l := by
  match fuel, l with
  | fuel, [] => cases fuel <;> rfl
  | 0, c :: rest => rfl
  | fuel + 1, c :: rest =>
    by_cases h : isPySpace c
    · rw [wsCollapseF, if_pos h]
      show isPySpace ' ' = isPySpace c
      rw [h]
      decide
    · rw [wsCollapseF, if_neg h]
      rfl

theorem wsCollapseF_plain (fuel : Nat) :
    ∀ l : List Char, l.length ≤ fuel → plainSp (wsCollapseF fuel l) := by
  induction fuel with
  | zero =>
    intro l hf
    have : l = [] := List.length_eq_zero.mp (Nat.le_zero.mp hf)
    subst this
    intro c hc
    simp [wsCollapseF] at hc
  | succ fuel ih =>
    intro l hf
    match l with
    | [] => intro c hc; simp [wsCollapseF] at hc
    | x :: rest =>
      by_cases h : isPySpace x
      · rw [wsCollapseF, if_pos h]
        intro c hc hsp
        rcases List.mem_cons.mp hc with h1 | h1
        · exact h1
        · exact ih _ (le_trans (dropWhile_len_le _ rest) (by simpa using hf)) c h1 hsp
      · rw [wsCollapseF, if_neg h]
        intro c hc hsp
        rcases List.mem_cons.mp hc with h1 | h1
        · subst h1; exact absurd hsp (by simpa using h)
        · exact ih _ (by simpa using hf) c h1 hsp

theorem wsCollapseF_noAdj (fuel : Nat) :
    ∀ l : List Char, l.length ≤ fuel → noAdjSp (wsCollapseF fuel l) := by
  induction fuel with
  | zero =>
    intro l hf
    have : l = [] := List.length_eq_zero.mp (Nat.le_zero.mp hf)
    subst this
    exact List.chain'_nil
  | succ fuel ih =>
    intro l hf
    match l with
    | [] => exact List.chain'_nil
    | x :: rest =>
      by_cases h : isPySpace x
      · rw [wsCollapseF, if_pos h]
        apply List.chain'_cons'.mpr
        constructor
        · intro b hb
          have h1 : headSp (wsCollapseF fuel (rest.dropWhile isPySpace)) = isPySpace b :=
            headSp_eq hb
          rw [headSp_wsCollapseF, dropWhile_headSp] at h1
          intro hc
          rw [← h1] at hc
          exact Bool.false_ne_true hc.2
        · exact ih _ (le_trans (dropWhile_len_le _ rest) (by simpa using hf))
      · rw [wsCollapseF, if_neg h]
        apply List.chain'_cons'.mpr
        constructor
        · intro b hb hc
          exact h (by simpa using hc.1)
        · exact ih _ (by simpa using hf)

theorem wsCollapseF_fix (fuel : Nat) :
    ∀ l : List Char, l.length ≤ fuel → plainSp l → noAdjSp l → wsCollapseF fuel l = l := by
  induction fuel with
  | zero =>
    intro l hf _ _
    have : l = [] := List.length_eq_zero.mp (Nat.le_zero.mp hf)
    subst this
    rfl
  | succ fuel ih =>
    intro l hf hp hn
    match l with
    | [] => rfl
    | x :: rest =>
      by_cases h : isPySpace x
      · have hx : x = ' ' := hp x (List.mem_cons_self _ _) h
        have hdr : rest.dropWhile isPySpace = rest := by
          apply dropWhile_eq_self_of_headSp
          cases hh : rest.head? with
          | none => cases rest with
            | nil => rfl
            | cons a t => cases hh
          | some b =>
            rw [headSp_eq hh]
            have := (List.chain'_cons'.mp hn).1 b hh
            by_contra hb
            exact this ⟨h, by simpa using hb⟩
        rw [wsCollapseF, if_pos h, hdr,
          ih rest (by simpa using hf)
            (fun c hc => hp c (List.mem_cons_of_mem _ hc))
            (List.chain'_cons'.mp hn).2,
          hx]
      · rw [wsCollapseF, if_neg h,
          ih rest (by simpa using hf)
            (fun c hc => hp c (List.mem_cons_of_mem _ hc))
            (List.chain'_cons'.mp hn).2]

theorem headSp_conf1Aux {fuel : Nat} {prev : Option Char} {l : List Char}
    (h : headSp (conf1Aux fuel prev l) = true) : headSp l = true := by
  match fuel, l with
  | _, [] => simpa [conf1Aux, headSp] using h
  | 0, c :: rest => simpa [conf1Aux] using h
  | fuel + 1, c :: rest =>
    by_cases hp : prevIsDigit prev
    · rcases hq : tryConf1At (c :: rest) with _ | ⟨lastC, rest'⟩
      · rw [conf1Aux, if_pos hp, hq] at h
        exact h
      · rw [conf1Aux, if_pos hp, hq] at h
        exact absurd h (by simp [headSp]; decide)
    · rw [conf1Aux, if_neg hp] at h
      exact h

theorem conf1Aux_plain {fuel : Nat} {prev : Option Char} {l : List Char}
    (hp : plainSp l) : plainSp (conf1Aux fuel prev l) := by
  induction fuel generalizing prev l with
  | zero =>
    match l with
    | [] => intro c hc; simp [conf1Aux] at hc
    | x :: rest => simpa [conf1Aux] using hp
  | succ fuel ih =>
    match l with
    | [] => intro c hc; simp [conf1Aux] at hc
    | x :: rest =>
      by_cases hpr : prevIsDigit prev
      · rcases hq : tryConf1At (x :: rest) with _ | ⟨lastC, rest'⟩
        · rw [conf1Aux, if_pos hpr, hq]
          intro c hc hsp
          rcases List.mem_cons.mp hc with h1 | h1
          · exact hp c (h1 ▸ List.mem_cons_self _ _) hsp
          · exact ih (fun d hd => hp d (List.mem_cons_of_mem _ hd)) c h1 hsp
        · rw [conf1Aux, if_pos hpr, hq]
          intro c hc hsp
          rcases List.mem_cons.mp hc with h1 | h1
          · subst h1; exact absurd hsp (by decide)
          · exact ih (fun d hd => hp d ((tryConf1At_suffix hq).subset hd)) c h1 hsp
      · rw [conf1Aux, if_neg hpr]
        intro c hc hsp
        rcases List.mem_cons.mp hc with h1 | h1
        · exact hp c (h1 ▸ List.mem_cons_self _ _) hsp
        · exact ih (fun d hd => hp d (List.mem_cons_of_mem _ hd)) c h1 hsp

theorem conf1Aux_noAdj {fuel : Nat} {prev : Option Char} {l : List Char}
    (hn : noAdjSp l) : noAdjSp (conf1Aux fuel prev l) := by
  induction fuel generalizing prev l with
  | zero =>
    match l with
    | [] => exact List.chain'_nil
    | x :: rest => simpa [conf1Aux] using hn
  | succ fuel ih =>
    match l with
    | [] => exact List.chain'_nil
    | x :: rest =>
      by_cases hpr : prevIsDigit prev
      · rcases hq : tryConf1At (x :: rest) with _ | ⟨lastC, rest'⟩
        · rw [conf1Aux, if_pos hpr, hq]
          apply List.chain'_cons'.mpr
          refine ⟨?_, ih (List.chain'_cons'.mp hn).2⟩
          intro b hb hc
          have h1 : headSp (conf1Aux fuel (some x) rest) = isPySpace b := headSp_eq hb
          have h2 : headSp rest = true :=
            headSp_conf1Aux (h1.trans (by simpa using hc.2) : _)
          cases rest with
          | nil => simp [headSp] at h2
          | cons y t =>
            exact (List.chain'_cons'.mp hn).1 y rfl ⟨hc.1, by simpa [headSp] using h2⟩
        · rw [conf1Aux, if_pos hpr, hq]
          apply List.chain'_cons'.mpr
          refine ⟨?_, ih ( List.Chain'.infix hn ((tryConf1At_suffix hq).isInfix))⟩
          intro b hb hc
          exact absurd hc.1 (by decide)
      · rw [conf1Aux, if_neg hpr]
        apply List.chain'_cons'.mpr
        refine ⟨?_, ih (List.chain'_cons'.mp hn).2⟩
        intro b hb hc
        have h1 : headSp (conf1Aux fuel (some x) rest) = isPySpace b := headSp_eq hb
        have h2 : headSp rest = true :=
          headSp_conf1Aux (h1.trans (by simpa using hc.2) : _)
        cases rest with
        | nil => simp [headSp] at h2
        | cons y t =>
          exact (List.chain'_cons'.mp hn).1 y rfl ⟨hc.1, by simpa [headSp] using h2⟩

theorem headSp_conf2Aux {fuel : Nat} {prev2 prev1 : Option Char} {l : List Char}
    (h : headSp (conf2Aux fuel prev2 prev1 l) = true) : headSp l = true := by
  match fuel, l with
  | _, [] => simpa [conf2Aux, headSp] using h
  | 0, c :: rest => simpa [conf2Aux] using h
  | fuel + 1, c :: rest =>
    by_cases hp : prevIsBoundedAlpha prev2 prev1
    · rcases hq : tryConf2At (c :: rest) with _ | ⟨wsE, ilC, rest'⟩
      · rw [conf2Aux, if_pos hp, hq] at h
        exact h
      · rw [conf2Aux, if_pos hp, hq] at h
        exact absurd h (by simp [headSp]; decide)
    · rw [conf2Aux, if_neg hp] at h
      exact h

theorem conf2Aux_plain {fuel : Nat} {prev2 prev1 : Option Char} {l : List Char}
    (hp : plainSp l) : plainSp (conf2Aux fuel prev2 prev1 l) := by
  induction fuel generalizing prev2 prev1 l with
  | zero =>
    match l with
    | [] => intro c hc; simp [conf2Aux] at hc
    | x :: rest => simpa [conf2Aux] using hp
  | succ fuel ih =>
    match l with
    | [] => intro c hc; simp [conf2Aux] at hc
    | x :: rest =>
      by_cases hpr : prevIsBoundedAlpha prev2 prev1
      · rcases hq : tryConf2At (x :: rest) with _ | ⟨wsE, ilC, rest'⟩
        · rw [conf2Aux, if_pos hpr, hq]
          intro c hc hsp
          rcases List.mem_cons.mp hc with h1 | h1
          · exact hp c (h1 ▸ List.mem_cons_self _ _) hsp
          · exact ih (fun d hd => hp d (List.mem_cons_of_mem _ hd)) c h1 hsp
        · rw [conf2Aux, if_pos hpr, hq]
          intro c hc hsp
          rcases List.mem_cons.mp hc with h1 | h1
          · subst h1; exact absurd hsp (by decide)
          · exact ih (fun d hd => hp d ((tryConf2At_suffix hq).subset hd)) c h1 hsp
      · rw [conf2Aux, if_neg hpr]
        intro c hc hsp
        rcases List.mem_cons.mp hc with h1 | h1
        · exact hp c (h1 ▸ List.mem_cons_self _ _) hsp
        · exact ih (fun d hd => hp d (List.mem_cons_of_mem _ hd)) c h1 hsp

theorem conf2Aux_noAdj {fuel : Nat} {prev2 prev1 : Option Char} {l : List Char}
    (hn : noAdjSp l) : noAdjSp (conf2Aux fuel prev2 prev1 l) := by
  induction fuel generalizing prev2 prev1 l with
  | zero =>
    match l with
    | [] => exact List.chain'_nil
    | x :: rest => simpa [conf2Aux] using hn
  | succ fuel ih =>
    match l with
    | [] => exact List.chain'_nil
    | x :: rest =>
      by_cases hpr : prevIsBoundedAlpha prev2 prev1
      · rcases hq : tryConf2At (x :: rest) with _ | ⟨wsE, ilC, rest'⟩
        · rw [conf2Aux, if_pos hpr, hq]
          apply List.chain'_cons'.mpr
          refine ⟨?_, ih (List.chain'_cons'.mp hn).2⟩
          intro b hb hc
          have h1 : headSp (conf2Aux fuel prev1 (some x) rest) = isPySpace b := headSp_eq hb
          have h2 : headSp rest = true :=
            headSp_conf2Aux (h1.trans (by simpa using hc.2) : _)
          cases rest with
          | nil => simp [headSp] at h2
          | cons y t =>
            exact (List.chain'_cons'.mp hn).1 y rfl ⟨hc.1, by simpa [headSp] using h2⟩
        · rw [conf2Aux, if_pos hpr, hq]
          apply List.chain'_cons'.mpr
          refine ⟨?_, ih ( List.Chain'.infix hn ((tryConf2At_suffix hq).isInfix))⟩
          intro b hb hc
          exact absurd hc.1 (by decide)
      · rw [conf2Aux, if_neg hpr]
        apply List.chain'_cons'.mpr
        refine ⟨?_, ih (List.chain'_cons'.mp hn).2⟩
        intro b hb hc
        have h1 : headSp (conf2Aux fuel prev1 (some x) rest) = isPySpace b := headSp_eq hb
        have h2 : headSp rest = true :=
          headSp_conf2Aux (h1.trans (by simpa using hc.2) : _)
        cases rest with
        | nil => simp [headSp] at h2
        | cons y t =>
          exact (List.chain'_cons'.mp hn).1 y rfl ⟨hc.1, by simpa [headSp] using h2⟩

end HSeq

namespace HSeq

open PyStr

/-! ### Trim and casefold fix every `normalize` output. -/

theorem isPySpace_toNat {c : Char} (h : isPySpace c = true) :
    c.toNat = 32 ∨ c.toNat = 9 ∨ c.toNat = 10 ∨ c.toNat = 13 ∨ c.toNat = 11 ∨ c.toNat = 12 := by
  simp only [isPySpace, Bool.or_eq_true, decide_eq_true_eq] at h
  rcases h with ((((h | h) | h) | h) | h) | h <;> subst h <;> decide

theorem isPySpace_asciiLower (c : Char) : isPySpace (asciiLower c) = isPySpace c := by
  by_cases h : 65 ≤ c.toNat ∧ c.toNat ≤ 90
  · have h1 : isPySpace (asciiLower c) = false := by
      by_contra hx
      have hx' : isPySpace (asciiLower c) = true := by simpa using hx
      have := isPySpace_toNat hx'
      rw [toNat_asciiLower, if_pos h] at this
      omega
    have h2 : isPySpace c = false := by
      by_contra hx
      have hx' : isPySpace c = true := by simpa using hx
      have := isPySpace_toNat hx'
      omega
    rw [h1, h2]
  · unfold asciiLower
    rw [if_neg h]

theorem dropWhile_map_lower (l : List Char) :
    (l.map asciiLower).dropWhile isPySpace = (l.dropWhile isPySpace).map asciiLower := by
  induction l with
  | nil => rfl
  | cons c t ih =>
    by_cases h : isPySpace c
    · have h' : isPySpace (asciiLower c) = true := by rw [isPySpace_asciiLower]; exact h
      simp only [List.map_cons, List.dropWhile, h, h', ih]
    · have h' : isPySpace (asciiLower c) = false := by rw [isPySpace_asciiLower]; simpa using h
      simp only [List.map_cons, List.dropWhile, h', eq_self_iff_true]
      simp [h, h']

theorem pyStrip_casefold_comm (l : List Char) :
    pyStrip (pyCasefold l) = pyCasefold (pyStrip l) := by
  unfold pyStrip pyCasefold
  rw [dropWhile_map_lower, ← List.map_reverse, dropWhile_map_lower, ← List.map_reverse]

theorem getLast?_of_suffix {v w : List Char} (h : v <:+ w) (hne : v ≠ []) :
    v.getLast? = w.getLast? := by
  obtain ⟨t, rfl⟩ := h
  rw [List.getLast?_append_of_ne_nil _ hne]

theorem pyStrip_idem (l : List Char) : pyStrip (pyStrip l) = pyStrip l := by
  by_cases hvnil : (l.dropWhile isPySpace).reverse.dropWhile isPySpace = []
  · show pyStrip (pyStrip l) = pyStrip l
    unfold pyStrip
    rw [hvnil]
    rfl
  · have h2 : ((l.dropWhile isPySpace).reverse.dropWhile isPySpace)
        <:+ (l.dropWhile isPySpace).reverse := List.dropWhile_suffix _
    have hvlast : ((l.dropWhile isPySpace).reverse.dropWhile isPySpace).getLast?
        = (l.dropWhile isPySpace).head? := by
      rw [getLast?_of_suffix h2 hvnil, List.getLast?_reverse]
    have h1 : headSp ((l.dropWhile isPySpace).reverse.dropWhile isPySpace).reverse = false := by
      cases hh : ((l.dropWhile isPySpace).reverse.dropWhile isPySpace).reverse.head? with
      | none => cases hrev : ((l.dropWhile isPySpace).reverse.dropWhile isPySpace).reverse with
        | nil => rfl
        | cons a t => rw [hrev] at hh; cases hh
      | some b =>
        rw [headSp_eq hh]
        rw [List.head?_reverse, hvlast] at hh
        have := dropWhile_headSp l
        cases hu : l.dropWhile isPySpace with
        | nil => rw [hu] at hh; cases hh
        | cons a t =>
          rw [hu] at hh
          cases hh
          rw [hu] at this
          exact this
    have h3 : headSp ((l.dropWhile isPySpace).reverse.dropWhile isPySpace) = false :=
      dropWhile_headSp _
    show pyStrip (pyStrip l) = pyStrip l
    unfold pyStrip
    rw [dropWhile_eq_self_of_headSp h1, List.reverse_reverse,
      dropWhile_eq_self_of_headSp h3]

theorem pyCasefold_idem (l : List Char) : pyCasefold (pyCasefold l) = pyCasefold l := by
  unfold pyCasefold
  rw [List.map_map]
  apply List.map_congr_left
  intro c _
  exact asciiLower_idem c

theorem noAdjSp_pyCasefold {l : List Char} (hn : noAdjSp l) : noAdjSp (pyCasefold l) := by
  unfold pyCasefold noAdjSp
  rw [List.chain'_map]
  apply hn.imp
  intro a b hab hc
  exact hab ⟨by rw [← isPySpace_asciiLower]; exact hc.1,
    by rw [← isPySpace_asciiLower]; exact hc.2⟩

theorem plainSp_pyCasefold {l : List Char} (hp : plainSp l) : plainSp (pyCasefold l) := by
  intro c hc hsp
  rcases List.mem_map.mp hc with ⟨d, hd, rfl⟩
  rw [isPySpace_asciiLower] at hsp
  rw [hp d hd hsp]
  decide

theorem plainSp_of_subset {l m : List Char} (h : ∀ c ∈ l, c ∈ m) (hm : plainSp m) :
    plainSp l :=
  fun c hc hsp => hm c (h c hc) hsp

theorem plainSp_normalize (conf : Bool) (x : List Char) : plainSp (normalize conf x) := by
  unfold normalize
  apply plainSp_pyCasefold
  apply plainSp_of_subset (fun c hc => (pyStrip_isInfix _).subset hc)
  unfold confStage
  split
  · exact conf2Aux_plain (conf1Aux_plain (wsCollapseF_plain _ _ (le_refl _)))
  · exact wsCollapseF_plain _ _ (le_refl _)

theorem noAdjSp_normalize (conf : Bool) (x : List Char) : noAdjSp (normalize conf x) := by
  unfold normalize
  apply noAdjSp_pyCasefold
  apply fun h => List.Chain'.infix h (pyStrip_isInfix _)
  unfold confStage
  split
  · exact conf2Aux_noAdj (conf1Aux_noAdj (wsCollapseF_noAdj _ _ (le_refl _)))
  · exact wsCollapseF_noAdj _ _ (le_refl _)

/-- Conditional idempotence of `normalize`: the whitespace, trim, casefold
and soft-hyphen stages always fix a `normalize` output, so `normalize` is
idempotent at `x` exactly when the dot-collapse and the two confusable
substitutions fix `normalize x`. -/
theorem normalize_idem_of_stage_fixes (conf : Bool) (x : List Char)
    (hdot : dotSub (normalize conf x) = normalize conf x)
    (hc1 : conf1Sub (normalize conf x) = normalize conf x)
    (hc2 : conf2Sub (normalize conf x) = normalize conf x) :
    normalize conf (normalize conf x) = normalize conf x := by
  have hfil : (normalize conf x).filter (fun c => c ≠ softHyphen) = normalize conf x :=
    List.filter_eq_self.mpr (fun a ha => decide_eq_true
      (fun hEq => (softHyphen_not_mem_normalize conf x) (hEq ▸ ha)))
  have hws : wsCollapse (normalize conf x) = normalize conf x :=
    wsCollapseF_fix _ _ (le_refl _) (plainSp_normalize conf x) (noAdjSp_normalize conf x)
  have hconf : confStage conf (normalize conf x) = normalize conf x := by
    unfold confStage
    split
    · show conf2Sub (conf1Sub (normalize conf x)) = normalize conf x
      rw [hc1, hc2]
    · rfl
  have hstrip : pyStrip (normalize conf x) = normalize conf x := by
    show pyStrip (pyCasefold (pyStrip (confStage conf (wsCollapse (dotSub
      (x.filter (fun c => c ≠ softHyphen))))))) = normalize conf x
    rw [pyStrip_casefold_comm, pyStrip_idem]
    rfl
  have hcf : pyCasefold (normalize conf x) = normalize conf x := by
    show pyCasefold (pyCasefold (pyStrip (confStage conf (wsCollapse (dotSub
      (x.filter (fun c => c ≠ softHyphen))))))) = normalize conf x
    rw [pyCasefold_idem]
    rfl
  show pyCasefold (pyStrip (confStage conf (wsCollapse (dotSub
    ((normalize conf x).filter (fun c => c ≠ softHyphen)))))) = normalize conf x
  rw [hfil, hdot, hws, hconf, hstrip, hcf]

end HSeq

namespace Rx

open PyStr

/-! ## A small explicit-backtracking regex engine

Covers exactly the constructs appearing in the patterns the source compiles
(`compile_number_regex`, `compile_number_regex_fuzzy`,
`_build_number_pattern`): literals (optionally case-insensitive under
`re.IGNORECASE`), single-character classes, concatenation, prioritised
alternation, counted repetition of a character class (greedy or lazy),
zero-width lookahead / single-character lookbehind, `\b` and `$`.
`run` returns every way a match starting at the current position can
proceed, in CPython backtracking priority order, as pairs of (consumed
characters in reverse, remaining input). -/

inductive RE where
  | eps
  | lit (ci : Bool) (c : Char)
  | cls (p : Char → Bool)
  | seq (a b : RE)
  | alt (a b : RE)
  | rep (p : Char → Bool) (low : Nat) (high : Option Nat) (greedy : Bool)
  | look (neg : Bool) (r : RE)
  | lookb (ok : Option Char → Bool)
  | wb
  | eos

def charMatches (ci : Bool) (c x : Char) : Bool :=
  if ci then asciiLower c = asciiLower x else c = x

/-- The split points of a counted class repetition, in priority order
(longest first when greedy, shortest first when lazy). -/
def repSplits (p : Char → Bool) (low : Nat) (high : Option Nat) (greedy : Bool)
    (before s : List Char) : List (List Char × List Char) :=
  let run := s.takeWhile p
  let maxTake := match high with
    | none => run.length
    | some h => min run.length h
  if low > maxTake then []
  else
    (List.range (maxTake + 1 - low)).map (fun i =>
      let k := if greedy then maxTake - i else low + i
      ((s.take k).reverse ++ before, s.drop k))

def headIsWord : List Char → Bool
  | [] => false
  | c :: _ => isWordChar c

def RE.run : RE → List Char → List Char → List (List Char × List Char)
  | .eps, b, s => [(b, s)]
  | .lit ci c, b, s =>
    match s with
    | [] => []
    | x :: rest => if charMatches ci c x then [(x :: b, rest)] else []
  | .cls p, b, s =>
    match s with
    | [] => []
    | x :: rest => if p x then [(x :: b, rest)] else []
  | .seq r1 r2, b, s => (r1.run b s).flatMap (fun pr => r2.run pr.1 pr.2)
  | .alt r1 r2, b, s => r1.run b s ++ r2.run b s
  | .rep p low high greedy, b, s => repSplits p low high greedy b s
  | .look neg r, b, s =>
    if neg then (if (r.run b s).isEmpty then [(b, s)] else [])
    else (if (r.run b s).isEmpty then [] else [(b, s)])
  | .lookb ok, b, s => if ok b.head? then [(b, s)] else []
  | .wb, b, s => if headIsWord b != headIsWord s then [(b, s)] else []
  | .eos, b, s => if s.isEmpty then [(b, s)] else []

/-- `pattern.search(s) is not None`: try a match at every position, left to
right. -/
def searchAux (r : RE) : List Char → List Char → Bool
  | before, [] => !(r.run before []).isEmpty
  | before, c :: rest => !(r.run before (c :: rest)).isEmpty || searchAux r (c :: before) rest

def RE.searchB (r : RE) (s : List Char) : Bool := searchAux r [] s

/-- `pattern.match(s)` restricted to what the callers use: the end offset of
the match (CPython returns the first match in backtracking priority order). -/
def RE.matchEnd (r : RE) (s : List Char) : Option Nat :=
  match r.run [] s with
  | [] => none
  | pr :: _ => some (s.length - pr.2.length)

/-- Concatenation of a literal token (each character a `lit`). -/
def litSeq (ci : Bool) (tok : List Char) : RE :=
  tok.foldr (fun c acc => .seq (.lit ci c) acc) .eps

end Rx

namespace Py

/-! ## Python container primitives

Dicts are insertion-ordered association lists: updating an existing key
keeps its position, a new key is appended.  `sortBy lt` is a stable
ascending sort (insertion sort), matching `list.sort(key=...)` /
`sorted(key=...)` with `lt a b = key(a) < key(b)`. -/

def dictGet {κ ν : Type} [DecidableEq κ] (l : List (κ × ν)) (k : κ) : Option ν :=
  (l.find? (fun kv => kv.1 = k)).map Prod.snd

def dictSet {κ ν : Type} [DecidableEq κ] : List (κ × ν) → κ → ν → List (κ × ν)
  | [], k, v => [(k, v)]
  | (k', v') :: rest, k, v =>
    if k' = k then (k', v) :: rest else (k', v') :: dictSet rest k v

/-- `setdefault`-style append used by `defaultdict(list)` grouping. -/
def groupAppend {κ α : Type} [DecidableEq κ] : List (κ × List α) → κ → α → List (κ × List α)
  | [], k, x => [(k, [x])]
  | (k', xs) :: rest, k, x =>
    if k' = k then (k', xs ++ [x]) :: rest else (k', xs) :: groupAppend rest k x

def groupBy {κ α : Type} [DecidableEq κ] (key : α → κ) (l : List α) : List (κ × List α) :=
  l.foldl (fun acc x => groupAppend acc (key x) x) []

def insertSorted {α : Type} (lt : α → α → Bool) (x : α) : List α → List α
  | [] => [x]
  | y :: ys => if lt y x then y :: insertSorted lt x ys else x :: y :: ys

def sortBy {α : Type} (lt : α → α → Bool) : List α → List α
  | [] => []
  | x :: xs => insertSorted lt x (sortBy lt xs)

/-- First-occurrence deduplication (iteration over a Python `set` is modelled
in first-insertion order; every use below is order-independent). -/
def dedupKeepFirst {α : Type} [DecidableEq α] (l : List α) : List α :=
  l.foldl (fun acc x => if acc.contains x then acc else acc ++ [x]) []

/-- Python `range(start, stop)` over integers. -/
def intRange (start stop : Int) : List Int :=
  (List.range (stop - start).toNat).map (fun i => start + i)

end Py

namespace Config

/-! Default configuration values from `backend/config.py` (the embeddings fix
every knob at its documented default). -/

def HEADERS_BAND_LINES : Int := 5
def HEADERS_FUZZY_THRESHOLD : Int := 80
def HEADERS_WINDOW_PAD_LINES : Int := 40
def HEADERS_TITLE_ONLY_REANCHOR : Bool := true
def HEADERS_RESCAN_PASSES : Nat := 2
def HEADERS_STRICT_FUZZY_THRESH : Int := 75
def HEADERS_STRICT_TITLE_ONLY_THRESH : Int := 72
def HEADERS_STRICT_BAND_LINES : Int := 3
def HEADERS_STRICT_TOC_MIN_DOT_LEADERS : Nat := 4
def HEADERS_STRICT_TOC_MIN_SECTION_TOKENS : Nat := 6
def HEADERS_STRICT_AFTER_ANCHOR_ONLY : Bool := true
def HEADERS_STRICT_LAST_OCCURRENCE_FALLBACK : Bool := true
def HEADERS_FINAL_MONOTONIC_GUARD : Bool := true

end Config

namespace Fuzz

open PyStr

/-! ## Model of the external `rapidfuzz` dependency

`token_set_ratio` comes from the third-party `rapidfuzz` library (an
external collaborator, out of the core's scope).  It is modelled here with
the published token-set algorithm over the indel (LCS) similarity.  No
theorem below depends on its values: every concrete execution appearing in
a witness or counterexample takes a code path on which it is not called. -/

def lcsLen : List Char → List Char → Nat
  | [], _ => 0
  | _ :: _, [] => 0
  | a :: as, b :: bs =>
    if a = b then 1 + lcsLen as bs
    else max (lcsLen (a :: as) bs) (lcsLen as (b :: bs))
termination_by a b => a.length + b.length
decreasing_by all_goals simp_arith

def indelDist (a b : List Char) : Nat := a.length + b.length - 2 * lcsLen a b

def fuzzRatio (a b : List Char) : Rat :=
  if a.length + b.length = 0 then 100
  else (100 : Rat) * (((a.length + b.length - indelDist a b : Nat) : Rat)
    / ((a.length + b.length : Nat) : Rat))

/-- `str.split()` with no argument: split on whitespace runs, no empties. -/
def pySplitF : Nat → List Char → List (List Char)
  | _, [] => []
  | 0, _ => []
  | fuel + 1, s =>
    let t := s.dropWhile isPySpace
    match t with
    | [] => []
    | c :: rest => (c :: rest.takeWhile (fun x => !isPySpace x))
        :: pySplitF fuel (rest.dropWhile (fun x => !isPySpace x))

def pySplit (s : List Char) : List (List Char) := pySplitF s.length s

def listLexLt : List Char → List Char → Bool
  | [], [] => false
  | [], _ :: _ => true
  | _ :: _, [] => false
  | a :: as, b :: bs => if a = b then listLexLt as bs else a < b

def sortedTokens (s : List Char) : List (List Char) :=
  Py.dedupKeepFirst (Py.sortBy listLexLt (pySplit s))

def joinSp (ts : List (List Char)) : List Char := List.intercalate [' '] ts

def max3 (a b c : Rat) : Rat := max a (max b c)

def tokenSetRatio (s1 s2 : List Char) : Rat :=
  let t1 := sortedTokens s1
  let t2 := sortedTokens s2
  if t1.isEmpty || t2.isEmpty then 0
  else
    let sect := t1.filter (fun t => t2.contains t)
    let d12 := t1.filter (fun t => !t2.contains t)
    let d21 := t2.filter (fun t => !t1.contains t)
    if !sect.isEmpty && (d12.isEmpty || d21.isEmpty) then 100
    else
      let sJ := joinSp sect
      let sAb := joinSp (sect ++ d12)
      let sBa := joinSp (sect ++ d21)
      max3 (fuzzRatio sJ sAb) (fuzzRatio sJ sBa) (fuzzRatio sAb sBa)

end Fuzz

namespace HSeq

open PyStr

/-! ## `headers_sequential.py` — numbering model, noise detectors, scoring -/

structure Line where
  text : List Char
  page : Int
  global_idx : Int
  line_idx : Int
  is_running : Bool
deriving DecidableEq, Repr

structure HeaderItem where
  num : List Char
  title : List Char
  level : Int
  tokens : List (List Char)
deriving DecidableEq, Repr

/-- `NUMBER_COMPONENT_RE.findall`: maximal runs of ASCII letters or digits. -/
def numberTokensF : Nat → List Char → List (List Char)
  | _, [] => []
  | 0, _ => []
  | fuel + 1, c :: rest =>
    if c.isAlpha then
      (c :: rest.takeWhile Char.isAlpha) :: numberTokensF fuel (rest.dropWhile Char.isAlpha)
    else if c.isDigit then
      (c :: rest.takeWhile Char.isDigit) :: numberTokensF fuel (rest.dropWhile Char.isDigit)
    else numberTokensF fuel rest

def numberTokens (num : List Char) : List (List Char) := numberTokensF num.length num

def asciiUpper (c : Char) : Char :=
  if 97 ≤ c.toNat ∧ c.toNat ≤ 122 then Char.ofNat (c.toNat - 32) else c

def alphaComponentValue (token : List Char) : Int :=
  token.foldl (fun total c =>
    let u := asciiUpper c
    if 65 ≤ u.toNat ∧ u.toNat ≤ 90 then total * 26 + ((u.toNat : Int) - 64) else total) 0

def digitsToInt (ds : List Char) : Int :=
  ds.foldl (fun a c => a * 10 + ((c.toNat : Int) - 48)) 0

/-- `re.findall(r"\d+", token)` head element. -/
def firstDigitRun : List Char → Option (List Char)
  | [] => none
  | c :: rest =>
    if c.isDigit then some (c :: rest.takeWhile Char.isDigit) else firstDigitRun rest

def componentValue (token : List Char) : Int :=
  if !token.isEmpty && token.all Char.isDigit then digitsToInt token
  else if !token.isEmpty && token.all Char.isAlpha then alphaComponentValue token
  else
    match firstDigitRun token with
    | some ds => digitsToInt ds
    | none => 0

def numberKeyStr (num : List Char) : List Int := (numberTokens num).map componentValue

def numberKeyToks (toks : List (List Char)) : List Int := toks.map componentValue

/-- `number_parent`: strip the last dotted component, or the trailing digit
run of an undotted token. -/
def numberParent (num : List Char) : Option (List Char) :=
  if num.isEmpty then none
  else if num.contains '.' then
    some ((num.reverse.dropWhile (fun c => c ≠ '.')).drop 1).reverse
  else
    let stripped := pyStrip num
    if stripped.isEmpty then none
    else
      let pre := (stripped.reverse.dropWhile Char.isDigit).reverse
      if pre.length = 0 ∨ pre.length ≥ stripped.length then none else some pre

def descendLoop : Nat → Option (List Char) → List Char → Bool
  | _, none, _ => false
  | 0, some _, _ => false
  | fuel + 1, some cur, parent =>
    if cur = parent then true else descendLoop fuel (numberParent cur) parent

/-- `is_number_descendant` (the `while current:` walk is fuelled by the
candidate's length; `number_parent` strictly shortens its argument). -/
def isNumberDescendant (candidate parent : List Char) : Bool :=
  if parent.isEmpty || candidate.isEmpty || candidate = parent then false
  else descendLoop candidate.length (numberParent candidate) parent

/-- `TOC_LEADER_RE = re.compile(r"\.{3,}\s*\d+\s*$")`, as a search.  Every
match is anchored at the end, so it exists iff after stripping trailing
whitespace the text ends in a nonempty digit run preceded (after optional
whitespace) by at least three dots.  (`\d+` must cover the whole trailing
digit run: the character before a shorter take would be a digit, which
neither `\s*` nor `\.` matches.  Line texts contain no newline, so `$` is
end-of-string.) -/
def tocLeaderTail (s : List Char) : Bool :=
  let r := s.reverse
  let r1 := r.dropWhile isPySpace
  let digits := r1.takeWhile Char.isDigit
  let r2 := r1.dropWhile Char.isDigit
  let r3 := r2.dropWhile isPySpace
  let dots := r3.takeWhile (fun c => c = '.')
  !digits.isEmpty && decide (dots.length ≥ 3)

def isProbableTocLine (text : List Char) : Bool := tocLeaderTail text

/-- `detect_toc_pages`: pages on which at least six non-running lines look
like dotted TOC leaders. -/
def detectTocPages (lines : List Line) : List Int :=
  let hits : List (Int × Nat) := lines.foldl (fun acc ln =>
    if ln.is_running then acc
    else if isProbableTocLine ln.text then
      Py.dictSet acc ln.page ((Py.dictGet acc ln.page).getD 0 + 1)
    else acc) []
  (hits.filter (fun kv => decide (kv.2 ≥ 6))).map Prod.fst

/-- The texts a page contributes to the running-header counter: the
normalized texts of its top `limit` and bottom `limit` lines (by
`global_idx`), excluding lines already flagged running, as a set. -/
def bandCandidates (limit : Nat) (pageLines : List Line) : List (List Char) :=
  let ordered := Py.sortBy (fun a b => decide (a.global_idx < b.global_idx)) pageLines
  let tops := ordered.take limit
  let bots := ordered.drop (ordered.length - limit)
  Py.dedupKeepFirst (((tops ++ bots).filter (fun l => !l.is_running)).map
    (fun l => HSeq.normalize false l.text))

/-- `detect_running_header_footer`.  `int(0.6 * total_pages)` is modelled as
`3 * total_pages / 5` (integer division): `float(0.6)` is below `3/5` by
less than `2⁻⁵⁴`, and for any realistic page count the product never
rounds across an integer, so the two agree exactly. -/
def detectRunningHeaderFooter (lines : List Line) (band : Option Int) : List (List Char) :=
  let limit : Int := band.getD Config.HEADERS_BAND_LINES
  if limit ≤ 0 then []
  else
    let perPage := Py.groupBy (fun l => l.page) lines
    let occurrences : List (List Char × Nat) := perPage.foldl (fun occ pg =>
      (bandCandidates limit.toNat pg.2).foldl
        (fun o t => Py.dictSet o t ((Py.dictGet o t).getD 0 + 1)) occ) []
    let totalPages := perPage.length
    let threshold : Nat := if totalPages ≠ 0 then max 2 (3 * totalPages / 5) else 0
    (occurrences.filter (fun kv => decide (kv.2 ≥ threshold))).map Prod.fst

/-- `cand_score`. -/
def candScore (normLine wantNorm : List Char) (hasNumber inBand : Bool) : Rat :=
  let s1 := Fuzz.tokenSetRatio normLine wantNorm
  let s2 := if hasNumber then s1 + 20 else s1
  if inBand then s2 - 15 else s2

def isIneligibleRunnerOrToc (ln : Line) (normText : List Char)
    (tocPages : List Int) (runners : List (List Char)) : Bool :=
  tocPages.contains ln.page || runners.contains normText

/-- `page_positions`: page → (global_idx → position on page). -/
def pagePositions (lines : List Line) : List (Int × List (Int × Nat)) :=
  (Py.groupBy (fun l => l.page) lines).map (fun pg =>
    (pg.1, ((Py.sortBy (fun a b => decide (a.global_idx < b.global_idx)) pg.2).enum).map
      (fun il => (il.2.global_idx, il.1))))

def within (value start stop : Int) : Bool := start ≤ value && value < stop

def inPageBand (ln : Line) (posMap : List (Int × List (Int × Nat))) (band : Int) : Bool :=
  match Py.dictGet posMap ln.page with
  | none => false
  | some positions =>
    if positions.isEmpty then false
    else
      match Py.dictGet positions ln.global_idx with
      | none => false
      | some pos =>
        let count : Int := positions.length
        decide ((pos : Int) < band) || decide ((pos : Int) ≥ max 0 (count - band))

/-- `compile_number_regex`. -/
def compileNumberRegex (num : List Char) : Rx.RE :=
  let tokens := numberTokens num
  let lookbNS : Rx.RE := .lookb (fun p => match p with
    | none => true
    | some c => isPySpace c)
  let lookEnd : Rx.RE := .look false (.alt .eos (.alt (.cls isPySpace)
    (.cls (fun c => c = ')' || c = '.' || c = ':' || c = '-'))))
  match tokens with
  | [] => .seq lookbNS (.seq (Rx.litSeq true num) lookEnd)
  | t0 :: rest =>
    let tailParts : List Rx.RE := (List.zip (t0 :: rest) rest).map (fun pr =>
      if pr.1.all Char.isDigit && pr.2.all Char.isDigit then
        .seq (.rep isPySpace 0 none true)
          (.seq (.lit true '.') (.seq (.rep isPySpace 0 none true) (Rx.litSeq true pr.2)))
      else
        .seq (.rep (fun c => c = '.' || isPySpace c) 0 none true) (Rx.litSeq true pr.2))
    let core := (Rx.litSeq true t0 :: tailParts).foldr (fun r acc => .seq r acc) .eps
    .seq lookbNS (.seq core lookEnd)

/-- The lexicographic `>` on the `(score, global_idx, has_num)` candidate
tuples of `reanchor_parent_title_only`. -/
def tupleGt (a b : Rat × Int × Bool) : Bool :=
  decide (a.1 > b.1) ||
    (decide (a.1 = b.1) && (decide (a.2.1 > b.2.1) ||
      (decide (a.2.1 = b.2.1) && (a.2.2 && !b.2.2))))

/-- The fold step of `reanchor_parent_title_only`'s candidate scan. -/
def reanchorStep (confusables : Bool) (runners : List (List Char)) (tocPages : List Int)
    (posMap : List (Int × List (Int × Nat))) (fuzzyThreshold : Int)
    (wantNorm : List Char) (numberRegex : Rx.RE) (startScan earliestChildIdx : Int)
    (best : Option (Rat × Int × Bool)) (line : Line) : Option (Rat × Int × Bool) :=
  if line.global_idx ≥ earliestChildIdx || line.global_idx < startScan then best
  else
    let normText := HSeq.normalize confusables line.text
    if isIneligibleRunnerOrToc line normText tocPages runners then best
    else
      let hasNum := numberRegex.searchB normText
      if !hasNum && !Config.HEADERS_TITLE_ONLY_REANCHOR then best
      else
        let score := candScore normText wantNorm hasNum
          (inPageBand line posMap Config.HEADERS_BAND_LINES)
        if score ≥ ((max fuzzyThreshold 70 : Int) : Rat) then
          let candidate := (score, line.global_idx, hasNum)
          match best with
          | none => some candidate
          | some b => if tupleGt candidate b then some candidate else best
        else best

/-- `reanchor_parent_title_only` from `enforce_invariants_and_autofix`
(headers_sequential.py lines 695-739), as a function from its inputs to the
parent's new anchor: `none` when the parent is unknown to `items_by_num`
(the source then returns `False` and leaves `pos` unchanged), otherwise
`some` of the value stored into `pos[parent_num]` — the best candidate in
`[max(0, earliest_child - 800), earliest_child)`, or the implied anchor
`earliest_child` itself when no candidate reaches the threshold. -/
def reanchorParentTitleOnly
    (lines : List Line) (itemsByNum : List (List Char × HeaderItem))
    (confusables : Bool) (runners : List (List Char)) (tocPages : List Int)
    (posMap : List (Int × List (Int × Nat))) (fuzzyThreshold : Int)
    (parentNum : List Char) (earliestChildIdx : Int) : Option Int :=
  match Py.dictGet itemsByNum parentNum with
  | none => none
  | some parentItem =>
    let wantNorm := HSeq.normalize confusables (parentItem.num ++ ' ' :: parentItem.title)
    let numberRegex := compileNumberRegex parentItem.num
    let startScan := max 0 (earliestChildIdx - 800)
    let best := lines.foldl
      (reanchorStep confusables runners tocPages posMap fuzzyThreshold
        wantNorm numberRegex startScan earliestChildIdx) none
    match best with
    | some b => some b.2.1
    | none => some earliestChildIdx

/-- Every candidate the reanchor scan keeps lies strictly before the
earliest child. -/
theorem reanchorStep_inv {confusables runners tocPages posMap fuzzyThreshold wantNorm
    numberRegex startScan earliestChildIdx best line}
    (h : ∀ b, best = some b → b.2.1 < earliestChildIdx) :
    ∀ b, reanchorStep confusables runners tocPages posMap fuzzyThreshold wantNorm
      numberRegex startScan earliestChildIdx best line = some b →
      b.2.1 < earliestChildIdx := by
  intro b hb
  simp only [reanchorStep] at hb
  split at hb
  · exact h b hb
  · next hskip =>
    split at hb
    · exact h b hb
    · split at hb
      · exact h b hb
      · split at hb
        · split at hb
          · cases hb
            simp only [Bool.or_eq_true, decide_eq_true_eq, not_or] at hskip
            show line.global_idx < earliestChildIdx
            omega
          · split at hb
            · cases hb
              simp only [Bool.or_eq_true, decide_eq_true_eq, not_or] at hskip
              show line.global_idx < earliestChildIdx
              omega
            · exact h b hb
        · exact h b hb

theorem reanchor_fold_inv (confusables : Bool) (runners : List (List Char))
    (tocPages : List Int) (posMap : List (Int × List (Int × Nat)))
    (fuzzyThreshold : Int) (wantNorm : List Char) (numberRegex : Rx.RE)
    (startScan earliestChildIdx : Int) :
    ∀ (ls : List Line) (acc : Option (Rat × Int × Bool)),
      (∀ b, acc = some b → b.2.1 < earliestChildIdx) →
      ∀ b, ls.foldl (reanchorStep confusables runners tocPages posMap fuzzyThreshold
          wantNorm numberRegex startScan earliestChildIdx) acc = some b →
        b.2.1 < earliestChildIdx := by
  intro ls
  induction ls with
  | nil => intro acc hacc b hb; exact hacc b hb
  | cons l rest ih =>
    intro acc hacc b hb
    exact ih _ (fun b' hb' => reanchorStep_inv hacc b' hb') b hb

/-- The reanchor pass never moves a parent past its earliest anchored child:
the stored anchor is at most `earliest_child_idx` (strictly before it when a
candidate line was found; equal in the implied-anchor fallback). -/
theorem reanchorParentTitleOnly_le
    (lines : List Line) (itemsByNum : List (List Char × HeaderItem))
    (confusables : Bool) (runners : List (List Char)) (tocPages : List Int)
    (posMap : List (Int × List (Int × Nat))) (fuzzyThreshold : Int)
    (parentNum : List Char) (earliestChildIdx : Int) :
    ∀ v, reanchorParentTitleOnly lines itemsByNum confusables runners tocPages
        posMap fuzzyThreshold parentNum earliestChildIdx = some v →
      v ≤ earliestChildIdx := by
  intro v hv
  unfold reanchorParentTitleOnly at hv
  split at hv
  · cases hv
  · next parentItem hitem =>
    simp only at hv
    rcases hbest : (lines.foldl (reanchorStep confusables runners tocPages posMap
        fuzzyThreshold
        (HSeq.normalize confusables (parentItem.num ++ ' ' :: parentItem.title))
        (compileNumberRegex parentItem.num)
        (max 0 (earliestChildIdx - 800)) earliestChildIdx) none) with _ | b
    · rw [hbest] at hv
      cases hv
      exact le_refl _
    · rw [hbest] at hv
      cases hv
      exact le_of_lt (reanchor_fold_inv confusables runners tocPages posMap
        fuzzyThreshold _ _ _ earliestChildIdx lines none (fun b h => by cases h) b hbest)

end HSeq

namespace Strict

open PyStr

/-! ## `backend/services/headers_llm_strict.py`

`DOTS = r"[.․‧·]"`; `SPACED_DOTS_RE` uses zero-width lookarounds
`(?<=\d)\s*DOTS\s*(?=\d)` so one pass collapses a whole spaced run;
`CONFUSABLE_ONE_RES` are `(?<=\d)\s*[Il]\s*(?=(?:\d|\b))` and
`(?<=DOTS)\s*[Il]\b`, both substituted with `"1"`. -/

def isStrictDot (c : Char) : Bool :=
  c = '.' || c = '․' || c = '‧' || c = '·'

def isNbsp (c : Char) : Bool := c = ' ' || c = ' ' || c = ' '

/-- One attempted match of `\s*[DOTS]\s*(?=\d)` at the head (lookbehind
`(?<=\d)` checked by the caller).  The trailing greedy `\s*` needs no
backtracking: shortening it would put a whitespace character under the
digit lookahead.  Returns the last consumed character and the remainder
(the digit under the lookahead is not consumed). -/
def tryStrictDotAt (l : List Char) : Option (Char × List Char) :=
  match (l.dropWhile isPySpace) with
  | c :: rest =>
    if isStrictDot c then
      let r2 := rest.takeWhile isPySpace
      let rest2 := rest.dropWhile isPySpace
      match rest2 with
      | d :: _ =>
        if d.isDigit then some (if r2.isEmpty then c else ' ', rest2) else none
      | [] => none
    else none
  | [] => none

theorem tryStrictDotAt_len {l : List Char} {a : Char} {r : List Char}
    (h : tryStrictDotAt l = some (a, r)) : r.length < l.length := by
  revert h
  unfold tryStrictDotAt
  split
  next c rest heq =>
    have hrest : rest.length + 1 ≤ l.length := by
      have := dropWhile_len_le isPySpace l
      rw [heq] at this
      simpa using this
    have hdw := dropWhile_len_le isPySpace rest
    split
    · simp only
      split
      next heq2 =>
        split
        · intro h
          cases h
          exact Nat.lt_of_le_of_lt hdw (by omega)
        · intro h; cases h
      · intro h; cases h
    · intro h; cases h
  · intro h; cases h

/-- `SPACED_DOTS_RE.sub(".", s)` (fuelled scan with lookbehind threading). -/
def strictDotAux : Nat → Option Char → List Char → List Char
  | _, _, [] => []
  | 0, _, l => l
  | fuel + 1, prev, c :: rest =>
    if HSeq.prevIsDigit prev then
      match tryStrictDotAt (c :: rest) with
      | some (lastC, rest') => '.' :: strictDotAux fuel (some lastC) rest'
      | none => c :: strictDotAux fuel (some c) rest
    else c :: strictDotAux fuel (some c) rest

def collapseSpacedDots (l : List Char) : List Char := strictDotAux l.length none l

/-- One attempted match of `\s*[Il]\s*(?=(?:\d|\b))` at the head (lookbehind
`(?<=\d)` checked by the caller).  Backtracking the trailing greedy `\s*`:
with the whole whitespace run consumed the lookahead holds iff the next
character is a word character (`\d` or a boundary after a space); any
shorter nonzero take puts whitespace on both sides (no boundary); taking
nothing succeeds when the run is nonempty because `[Il]`–whitespace is a
boundary.  With an empty run the lookahead holds unless the next character
is a letter or underscore. -/
def tryStrictConf1At (l : List Char) : Option (Char × List Char) :=
  match (l.dropWhile isPySpace) with
  | c :: rest =>
    if c = 'I' || c = 'l' then
      let r := rest.takeWhile isPySpace
      let rest2 := rest.dropWhile isPySpace
      if r.isEmpty then
        match rest2 with
        | [] => some (c, rest2)
        | d :: _ => if d.isDigit || !isWordChar d then some (c, rest2) else none
      else
        match rest2 with
        | d :: _ => if isWordChar d then some (' ', rest2) else some (c, rest)
        | [] => some (c, rest)
    else none
  | [] => none

theorem tryStrictConf1At_len {l : List Char} {a : Char} {r : List Char}
    (h : tryStrictConf1At l = some (a, r)) : r.length < l.length := by
  revert h
  unfold tryStrictConf1At
  split
  next c rest heq =>
    have hrest : rest.length + 1 ≤ l.length := by
      have := dropWhile_len_le isPySpace l
      rw [heq] at this
      simpa using this
    have hdw := dropWhile_len_le isPySpace rest
    split
    · simp only
      split
      · split
        · intro h; cases h; simpa using Nat.lt_of_le_of_lt hdw (by omega)
        · split
          · intro h; cases h; exact Nat.lt_of_le_of_lt hdw (by omega)
          · intro h; cases h
      · split
        · split
          · intro h; cases h; exact Nat.lt_of_le_of_lt hdw (by omega)
          · intro h; cases h; omega
        · intro h; cases h; omega
    · intro h; cases h
  · intro h; cases h

def strictConf1Aux : Nat → Option Char → List Char → List Char
  | _, _, [] => []
  | 0, _, l => l
  | fuel + 1, prev, c :: rest =>
    if HSeq.prevIsDigit prev then
      match tryStrictConf1At (c :: rest) with
      | some (lastC, rest') => '1' :: strictConf1Aux fuel (some lastC) rest'
      | none => c :: strictConf1Aux fuel (some c) rest
    else c :: strictConf1Aux fuel (some c) rest

def strictConf1Sub (l : List Char) : List Char := strictConf1Aux l.length none l

def prevIsStrictDot : Option Char → Bool
  | some c => isStrictDot c
  | none => false

/-- One attempted match of `\s*[Il]\b` at the head (lookbehind `(?<=DOTS)`
checked by the caller). -/
def tryStrictConf2At (l : List Char) : Option (Char × List Char) :=
  match (l.dropWhile isPySpace) with
  | c :: rest =>
    if c = 'I' || c = 'l' then
      if rest.isEmpty || !isWordChar (rest.headD ' ') then some (c, rest) else none
    else none
  | [] => none

theorem tryStrictConf2At_len {l : List Char} {a : Char} {r : List Char}
    (h : tryStrictConf2At l = some (a, r)) : r.length < l.length := by
  revert h
  unfold tryStrictConf2At
  split
  next c rest heq =>
    have hrest : rest.length + 1 ≤ l.length := by
      have := dropWhile_len_le isPySpace l
      rw [heq] at this
      simpa using this
    split
    · split
      · intro h; cases h; omega
      · intro h; cases h
    · intro h; cases h
  · intro h; cases h

def strictConf2Aux : Nat → Option Char → List Char → List Char
  | _, _, [] => []
  | 0, _, l => l
  | fuel + 1, prev, c :: rest =>
    if prevIsStrictDot prev then
      match tryStrictConf2At (c :: rest) with
      | some (lastC, rest') => '1' :: strictConf2Aux fuel (some lastC) rest'
      | none => c :: strictConf2Aux fuel (some c) rest
    else c :: strictConf2Aux fuel (some c) rest

def strictConf2Sub (l : List Char) : List Char := strictConf2Aux l.length none l

/-- `normalize_strict_text`. -/
def normalizeStrictText (s : List Char) : List Char :=
  let c1 := s.filter (fun c => c ≠ softHyphen)
  let c2 := c1.map (fun c => if isNbsp c then ' ' else c)
  let c3 := collapseSpacedDots c2
  let c4 := strictConf2Sub (strictConf1Sub c3)
  let c5 := collapseSpacedDots c4
  pyCasefold (pyStrip (HSeq.wsCollapse c5))

/-- `DOTTED_LEADER_RE = re.compile(r"\.{3,}\s*\d+\s*$")`: the same pattern
as `TOC_LEADER_RE` in `headers_sequential.py`. -/
def dottedLeaderSearch (text : List Char) : Bool := HSeq.tocLeaderTail text

/-- `SECTION_LIKE_RE = re.compile(r"^\s*\d+(?:\s*DOTS\s*\d+)*\b")`, as a
(boolean) anchored search.  After the leading whitespace there must be a
digit; `\d+` then swallows the maximal digit run (giving any digit back
would leave a digit on the right of `\b` and of every alternative), and the
run's follower decides the final `\b`: a letter or underscore blocks the
match (the starred group cannot consume it either), anything else — end,
whitespace, punctuation — yields a match with zero iterations. -/
def sectionLikeSearch (text : List Char) : Bool :=
  let t := text.dropWhile isPySpace
  match t with
  | [] => false
  | c :: rest =>
    c.isDigit &&
      (match (c :: rest).dropWhile Char.isDigit with
       | [] => true
       | d :: _ => !(d.isAlpha || d = '_'))

/-- `APPENDIX_LINE_RE = re.compile(r"^\s*APPENDIX\s+[A-Z]\b", re.IGNORECASE)`
as `.match`. -/
def appendixLineMatch (text : List Char) : Bool :=
  let t := text.dropWhile isPySpace
  let word := "appendix".data
  if (t.take 8).map asciiLower = word then
    let rest := t.drop 8
    let ws := rest.takeWhile isPySpace
    let rest2 := rest.dropWhile isPySpace
    if ws.isEmpty then false
    else
      match rest2 with
      | [] => false
      | d :: rest3 =>
        d.isAlpha &&
          (match rest3 with
           | [] => true
           | e :: _ => !isWordChar e)
  else false

/-- `compile_number_regex_fuzzy`: `re.escape(number)` with every `\.`
replaced by `\s*DOTS\s*`, wrapped as
`(?<![0-9A-Za-z.])…\b(?!\.)`, case-insensitive. -/
def compileNumberRegexFuzzy (number : List Char) : Rx.RE :=
  let body := number.foldr (fun c acc =>
    if c = '.' then
      Rx.RE.seq (.rep isPySpace 0 none true)
        (.seq (.cls isStrictDot) (.seq (.rep isPySpace 0 none true) acc))
    else Rx.RE.seq (.lit true c) acc) Rx.RE.eps
  .seq (.lookb (fun p => match p with
      | none => true
      | some c => !(c.isAlpha || c.isDigit || c = '.')))
    (.seq body (.seq .wb (.look true (.lit false '.'))))

end Strict

namespace Strict

open PyStr

def pyRstrip (l : List Char) : List Char := (l.reverse.dropWhile isPySpace).reverse

/-- An input line dict (`BodyLine`) as the strict aligner receives it;
`synthetic_text` is the `_synthetic_text` key added by the appendix fusion
(absent on input). -/
structure BodyLineIn where
  text : List Char
  page : Int
  global_idx : Option Int
  line_idx : Option Int
  is_toc : Bool := false
  is_index : Bool := false
  is_running : Bool := false
  synthetic_text : Option (List Char) := none
deriving DecidableEq, Repr

/-- `detect_toc_pages_strict`. -/
def detectTocPagesStrict (lines : List BodyLineIn) : List Int :=
  (Py.groupBy (fun l => l.page) lines).foldl (fun acc pg =>
    let texts := pg.2.map (fun l => l.text)
    let dotted := (texts.filter dottedLeaderSearch).length
    let sectionLike := (texts.filter (fun t => sectionLikeSearch (normalizeStrictText t))).length
    let bodyLike := (texts.filter (fun t =>
      t.contains '.' && decide ((normalizeStrictText t).length ≥ 40))).length
    if dotted ≥ Config.HEADERS_STRICT_TOC_MIN_DOT_LEADERS then acc ++ [pg.1]
    else if sectionLike ≥ Config.HEADERS_STRICT_TOC_MIN_SECTION_TOKENS
        && bodyLike ≤ max 1 (sectionLike / 2) then acc ++ [pg.1]
    else acc) []

/-- `fuse_two_line_appendix_candidates`. -/
def fuseTwoLineAppendixCandidates : List BodyLineIn → List BodyLineIn
  | [] => []
  | cur :: rest =>
    let cur' :=
      if appendixLineMatch cur.text then
        match rest with
        | next :: _ =>
          let nextText := pyStrip next.text
          if !nextText.isEmpty then
            BodyLineIn.mk cur.text cur.page cur.global_idx cur.line_idx
              cur.is_toc cur.is_index cur.is_running
              (some (pyRstrip cur.text ++ ' ' :: pyLstrip nextText))
          else cur
        | [] => cur
      else cur
    cur' :: fuseTwoLineAppendixCandidates rest

/-- The converted internal line dict of `align_headers_llm_strict`. -/
structure SLine where
  text : List Char
  page : Int
  global_idx : Int
  line_index : Int
  norm : List Char
  norm_syn : Option (List Char)
  blocked : Bool
deriving DecidableEq, Repr

def convertLines (raw : List BodyLineIn) : List SLine :=
  (raw.enum.filterMap (fun il =>
    let idx : Int := il.1
    let entry := il.2
    if (pyStrip entry.text).isEmpty then none
    else
      let gidVal := entry.global_idx.getD idx
      some (SLine.mk entry.text entry.page (if gidVal = 0 then idx else gidVal)
        (entry.line_idx.getD idx)
        (normalizeStrictText entry.text)
        (match entry.synthetic_text with
         | some syn => if syn.isEmpty then none else some (normalizeStrictText syn)
         | none => none)
        (entry.is_toc || entry.is_index || entry.is_running))))

/-- An LLM header dict as the aligner reads it. -/
structure LLMHeader where
  text : List Char
  title : Option (List Char) := none
  number : Option (List Char) := none
  level : Int := 1
deriving DecidableEq, Repr

/-- A `resolved` entry. -/
structure RItem where
  header : LLMHeader
  line : SLine
  number : Option (List Char)
  score : Rat
  strategy : List Char
  band : Bool
deriving DecidableEq, Repr

/-- Python `max(xs, key=...)`, which keeps the first of equal maxima;
`gt a b` is `key a > key b`. -/
def pyMax {α : Type} (gt : α → α → Bool) : List α → Option α
  | [] => none
  | x :: xs => some (xs.foldl (fun acc y => if gt y acc then y else acc) x)

def truthyNum : Option (List Char) → Bool
  | some n => !n.isEmpty
  | none => false

/-- `".".join(number.split(".")[:-1])`, i.e. everything before the last dot. -/
def parentOfDotted (n : List Char) : List Char :=
  ((n.reverse.dropWhile (fun c => c ≠ '.')).drop 1).reverse

structure Ctx where
  lines : List SLine
  tocPages : List Int
  perPage : List (Int × List SLine)
  pagePos : List (Int × List (Int × Nat))

def mkCtx (converted : List SLine) (tocPages : List Int) : Ctx :=
  let perPage := Py.groupBy (fun l => l.page) (converted.filter (fun l => !l.blocked))
  let pagePos := perPage.map (fun pg =>
    (pg.1, ((Py.sortBy (fun a b => decide (a.global_idx < b.global_idx)) pg.2).enum).map
      (fun il => (il.2.global_idx, il.1))))
  Ctx.mk converted tocPages perPage pagePos

def inBand (ctx : Ctx) (line : SLine) : Bool :=
  match Py.dictGet ctx.pagePos line.page with
  | none => false
  | some positions =>
    if positions.isEmpty then false
    else
      match Py.dictGet positions line.global_idx with
      | none => false
      | some pos =>
        let bandLimit := max Config.HEADERS_STRICT_BAND_LINES 0
        let total : Int := ((Py.dictGet ctx.perPage line.page).getD []).length
        if bandLimit = 0 || total = 0 then false
        else decide ((pos : Int) < bandLimit) || decide ((pos : Int) ≥ max 0 (total - bandLimit))

/-- `line["norm_syn"] or line["norm"]` (an empty synthetic normalisation is
falsy in Python). -/
def normBasisOf (line : SLine) : List Char :=
  match line.norm_syn with
  | some s => if s.isEmpty then line.norm else s
  | none => line.norm

/-- `line["norm_syn"] and regex.search(line["norm_syn"])`. -/
def synSearch (regex : Rx.RE) (line : SLine) : Bool :=
  match line.norm_syn with
  | some syn => !syn.isEmpty && regex.searchB syn
  | none => false

/-- One scored candidate tuple `(adjusted_score, line, strategy, band)`. -/
structure Cand where
  score : Rat
  line : SLine
  strategy : List Char
  band : Bool
deriving DecidableEq, Repr

/-- `(item[0], -item[1]["global_idx"])` comparison used to pick `chosen`. -/
def candGt (a b : Cand) : Bool :=
  decide (a.score > b.score) ||
    (decide (a.score = b.score) && decide (a.line.global_idx < b.line.global_idx))

/-- Collect `candidates` and `weak_candidates` for a numbered header. -/
def collectCandidates (ctx : Ctx) (regex : Rx.RE) (wantFull : List Char) :
    List Cand × List Cand :=
  ctx.lines.foldl (fun acc line =>
    if line.blocked || ctx.tocPages.contains line.page then acc
    else
      let normBasis := normBasisOf line
      if regex.searchB line.norm || synSearch regex line then
        let bandFlag := inBand ctx line
        let rawScore := Fuzz.tokenSetRatio normBasis wantFull
        let adjusted := rawScore - (if bandFlag then 10 else 0)
        if adjusted ≥ ((Config.HEADERS_STRICT_FUZZY_THRESH : Int) : Rat) then
          (acc.1 ++ [Cand.mk adjusted line "num+title".data bandFlag], acc.2)
        else if adjusted > 0 then
          (acc.1, acc.2 ++ [Cand.mk adjusted line "num+title-weak".data bandFlag])
        else acc
      else acc) ([], [])

/-- The `title_only` scan: first eligible line scoring at least the
title-only threshold. -/
def findTitleOnly (ctx : Ctx) (titleNorm : List Char) (prevIdx : Int) :
    List SLine → Option Cand
  | [] => none
  | line :: rest =>
    if line.blocked || ctx.tocPages.contains line.page then
      findTitleOnly ctx titleNorm prevIdx rest
    else if Config.HEADERS_STRICT_AFTER_ANCHOR_ONLY && decide (line.global_idx ≤ prevIdx) then
      findTitleOnly ctx titleNorm prevIdx rest
    else
      let normBasis := normBasisOf line
      let score := Fuzz.tokenSetRatio normBasis titleNorm
      if score ≥ ((Config.HEADERS_STRICT_TITLE_ONLY_THRESH : Int) : Rat) then
        some (Cand.mk score line "title_only".data (inBand ctx line))
      else findTitleOnly ctx titleNorm prevIdx rest

/-- The `sequential_fallback` scan: first eligible line after the cursor. -/
def findFallbackLine (ctx : Ctx) (prevIdx : Int) : List SLine → Option SLine
  | [] => none
  | line :: rest =>
    if line.blocked || ctx.tocPages.contains line.page then
      findFallbackLine ctx prevIdx rest
    else if Config.HEADERS_STRICT_AFTER_ANCHOR_ONLY && decide (line.global_idx ≤ prevIdx) then
      findFallbackLine ctx prevIdx rest
    else some line

/-- Resolve one header against the context, given the running cursor.
Returns the chosen candidate (or `none`: the header stays unresolved). -/
def resolveHeader (ctx : Ctx) (prevIdx : Int) (header : LLMHeader) : Option Cand :=
  let title := match header.title with
    | some t => if !t.isEmpty then t else header.text
    | none => header.text
  let titleNorm := normalizeStrictText title
  let number := header.number.map pyStrip
  let wantFull := if truthyNum number then
      normalizeStrictText ((number.getD []) ++ ' ' :: title)
    else titleNorm
  let pair := if truthyNum number then
      collectCandidates ctx (compileNumberRegexFuzzy (number.getD [])) wantFull
    else ([], [])
  let candidates := pair.1
  let weak := pair.2
  let filtered := if Config.HEADERS_STRICT_AFTER_ANCHOR_ONLY && decide (prevIdx ≥ 0) then
      candidates.filter (fun c => decide (c.line.global_idx > prevIdx))
    else candidates
  let chosen0 : Option Cand := pyMax candGt filtered
  let chosen1 : Option Cand :=
    match chosen0 with
    | some c => some c
    | none =>
      if Config.HEADERS_STRICT_LAST_OCCURRENCE_FALLBACK && !candidates.isEmpty then
        (pyMax (fun a b => decide (a.line.global_idx > b.line.global_idx)) candidates).map
          (fun c => Cand.mk c.score c.line "last_occurrence".data c.band)
      else none
  let chosen2 : Option Cand :=
    match chosen1 with
    | some c => some c
    | none =>
      let weakFiltered := if Config.HEADERS_STRICT_AFTER_ANCHOR_ONLY && decide (prevIdx ≥ 0) then
          weak.filter (fun c => decide (c.line.global_idx > prevIdx))
        else weak
      match pyMax candGt weakFiltered with
      | some c => some c
      | none =>
        if Config.HEADERS_STRICT_LAST_OCCURRENCE_FALLBACK && !weak.isEmpty then
          (pyMax (fun a b => decide (a.line.global_idx > b.line.global_idx)) weak).map
            (fun c => Cand.mk c.score c.line "num+title-weak-last".data c.band)
        else none
  let chosen3 : Option Cand :=
    match chosen2 with
    | some c => some c
    | none =>
      if !titleNorm.isEmpty then findTitleOnly ctx titleNorm prevIdx ctx.lines
      else none
  match chosen3 with
  | some c => some c
  | none =>
    (findFallbackLine ctx prevIdx ctx.lines).map
      (fun line => Cand.mk 0 line "sequential_fallback".data false)

def mainLoop (ctx : Ctx) : List LLMHeader → Int → List RItem
  | [], _ => []
  | header :: rest, prevIdx =>
    match resolveHeader ctx prevIdx header with
    | none => mainLoop ctx rest prevIdx
    | some c =>
      RItem.mk header c.line (header.number.map pyStrip) c.score c.strategy c.band
        :: mainLoop ctx rest c.line.global_idx

/-- The final-monotonic-guard body for one resolved item. -/
def guardItem (ctx : Ctx) (positionMap : List (List Char × Int)) (item : RItem) :
    RItem × List (List Char × Int) :=
  match item.number with
  | none => (item, positionMap)
  | some number =>
    if number.isEmpty || !number.contains '.' then (item, positionMap)
    else
      match Py.dictGet positionMap (parentOfDotted number) with
      | none => (item, positionMap)
      | some parentIdx =>
        if decide (parentIdx ≤ item.line.global_idx) then (item, positionMap)
        else
          let regex := compileNumberRegexFuzzy number
          let allCandidates := ctx.lines.filter (fun line =>
            !line.blocked && !ctx.tocPages.contains line.page &&
              (regex.searchB line.norm || synSearch regex line))
          let afterParent := allCandidates.filter (fun line =>
            decide (line.global_idx > parentIdx))
          let repick : Option SLine :=
            if !afterParent.isEmpty then
              pyMax (fun a b => decide (a.global_idx > b.global_idx)) afterParent
            else if Config.HEADERS_STRICT_LAST_OCCURRENCE_FALLBACK
                && !allCandidates.isEmpty then
              pyMax (fun a b => decide (a.global_idx > b.global_idx)) allCandidates
            else none
          match repick with
          | none => (item, positionMap)
          | some newLine =>
            if newLine.global_idx ≠ item.line.global_idx then
              (RItem.mk item.header newLine item.number item.score item.strategy item.band,
                Py.dictSet positionMap number newLine.global_idx)
            else (item, positionMap)

def guardPass (ctx : Ctx) : List RItem → List (List Char × Int) → List RItem
  | [], _ => []
  | item :: rest, positionMap =>
    let pr := guardItem ctx positionMap item
    pr.1 :: guardPass ctx rest pr.2

/-- `align_headers_llm_strict` (all configuration at defaults). -/
def alignHeadersLlmStrict (llmHeaders : List LLMHeader) (linesInput : List BodyLineIn) :
    List RItem :=
  let rawLines := fuseTwoLineAppendixCandidates linesInput
  let converted := convertLines rawLines
  let tocPages := detectTocPagesStrict linesInput
  let ctx := mkCtx converted tocPages
  let resolved := mainLoop ctx llmHeaders (-1)
  if resolved.isEmpty then []
  else
    let sorted := Py.sortBy (fun a b => decide (a.line.global_idx < b.line.global_idx)) resolved
    if Config.HEADERS_FINAL_MONOTONIC_GUARD then
      let positionMap := sorted.foldl (fun acc item =>
        match item.number with
        | some n => if !n.isEmpty then Py.dictSet acc n item.line.global_idx else acc
        | none => acc) []
      let fixed := guardPass ctx sorted positionMap
      Py.sortBy (fun a b => decide (a.line.global_idx < b.line.global_idx)) fixed
    else sorted

end Strict

namespace Orch

open PyStr

/-! ## `headers_orchestrator.py` — components, gap filling, sequence enforcement

Header and line dicts are records whose fields carry the dict values with
Python defaults already applied where a key may be absent; the falsy
coercions (`int(x or 1)` and friends) are modelled explicitly where the
source applies them. -/

inductive CKind where
  | numeric
  | alpha
deriving DecidableEq, Repr

/-- A component dict from `_extract_components` / `_build_component`. -/
structure Component where
  raw : List Char
  normalized : List Char
  kind : Option CKind
  value : Option Int
deriving DecidableEq, Repr

/-- `_alpha_to_int` (same accumulation as `headers_sequential`). -/
def alphaToInt (value : List Char) : Int := HSeq.alphaComponentValue value

def intToAlphaGo : Nat → Nat → List Char → List Char
  | 0, _, acc => acc
  | _ + 1, 0, acc => acc
  | fuel + 1, r + 1, acc => intToAlphaGo fuel (r / 26) (Char.ofNat (65 + r % 26) :: acc)

/-- `_int_to_alpha` (the `while remaining > 0` loop is fuelled by the value;
each step divides the remainder by 26). -/
def intToAlpha (value : Int) : List Char :=
  if value ≤ 0 then ['A'] else intToAlphaGo value.toNat value.toNat []

/-- `_extract_components`.  `NUMBER_COMPONENT_RE`-style `findall` tokens are
maximal letter or digit runs, so `isdigit`/`isalpha` are checked on full
runs; the final (`kind None`) branch is kept although such a token cannot
arise from the alternation. -/
def extractComponents (number : Option (List Char)) : List Component :=
  match number with
  | none => []
  | some text =>
    if text.isEmpty then []
    else
      (HSeq.numberTokens text).map (fun component =>
        if !component.isEmpty && component.all Char.isDigit then
          let value := HSeq.digitsToInt component
          Component.mk component (toString value).data (some CKind.numeric) (some value)
        else if !component.isEmpty && component.all Char.isAlpha then
          let value := alphaToInt component
          Component.mk component (intToAlpha value) (some CKind.alpha) (some value)
        else Component.mk component component none none)

/-- `_prefix_key`. -/
def prefixKey (components : List Component) : List (Option CKind × Option Int) :=
  components.map (fun c => (c.kind, c.value))

/-- `str.zfill` for the non-negative values `_build_component` produces. -/
def zfill (width : Nat) (s : List Char) : List Char :=
  if s.length ≥ width then s else List.replicate (width - s.length) '0' ++ s

/-- Python `str.islower` on the ASCII fragment: at least one letter and no
uppercase letter. -/
def pyIsLowerAscii (l : List Char) : Bool :=
  l.any Char.isAlpha && !l.any (fun c => 65 ≤ c.toNat && c.toNat ≤ 90)

/-- `_build_component` (the call sites always pass a template). -/
def buildComponent (value : Int) (kind : Option CKind) (template : Component) :
    Component :=
  let templateRaw := template.raw
  match kind with
  | some CKind.numeric =>
    let width := if !templateRaw.isEmpty && templateRaw.all Char.isDigit then
        templateRaw.length else 0
    let digits := (toString value).data
    Component.mk (if width ≠ 0 then zfill width digits else digits)
      (toString value).data kind (some value)
  | some CKind.alpha =>
    let n0 := intToAlpha value
    if pyIsLowerAscii templateRaw then
      Component.mk (n0.map asciiLower) (n0.map HSeq.asciiUpper) kind (some value)
    else Component.mk n0 n0 kind (some value)
  | none => Component.mk (toString value).data (toString value).data kind (some value)

/-- `_components_to_number`. -/
def componentsToNumber (components : List Component) : List Char :=
  List.intercalate ['.']
    ((components.map (fun c => c.normalized)).filter (fun n => !n.isEmpty))

/-- A working header dict of `_enforce_header_sequence` (`source_idx` is
popped, not altered, before return; the field simply remains). -/
structure WHeader where
  text : List Char
  number : Option (List Char)
  level : Int
  page : Int
  line_idx : Int
  global_idx : Int
  source_idx : Int
deriving DecidableEq, Repr

def dummyWH : WHeader := WHeader.mk [] none 1 0 0 0 (-1)

def dummyLine : HSeq.Line := HSeq.Line.mk [] 0 0 0 false

/-- The working-header comprehension: `str(...).strip()`, `number or None`,
`int(level or 1)`, and the `get(..., -1)` default for `source_idx`. -/
def mkWorking (h : WHeader) : WHeader :=
  WHeader.mk (pyStrip h.text)
    (match h.number with
     | some n => if n.isEmpty then none else some n
     | none => none)
    (if h.level = 0 then 1 else h.level)
    h.page h.line_idx h.global_idx h.source_idx

/-- Python tuple comparison on the (integer) key tuples, which may have
different lengths: lexicographic with the shorter strict prefix smaller. -/
def intListLt : List Int → List Int → Bool
  | [], [] => false
  | [], _ :: _ => true
  | _ :: _, [] => false
  | a :: xs, b :: ys => if a < b then true else if b < a then false else intListLt xs ys

/-- `_order_key`. -/
def orderKey (h : WHeader) : List Int :=
  let ord := match h.number with
    | some n => HSeq.numberKeyStr n
    | none => [-1]
  if h.source_idx ≥ 0 then h.source_idx :: (ord ++ [h.level, h.global_idx])
  else ord ++ [h.level, h.global_idx]

def gidLt (a b : WHeader) : Bool := decide (a.global_idx < b.global_idx)

def orderLt (a b : WHeader) : Bool := intListLt (orderKey a) (orderKey b)

/-- A chunk dict from `single_chunks_from_headers`. -/
structure Chunk where
  header_text : List Char
  header_number : Option (List Char)
  level : Int
  start_global_idx : Int
  end_global_idx : Int
  start_page : Int
  end_page : Int
deriving DecidableEq, Repr

def dummyChunk : Chunk := Chunk.mk [] none 1 0 0 0 0

/-- The `index_by_global` of `single_chunks_from_headers`
(`setdefault`: the first occurrence of a `global_idx` wins). -/
def idxByGlobalFirst (lines : List HSeq.Line) : List (Int × Nat) :=
  lines.enum.foldl (fun acc il =>
    match Py.dictGet acc il.2.global_idx with
    | some _ => acc
    | none => acc ++ [(il.2.global_idx, il.1)]) []

def singleChunksGo (lines : List HSeq.Line) (idxMap : List (Int × Nat)) :
    List WHeader → List Chunk
  | [] => []
  | h :: rest =>
    let tail := singleChunksGo lines idxMap rest
    match Py.dictGet idxMap h.global_idx with
    | none => tail
    | some curIdx =>
      let endIndex : Int :=
        match rest with
        | next :: _ =>
          let nextIdx : Int :=
            ((Py.dictGet idxMap next.global_idx).map (fun n => (n : Int))).getD
              lines.length
          max (curIdx : Int) (nextIdx - 1)
        | [] => (lines.length : Int) - 1
      if endIndex < (curIdx : Int) then tail
      else
        let startLine := lines.getD curIdx dummyLine
        let endLine := lines.getD endIndex.toNat dummyLine
        Chunk.mk h.text h.number (if h.level = 0 then 1 else h.level)
          startLine.global_idx endLine.global_idx startLine.page endLine.page :: tail

/-- `single_chunks_from_headers` (line `global_idx` values are integers in
this model, so the `_safe_int` guards never skip). -/
def singleChunksFromHeaders (headers : List WHeader) (lines : List HSeq.Line) :
    List Chunk :=
  if headers.isEmpty then []
  else singleChunksGo lines (idxByGlobalFirst lines) headers

/-- A gap dict from `_identify_missing_headers`. -/
structure Gap where
  components : List Component
  after_index : Option Nat
  insert_position : Nat
  level : Int
deriving DecidableEq, Repr

abbrev GapKey := List (Option CKind × Option Int) × Option CKind

/-- The `components_cache` always holds `_extract_components` of the header
at the cached index, so the lookup is modelled by recomputation. -/
def identifyGo (headers : List WHeader) : Nat → List WHeader →
    List (GapKey × Int) → List (GapKey × Nat) → List Gap → List Gap
  | _, [], _, _, missing => missing
  | idx, h :: rest, expectedBy, lastBy, missing =>
    let components := extractComponents h.number
    if components.isEmpty then identifyGo headers (idx + 1) rest expectedBy lastBy missing
    else
      let prefixComponents := components.dropLast
      let lastComponent := components.getLastD (Component.mk [] [] none none)
      match lastComponent.kind, lastComponent.value with
      | some k, some value =>
        let key : GapKey := (prefixKey prefixComponents, some k)
        let lastIndex := Py.dictGet lastBy key
        let newMissing :=
          match Py.dictGet expectedBy key with
          | some expected =>
            if value > expected then
              let templateComponent :=
                match lastIndex with
                | some li =>
                  match (extractComponents ((headers.getD li dummyWH).number)).getLast? with
                  | some t => t
                  | none => lastComponent
                | none => lastComponent
              let prevLevel :=
                match lastIndex with
                | some li =>
                  let lv := (headers.getD li dummyWH).level
                  if lv = 0 then 1 else lv
                | none => if h.level = 0 then 1 else h.level
              missing ++ (Py.intRange expected value).map (fun mv =>
                Gap.mk (prefixComponents ++ [buildComponent mv (some k) templateComponent])
                  lastIndex
                  (match lastIndex with
                   | some li => li + 1
                   | none => 0)
                  prevLevel)
            else missing
          | none => missing
        identifyGo headers (idx + 1) rest (Py.dictSet expectedBy key (value + 1))
          (Py.dictSet lastBy key idx) newMissing
      | _, _ =>
        let key : GapKey := (prefixKey prefixComponents, lastComponent.kind)
        identifyGo headers (idx + 1) rest expectedBy (Py.dictSet lastBy key idx) missing

/-- `_identify_missing_headers`. -/
def identifyMissingHeaders (headers : List WHeader) : List Gap :=
  identifyGo headers 0 headers [] [] []

/-- `_build_number_pattern`: `^\s*[\(\[]?\s*` + parts joined by the lazy
separator `(?:[\s\.\-\)\(]*?)` + `(?:\b|[\.).\-\s:])`, `re.IGNORECASE`.
The leading `^` is subsumed by `pattern.match`. -/
def buildNumberPattern (components : List Component) : Option Rx.RE :=
  if components.isEmpty then none
  else
    let partsList : List Rx.RE := components.map (fun c =>
      match c.kind with
      | some CKind.numeric =>
        Rx.RE.seq (.rep (fun ch => ch = '0') 0 none true) (Rx.litSeq true c.normalized)
      | _ => Rx.litSeq true (if c.raw.isEmpty then c.normalized else c.raw))
    let separator : Rx.RE :=
      .rep (fun ch => isPySpace ch || ch = '.' || ch = '-' || ch = ')' || ch = '(')
        0 none false
    let core := match partsList with
      | [] => Rx.RE.eps
      | p0 :: restP => restP.foldl (fun acc p => .seq acc (.seq separator p)) p0
    let head : Rx.RE :=
      .seq (.rep isPySpace 0 none true)
        (.seq (.rep (fun ch => ch = '(' || ch = '[') 0 (some 1) true)
          (.rep isPySpace 0 none true))
    let tailRE : Rx.RE :=
      .alt .wb (.cls (fun ch => ch = '.' || ch = ')' || ch = '-' || ch = ':' || isPySpace ch))
    some (.seq head (.seq core tailRE))

/-- The scan loop of `_find_header_in_chunk` over `range(start_idx, end_idx + 1)`. -/
def scanChunk (pattern : Rx.RE) (lines : List HSeq.Line) (components : List Component)
    (chunk : Chunk) (fallbackLevel : Option Int) : List Nat → Option WHeader
  | [] => none
  | idx :: rest =>
    let line := lines.getD idx dummyLine
    let stripped := pyLstrip line.text
    match pattern.matchEnd stripped with
    | none => scanChunk pattern lines components chunk fallbackLevel rest
    | some e =>
      let remainder := pyLstripSet " -.):\t".data (stripped.drop e)
      let headerText := if remainder.isEmpty then stripped else remainder
      let level := if chunk.level ≠ 0 then chunk.level
        else match fallbackLevel with
          | some f => if f ≠ 0 then f else 1
          | none => 1
      some (WHeader.mk headerText
        (let s := componentsToNumber components
         if s.isEmpty then none else some s)
        level line.page line.line_idx line.global_idx (-1))

/-- `range(start_idx, end_idx + 1)` of `_find_header_in_chunk`. -/
def chunkScanRange (chunk : Chunk) (idxByGlobal : List (Int × Nat)) : List Nat :=
  let startIdx := (Py.dictGet idxByGlobal chunk.start_global_idx).getD 0
  let endIdx := (Py.dictGet idxByGlobal chunk.end_global_idx).getD startIdx
  List.range' startIdx (endIdx + 1 - startIdx)

/-- `_find_header_in_chunk`. -/
def findHeaderInChunk (chunk : Chunk) (lines : List HSeq.Line)
    (components : List Component) (idxByGlobal : List (Int × Nat))
    (fallbackLevel : Option Int) : Option WHeader :=
  if components.isEmpty then none
  else
    match buildNumberPattern components with
    | none => none
    | some pattern =>
      scanChunk pattern lines components chunk fallbackLevel
        (chunkScanRange chunk idxByGlobal)

/-- The `for gap in gaps` body: the first gap yielding an accepted, fresh
candidate is inserted (then the loop breaks); `none` means no insertion. -/
def tryInsertGaps (lines : List HSeq.Line) (idxByGlobal : List (Int × Nat))
    (w : List WHeader) (s : List Chunk) : List Gap → Option (List WHeader × List Chunk)
  | [] => none
  | gap :: rest =>
    match gap.after_index with
    | none => tryInsertGaps lines idxByGlobal w s rest
    | some ai =>
      if ai ≥ s.length then tryInsertGaps lines idxByGlobal w s rest
      else
        match findHeaderInChunk (s.getD ai dummyChunk) lines gap.components idxByGlobal
            (some gap.level) with
        | none => tryInsertGaps lines idxByGlobal w s rest
        | some cand =>
          if w.any (fun e => e.global_idx = cand.global_idx) then
            tryInsertGaps lines idxByGlobal w s rest
          else
            let pos := min gap.insert_position w.length
            let w' := Py.sortBy gidLt (List.insertIdx pos cand w)
            some (w', singleChunksFromHeaders w' lines)

/-- The `while True` gap loop.  Each recursive step inserts a header whose
`global_idx` is a line's and was not yet present among the working headers,
so at most `lines.length` insertions can happen; the callers pass
`lines.length + 1` fuel, enough for every run to reach its `break`. -/
def enforceLoop (lines : List HSeq.Line) : Nat → List WHeader → List Chunk →
    List WHeader × List Chunk
  | 0, w, s => (w, s)
  | fuel + 1, w, s =>
    let gaps := identifyMissingHeaders w
    if gaps.isEmpty then (w, s)
    else
      let idxByGlobal := lines.enum.foldl
        (fun acc il => Py.dictSet acc il.2.global_idx il.1) []
      match tryInsertGaps lines idxByGlobal w s gaps with
      | none => (w, s)
      | some ws => enforceLoop lines fuel ws.1 ws.2

/-- `_enforce_header_sequence` (the final `entry.pop("source_idx", None)`
removes a key and leaves every other field unchanged). -/
def enforceHeaderSequence (headers : List WHeader) (lines : List HSeq.Line) :
    List WHeader × List Chunk :=
  if headers.isEmpty then ([], [])
  else
    let working := Py.sortBy orderLt (Py.sortBy gidLt (headers.map mkWorking))
    let pr := enforceLoop lines (lines.length + 1) working
      (singleChunksFromHeaders working lines)
    (Py.sortBy orderLt (Py.sortBy gidLt pr.1), pr.2)

end Orch

namespace Sections

open PyStr

/-! ## `sections.py` — `_resolve_headers` and `build_section_spans`

Line dicts are `HSeq.Line` records: their `global_idx`, `page` and
`line_idx` are always integers in this model, so the `_safe_int` guards on
lines never skip.  Header dicts may lack `page`/`line_idx`/`global_idx`
(`Option`). -/

/-- A header dict as `_resolve_headers` reads it (`level` with the
`int(entry.get("level") or 1)` coercion still to apply). -/
structure SHeaderIn where
  text : List Char
  number : Option (List Char) := none
  level : Int := 1
  page : Option Int := none
  line_idx : Option Int := none
  global_idx : Option Int := none
deriving DecidableEq, Repr

/-- `_ResolvedHeader`. -/
structure RHeader where
  text : List Char
  number : Option (List Char)
  level : Int
  page : Option Int
  line_idx : Option Int
  global_idx : Int
deriving DecidableEq, Repr

/-- `_normalise_text`: collapse whitespace runs, strip, lower. -/
def normaliseText (t : List Char) : List Char :=
  pyCasefold (pyStrip (HSeq.wsCollapse t))

/-- `line_by_gid` (`setdefault`: first occurrence wins). -/
def lineByGid (lines : List HSeq.Line) : List (Int × HSeq.Line) :=
  lines.foldl (fun acc l =>
    match Py.dictGet acc l.global_idx with
    | some _ => acc
    | none => acc ++ [(l.global_idx, l)]) []

/-- `lookup_page_line` (`setdefault`: first occurrence wins). -/
def lookupPageLine (lines : List HSeq.Line) : List ((Int × Int) × Int) :=
  lines.foldl (fun acc l =>
    match Py.dictGet acc (l.page, l.line_idx) with
    | some _ => acc
    | none => acc ++ [((l.page, l.line_idx), l.global_idx)]) []

/-- The first loop of `_resolve_headers`: coercions, the `(page, line_idx)`
lookup for a missing `global_idx`, and the skips. -/
def resolveEntry (lookup : List ((Int × Int) × Int)) (h : SHeaderIn) : Option RHeader :=
  let text := pyStrip h.text
  if text.isEmpty then none
  else
    let number := match h.number with
      | none => none
      | some raw => if raw.isEmpty then none else some (pyStrip raw)
    let level := if h.level = 0 then 1 else h.level
    let gid? := match h.global_idx with
      | some g => some g
      | none =>
        match h.page, h.line_idx with
        | some p, some li => Py.dictGet lookup (p, li)
        | _, _ => none
    match gid? with
    | none => none
    | some gid => some (RHeader.mk text number level h.page h.line_idx gid)

/-- The last-occurrence dedup keyed `(number, _normalise_text(text), level)`. -/
def dedupResolved (resolved : List RHeader) :
    List ((Option (List Char) × List Char × Int) × RHeader) :=
  resolved.foldl (fun d h =>
    let key := (h.number, normaliseText h.text, h.level)
    match Py.dictGet d key with
    | none => Py.dictSet d key h
    | some ex => if ex.global_idx ≤ h.global_idx then Py.dictSet d key h else d) []

/-- `math.inf` comparison of optional sort-key parts (`None` is `inf`). -/
def optInfLt : Option Int → Option Int → Bool
  | none, _ => false
  | some _, none => true
  | some x, some y => decide (x < y)

/-- The `(global_idx, page | inf, line_idx | inf)` sort key comparison. -/
def resolvedLt (a b : RHeader) : Bool :=
  if a.global_idx < b.global_idx then true
  else if b.global_idx < a.global_idx then false
  else if optInfLt a.page b.page then true
  else if optInfLt b.page a.page then false
  else optInfLt a.line_idx b.line_idx

/-- The window scan of the bump loop: the first of (at most six) candidate
gids whose line text normalises non-empty and equal to the entry text. -/
def scanWindow (byGid : List (Int × HSeq.Line)) (target : List Char) :
    List Int → Option Int
  | [] => none
  | cg :: rest =>
    match Py.dictGet byGid cg with
    | none => scanWindow byGid target rest
    | some line =>
      let text := normaliseText line.text
      if !text.isEmpty && text = target then some cg
      else scanWindow byGid target rest

/-- `while gid in used: gid += 1`.  `used` never holds duplicates, so
`used.length + 1` fuel always reaches the exit. -/
def bumpWhile : Nat → Int → List Int → Int
  | 0, gid, _ => gid
  | fuel + 1, gid, used => if used.contains gid then bumpWhile fuel (gid + 1) used else gid

/-- The strictly-increasing repair loop of `_resolve_headers`. -/
def bumpGo (byGid : List (Int × HSeq.Line)) (lineOrder : List Int) :
    List RHeader → List Int → List RHeader
  | [], _ => []
  | entry :: rest, used =>
    let gid0 := entry.global_idx
    if used.contains gid0 then
      let startIdx := if (Py.dictGet byGid gid0).isSome then
          lineOrder.indexOf gid0 + 1 else 0
      let window := (lineOrder.drop startIdx).take 6
      let gid1 := (scanWindow byGid (normaliseText entry.text) window).getD gid0
      let gid2 := bumpWhile (used.length + 1) gid1 used
      RHeader.mk entry.text entry.number entry.level entry.page entry.line_idx gid2
        :: bumpGo byGid lineOrder rest (used ++ [gid2])
    else entry :: bumpGo byGid lineOrder rest (used ++ [gid0])

/-- `_resolve_headers` up to (excluding) the bump loop. -/
def resolvePreBump (headers : List SHeaderIn) (lines : List HSeq.Line) : List RHeader :=
  if headers.isEmpty then []
  else
    let resolved := headers.filterMap (resolveEntry (lookupPageLine lines))
    if resolved.isEmpty then []
    else Py.sortBy resolvedLt ((dedupResolved resolved).map Prod.snd)

/-- `_resolve_headers`. -/
def resolveHeaders (headers : List SHeaderIn) (lines : List HSeq.Line) : List RHeader :=
  let byGid := lineByGid lines
  let lineOrder := Py.sortBy (fun a b => decide (a < b)) (byGid.map Prod.fst)
  bumpGo byGid lineOrder (resolvePreBump headers lines) []

/-- A span dict from `build_section_spans`.  The dict also carries a
`section_key` slug derived from number, title and anchor; it duplicates
those fields and is not modelled. -/
structure Span where
  title : List Char
  number : Option (List Char)
  level : Int
  start_global_idx : Int
  end_global_idx : Int
  start_page : Option Int
  end_page : Option Int
deriving DecidableEq, Repr

/-- The clamped `end_gid` of one span: the next anchor, or `document_end`
for the last span. -/
def spanEnd (documentEnd startGid : Int) (rest : List RHeader) : Int :=
  let endGid0 := match rest with
    | next :: _ => next.global_idx
    | [] => documentEnd
  if endGid0 < startGid then startGid else endGid0

/-- `start_line` of one span. -/
def spanStartLine (orderedLines : List HSeq.Line) (idxMap : List (Int × Nat))
    (startGid : Int) : Option HSeq.Line :=
  if orderedLines.isEmpty then none
  else some (orderedLines.getD ((Py.dictGet idxMap startGid).getD 0) Orch.dummyLine)

/-- `end_line` of one span. -/
def spanEndLine (orderedLines : List HSeq.Line) (idxMap : List (Int × Nat))
    (startGid endGid : Int) : Option HSeq.Line :=
  match Py.dictGet idxMap (endGid - 1) with
  | some i => some (orderedLines.getD i Orch.dummyLine)
  | none => spanStartLine orderedLines idxMap startGid

/-- The span-emitting loop of `build_section_spans`. -/
def spansGo (orderedLines : List HSeq.Line) (idxMap : List (Int × Nat))
    (documentEnd : Int) : List RHeader → List Span
  | [] => []
  | h :: rest =>
    let endGid := spanEnd documentEnd h.global_idx rest
    Span.mk h.text h.number h.level h.global_idx endGid
      (match spanStartLine orderedLines idxMap h.global_idx with
       | some l => some l.page
       | none => h.page)
      (match spanEndLine orderedLines idxMap h.global_idx endGid with
       | some l => some l.page
       | none => h.page)
      :: spansGo orderedLines idxMap documentEnd rest

/-- The `ordered_lines` of `build_section_spans` (every line has an integer
`global_idx` in this model, so the filter keeps all lines). -/
def orderedLinesOf (lines : List HSeq.Line) : List HSeq.Line :=
  Py.sortBy (fun a b => decide (a.global_idx < b.global_idx)) lines

/-- `line_index_by_gid` (a dict comprehension: the last occurrence wins). -/
def lineIdxMapOf (lines : List HSeq.Line) : List (Int × Nat) :=
  (orderedLinesOf lines).enum.foldl (fun acc il => Py.dictSet acc il.2.global_idx il.1) []

/-- `document_end`: one past the last ordered line's `global_idx`. -/
def documentEndOf (lines : List HSeq.Line) : Int :=
  match (orderedLinesOf lines).getLast? with
  | some l => l.global_idx + 1
  | none => 0

/-- `build_section_spans`. -/
def buildSectionSpans (headers : List SHeaderIn) (lines : List HSeq.Line) : List Span :=
  let resolved := resolveHeaders headers lines
  if resolved.isEmpty then []
  else spansGo (orderedLinesOf lines) (lineIdxMapOf lines) (documentEndOf lines) resolved

end Sections

namespace Locator

open PyStr

/-! ## `header_locator.py` — `locate_headers_in_lines`, sequential strategy

The two sub-procedures the gate arbitrates between are opaque here:
`align_headers_sequential`'s result enters as the `seqOut` argument and
`_locate_headers_legacy` as the `legacyFn` function argument, exactly as the
cited code consumes them.  `len(sequential_headers) / total_numbered < 0.6`
is modelled as `5 * len < 3 * total`: `float(0.6)` lies below `3/5` by less
than `2⁻⁵⁴` and the rounded quotient of two header counts crosses that gap
only for counts beyond `10¹⁵`. -/

/-- An oracle header dict. -/
structure OHeader where
  text : List Char
  number : Option (List Char) := none
  level : Int := 1
deriving DecidableEq, Repr

/-- A line dict as the locator reads it. -/
structure LocLine where
  text : List Char
  page : Int
  line_idx : Int
  global_idx : Int
  is_toc : Bool := false
  is_index : Bool := false
  is_running : Bool := false
deriving DecidableEq, Repr

/-- An entry of `align_headers_sequential`'s result list. -/
structure SeqEntry where
  title : List Char
  number : Option (List Char) := none
  level : Int := 1
  page : Int := 0
  line_idx : Int := 0
  global_idx : Int := 0
deriving DecidableEq, Repr

/-- An entry of `_locate_headers_legacy`'s result list. -/
structure LegEntry where
  text : List Char
  number : Option (List Char) := none
  level : Int := 1
  page : Int := 0
  line_idx : Int := 0
  global_idx : Int := 0
deriving DecidableEq, Repr

/-- A `located` dict. -/
structure LocHeader where
  text : List Char
  number : Option (List Char)
  level : Int
  page : Int
  line_idx : Int
  global_idx : Int
  source_idx : Int
deriving DecidableEq, Repr

/-- `_normalise` of `header_locator.py`. -/
def locNormalise (t : List Char) : List Char := HSeq.normalize true t

abbrev Buckets := List ((List Char × List Char) × List Int)

/-- The `index_buckets` built over the oracle headers. -/
def mkBuckets (headers : List OHeader) : Buckets :=
  headers.enum.foldl (fun acc ih =>
    let key := (pyStrip (ih.2.number.getD []), locNormalise ih.2.text)
    match Py.dictGet acc key with
    | some bucket => Py.dictSet acc key (bucket ++ [(ih.1 : Int)])
    | none => Py.dictSet acc key [(ih.1 : Int)]) []

/-- `_take_index`: pop the first queued index for the key, or the
out-of-range default.  Returns the index and the updated buckets. -/
def takeIndex (buckets : Buckets) (nHeaders : Nat) (number : Option (List Char))
    (text : List Char) : Int × Buckets :=
  let key := (pyStrip (number.getD []), locNormalise text)
  match Py.dictGet buckets key with
  | some (i :: rest) => (i, Py.dictSet buckets key rest)
  | some [] => ((nHeaders : Int) + 1000, buckets)
  | none => ((nHeaders : Int) + 1000, buckets)

/-- `_eligible`. -/
def eligible (excluded : List Int) (line : LocLine) : Bool :=
  !excluded.contains line.page && !line.is_toc && !line.is_index

/-- Attach `source_idx` to each entry in order, threading the buckets. -/
def attachSourceIdx (nHeaders : Nat) :
    Buckets → List (List Char × Option (List Char) × LocHeader) →
    List LocHeader × Buckets
  | buckets, [] => ([], buckets)
  | buckets, (text, number, entry) :: rest =>
    let pr := takeIndex buckets nHeaders number text
    let tail := attachSourceIdx nHeaders pr.2 rest
    (LocHeader.mk entry.text entry.number entry.level entry.page entry.line_idx
      entry.global_idx pr.1 :: tail.1, tail.2)

def seqToLoc (e : SeqEntry) : LocHeader :=
  LocHeader.mk e.title e.number e.level e.page e.line_idx e.global_idx 0

def legToLoc (e : LegEntry) : LocHeader :=
  LocHeader.mk e.text e.number e.level e.page e.line_idx e.global_idx 0

def finalLt (a b : LocHeader) : Bool :=
  if a.source_idx < b.source_idx then true
  else if b.source_idx < a.source_idx then false
  else decide (a.global_idx < b.global_idx)

/-- `locate_headers_in_lines`, sequential strategy, after the coverage gate
has fixed `sequential_headers`. -/
def locateSeqCore (legacyFn : List OHeader → List LocLine → List LegEntry)
    (headers : List OHeader) (lines : List LocLine) (excluded : List Int)
    (sequentialHeaders : List SeqEntry) : List LocHeader :=
  let buckets0 := mkBuckets headers
  let sequentialLines := lines.filter (eligible excluded)
  let pr := attachSourceIdx headers.length buckets0
    (sequentialHeaders.map (fun e => (e.title, e.number, seqToLoc e)))
  let located := pr.1
  let matchedNumbers := sequentialHeaders.filterMap (fun e =>
    match e.number with
    | some n => if n.isEmpty then none else some n
    | none => none)
  let usedIndices := sequentialHeaders.map (fun e => e.global_idx)
  let remainingHeaders := headers.filter (fun h =>
    !(!(PyStr.pyStrip (h.number.getD [])).isEmpty &&
      matchedNumbers.contains (PyStr.pyStrip (h.number.getD []))))
  let located2 :=
    if remainingHeaders.isEmpty then located
    else
      let filteredLines := sequentialLines.filter (fun l =>
        !usedIndices.contains l.global_idx)
      located ++ (attachSourceIdx headers.length pr.2
        ((legacyFn remainingHeaders filteredLines).map
          (fun e => (e.text, e.number, legToLoc e)))).1
  Py.sortBy finalLt located2

/-- `locate_headers_in_lines`, sequential strategy, from the aligner call
onwards: the coverage gate, then the core. -/
def locateSeq (legacyFn : List OHeader → List LocLine → List LegEntry)
    (seqOut : List SeqEntry) (headers : List OHeader) (lines : List LocLine)
    (excluded : List Int) : List LocHeader :=
  let totalNumbered :=
    (headers.filter (fun h => !(PyStr.pyStrip (h.number.getD [])).isEmpty)).length
  locateSeqCore legacyFn headers lines excluded
    (if totalNumbered ≠ 0 && 5 * seqOut.length < 3 * totalNumbered then []
     else seqOut)

end Locator

/-- Modelled from the spec: `run_strict_headers_pipeline` appears only in
the test suite and has no definition under `src/`.  The spec's error table
says an input line stream that is empty after filtering surfaces a
`NoLinesError` precondition error (code `no_lines`) to the caller instead
of a result; filtering is the strict pipeline's blank-line filter.  The
error record models `AlignmentPreconditionError(code, message)`. -/
structure PipelineError where
  code : List Char
  message : List Char
deriving DecidableEq, Repr

/-- Modelled from the spec: the lines surviving the strict pipeline's
filtering (non-blank text). -/
def strictEligibleLines (lines : List Strict.BodyLineIn) : List Strict.BodyLineIn :=
  lines.filter (fun l => !(PyStr.pyStrip l.text).isEmpty)

/-- Modelled from the spec: the strict pipeline raises `NoLinesError` on an
empty filtered stream and otherwise aligns the headers. -/
def runStrictHeadersPipeline (headers : List Strict.LLMHeader)
    (lines : List Strict.BodyLineIn) : Except PipelineError (List Strict.RItem) :=
  if (strictEligibleLines lines).isEmpty then
    Except.error (PipelineError.mk "no_lines".data "no lines after filtering".data)
  else Except.ok (Strict.alignHeadersLlmStrict headers lines)

namespace Py

/-! ## Facts about the container primitives -/

theorem dictGet_dictSet_self {κ ν : Type} [DecidableEq κ] (l : List (κ × ν)) (k : κ) (v : ν) :
    dictGet (dictSet l k v) k = some v := by
  induction l with
  | nil => simp [dictGet, dictSet, List.find?]
  | cons kv rest ih =>
    by_cases h : kv.1 = k
    · simp [dictSet, h, dictGet, List.find?]
    · simp only [dictSet]
      rw [if_neg h]
      simpa [dictGet, List.find?, h] using ih

theorem dictGet_dictSet_ne {κ ν : Type} [DecidableEq κ] (l : List (κ × ν)) (k k' : κ) (v : ν)
    (h : k' ≠ k) : dictGet (dictSet l k v) k' = dictGet l k' := by
  induction l with
  | nil =>
    have hd : (decide (k = k')) = false := decide_eq_false (fun hh => h hh.symm)
    simp [dictGet, dictSet, List.find?, hd]
  | cons kv rest ih =>
    by_cases hk : kv.1 = k
    · subst hk
      simp only [dictSet, if_pos rfl]
      have hd : (decide (kv.1 = k')) = false := decide_eq_false (fun hh => h hh.symm)
      simp [dictGet, List.find?, hd]
    · simp only [dictSet, if_neg hk]
      by_cases hk' : kv.1 = k'
      · have hd : (decide (kv.1 = k')) = true := decide_eq_true hk'
        simp [dictGet, List.find?, hd]
      · have hd : (decide (kv.1 = k')) = false := decide_eq_false hk'
        simp only [dictGet, List.find?, hd]
        exact ih

theorem mem_dictSet {κ ν : Type} [DecidableEq κ] {l : List (κ × ν)} {k : κ} {v : ν}
    {p : κ × ν} (h : p ∈ dictSet l k v) : p ∈ l ∨ p = (k, v) := by
  induction l with
  | nil => simpa [dictSet] using h
  | cons kv rest ih =>
    simp only [dictSet] at h
    by_cases hk : kv.1 = k
    · rw [if_pos hk] at h
      rcases List.mem_cons.mp h with h1 | h1
      · right; rw [h1, ← hk]
      · left; exact List.mem_cons_of_mem _ h1
    · rw [if_neg hk] at h
      rcases List.mem_cons.mp h with h1 | h1
      · left; exact h1 ▸ List.mem_cons_self _ _
      · rcases ih h1 with h2 | h2
        · left; exact List.mem_cons_of_mem _ h2
        · right; exact h2

theorem keys_dictSet_subset {κ ν : Type} [DecidableEq κ] (l : List (κ × ν)) (k : κ) (v : ν) :
    ∀ x ∈ (dictSet l k v).map Prod.fst, x ∈ l.map Prod.fst ∨ x = k := by
  intro x hx
  rcases List.mem_map.mp hx with ⟨p, hp, hpx⟩
  rcases mem_dictSet hp with h1 | h1
  · left; exact hpx ▸ List.mem_map_of_mem _ h1
  · right; rw [← hpx, h1]

theorem keysNodup_dictSet {κ ν : Type} [DecidableEq κ] {l : List (κ × ν)} (k : κ) (v : ν)
    (h : (l.map Prod.fst).Nodup) : ((dictSet l k v).map Prod.fst).Nodup := by
  induction l with
  | nil => simp [dictSet]
  | cons kv rest ih =>
    simp only [List.map_cons, List.nodup_cons] at h
    by_cases hk : kv.1 = k
    · simp only [dictSet, if_pos hk, List.map_cons, List.nodup_cons]
      exact h
    · simp only [dictSet, if_neg hk, List.map_cons, List.nodup_cons]
      constructor
      · intro hmem
        rcases keys_dictSet_subset rest k v _ hmem with hh | hh
        · exact h.1 hh
        · exact hk hh
      · exact ih h.2

theorem dictGet_eq_some_of_mem {κ ν : Type} [DecidableEq κ] {l : List (κ × ν)}
    {k : κ} {v : ν} (hnd : (l.map Prod.fst).Nodup) (h : (k, v) ∈ l) :
    dictGet l k = some v := by
  induction l with
  | nil => cases h
  | cons kv rest ih =>
    simp only [List.map_cons, List.nodup_cons] at hnd
    rcases List.mem_cons.mp h with h1 | h1
    · rw [← h1]
      simp [dictGet, List.find?]
    · by_cases hk : kv.1 = k
      · exfalso
        apply hnd.1
        rw [hk]
        exact List.mem_map_of_mem _ h1
      · simpa [dictGet, List.find?, hk] using ih hnd.2 h1

theorem mem_of_dictGet_eq_some {κ ν : Type} [DecidableEq κ] {l : List (κ × ν)}
    {k : κ} {v : ν} (h : dictGet l k = some v) : (k, v) ∈ l := by
  unfold dictGet at h
  rcases Option.map_eq_some'.mp h with ⟨kv, hfind, hsnd⟩
  have hm := List.mem_of_find?_eq_some hfind
  have hp := List.find?_some hfind
  simp only [decide_eq_true_eq] at hp
  have : (k, v) = kv := by
    cases kv
    simp only at hp hsnd
    rw [hp, hsnd]
  rw [this]
  exact hm

theorem insertSorted_perm {α : Type} (lt : α → α → Bool) (x : α) (l : List α) :
    List.Perm (insertSorted lt x l) (x :: l) := by
  induction l with
  | nil => exact List.Perm.refl _
  | cons y ys ih =>
    simp only [insertSorted]
    by_cases h : lt y x = true
    · rw [if_pos h]
      exact ((ih.cons y).trans (List.Perm.swap x y ys))
    · rw [if_neg h]

theorem sortBy_perm {α : Type} (lt : α → α → Bool) (l : List α) :
    List.Perm (sortBy lt l) l := by
  induction l with
  | nil => exact List.Perm.refl _
  | cons x xs ih =>
    exact (insertSorted_perm lt x (sortBy lt xs)).trans (ih.cons x)

theorem mem_sortBy {α : Type} {lt : α → α → Bool} {l : List α} {a : α} :
    a ∈ sortBy lt l ↔ a ∈ l := (sortBy_perm lt l).mem_iff

theorem insertSorted_chain' {α : Type} {lt : α → α → Bool}
    (hasym : ∀ a b, lt a b = true → lt b a = false) (x : α) {l : List α}
    (h : List.Chain' (fun a b => lt b a = false) l) :
    List.Chain' (fun a b => lt b a = false) (insertSorted lt x l) := by
  induction l with
  | nil => simp [insertSorted]
  | cons y ys ih =>
    simp only [insertSorted]
    by_cases hlt : lt y x = true
    · rw [if_pos hlt]
      have htail := ih (List.Chain'.tail h)
      cases hys : insertSorted lt x ys with
      | nil => simp
      | cons z zs =>
        rw [hys] at htail
        refine List.Chain'.cons ?_ htail
        have hz : z = x ∨ z ∈ ys := by
          have := (insertSorted_perm lt x ys).mem_iff.mp (hys ▸ List.mem_cons_self z zs)
          simpa using this
        rcases hz with hz | hz
        · rw [hz]; exact hasym _ _ hlt
        · cases ys with
          | nil => cases hz
          | cons w ws =>
            simp only [insertSorted] at hys
            by_cases hw : lt w x = true
            · rw [if_pos hw] at hys
              cases hys
              exact (List.chain'_cons.mp h).1
            · rw [if_neg hw] at hys
              cases hys
              exact hasym _ _ hlt
    · rw [if_neg hlt]
      refine List.Chain'.cons ?_ h
      simpa using hlt

theorem sortBy_chain' {α : Type} {lt : α → α → Bool}
    (hasym : ∀ a b, lt a b = true → lt b a = false) (l : List α) :
    List.Chain' (fun a b => lt b a = false) (sortBy lt l) := by
  induction l with
  | nil => simp [sortBy]
  | cons x xs ih => exact insertSorted_chain' hasym x ih

end Py

namespace Py

/-- The deduplicating fold keeps `Nodup` accumulators `Nodup`. -/
theorem dedupAux_nodup {α : Type} [DecidableEq α] :
    ∀ (l acc : List α), acc.Nodup →
      (l.foldl (fun acc x => if acc.contains x then acc else acc ++ [x]) acc).Nodup := by
  intro l
  induction l with
  | nil => intro acc h; exact h
  | cons x xs ih =>
    intro acc hacc
    simp only [List.foldl_cons]
    by_cases hc : acc.contains x
    · rw [if_pos hc]; exact ih acc hacc
    · rw [if_neg hc]
      apply ih
      refine List.Nodup.append hacc (List.nodup_singleton x) ?_
      intro a ha hax
      rw [List.mem_singleton] at hax
      subst hax
      exact hc (List.elem_eq_true_of_mem ha)

theorem dedupAux_mem {α : Type} [DecidableEq α] :
    ∀ (l acc : List α) (a : α),
      (a ∈ l.foldl (fun acc x => if acc.contains x then acc else acc ++ [x]) acc) ↔
        a ∈ acc ∨ a ∈ l := by
  intro l
  induction l with
  | nil => intro acc a; simp
  | cons x xs ih =>
    intro acc a
    simp only [List.foldl_cons]
    by_cases hc : acc.contains x
    · rw [if_pos hc, ih]
      have hx : x ∈ acc := List.mem_of_elem_eq_true hc
      constructor
      · rintro (h | h)
        · exact Or.inl h
        · exact Or.inr (List.mem_cons_of_mem _ h)
      · rintro (h | h)
        · exact Or.inl h
        · rcases List.mem_cons.mp h with h1 | h1
          · exact Or.inl (h1 ▸ hx)
          · exact Or.inr h1
    · rw [if_neg hc, ih]
      simp only [List.mem_append, List.mem_singleton, List.mem_cons]
      tauto

theorem dedupKeepFirst_nodup {α : Type} [DecidableEq α] (l : List α) :
    (dedupKeepFirst l).Nodup := dedupAux_nodup l [] List.nodup_nil

theorem mem_dedupKeepFirst {α : Type} [DecidableEq α] {l : List α} {a : α} :
    a ∈ dedupKeepFirst l ↔ a ∈ l := by
  rw [dedupKeepFirst, dedupAux_mem]
  simp

theorem count_dedupKeepFirst {α : Type} [DecidableEq α] (l : List α) (a : α) :
    (dedupKeepFirst l).count a = if a ∈ l then 1 else 0 := by
  by_cases h : a ∈ l
  · rw [if_pos h]
    have h1 : 0 < (dedupKeepFirst l).count a :=
      List.count_pos_iff.mpr (mem_dedupKeepFirst.mpr h)
    have h2 := List.nodup_iff_count_le_one.mp (dedupKeepFirst_nodup l) a
    omega
  · rw [if_neg h]
    exact List.count_eq_zero.mpr (fun hm => h (mem_dedupKeepFirst.mp hm))

end Py

namespace Py

/-! ## Facts about `groupBy` -/

theorem dictGet_groupAppend_self {κ α : Type} [DecidableEq κ]
    (acc : List (κ × List α)) (k : κ) (x : α) :
    dictGet (groupAppend acc k x) k = some ((dictGet acc k).getD [] ++ [x]) := by
  induction acc with
  | nil => simp [groupAppend, dictGet, List.find?]
  | cons kv rest ih =>
    by_cases hk : kv.1 = k
    · rcases kv with ⟨k', xs⟩
      simp only at hk
      subst hk
      simp [groupAppend, dictGet, List.find?]
    · rcases kv with ⟨k', xs⟩
      simp only at hk
      have hd : (decide (k' = k)) = false := decide_eq_false hk
      simp only [groupAppend, if_neg hk]
      simp only [dictGet, List.find?, hd]
      exact ih

theorem dictGet_groupAppend_ne {κ α : Type} [DecidableEq κ]
    (acc : List (κ × List α)) (k k'' : κ) (x : α) (h : k'' ≠ k) :
    dictGet (groupAppend acc k x) k'' = dictGet acc k'' := by
  induction acc with
  | nil =>
    have hd : (decide (k = k'')) = false := decide_eq_false (fun hh => h hh.symm)
    simp [groupAppend, dictGet, List.find?, hd]
  | cons kv rest ih =>
    rcases kv with ⟨k', xs⟩
    by_cases hk : k' = k
    · subst hk
      simp only [groupAppend, if_pos rfl]
      have hd : (decide (k' = k'')) = false := decide_eq_false (fun hh => h hh.symm)
      simp [dictGet, List.find?, hd]
    · simp only [groupAppend, if_neg hk]
      by_cases hk'' : k' = k''
      · have hd : (decide (k' = k'')) = true := decide_eq_true hk''
        simp [dictGet, List.find?, hd]
      · have hd : (decide (k' = k'')) = false := decide_eq_false hk''
        simp only [dictGet, List.find?, hd]
        exact ih

theorem mem_keys_groupAppend {κ α : Type} [DecidableEq κ]
    {acc : List (κ × List α)} {k : κ} {x : α} {y : κ}
    (h : y ∈ (groupAppend acc k x).map Prod.fst) :
    y ∈ acc.map Prod.fst ∨ y = k := by
  induction acc with
  | nil => simpa [groupAppend] using h
  | cons kv rest ih =>
    rcases kv with ⟨k', xs⟩
    by_cases hk : k' = k
    · subst hk
      left
      simpa [groupAppend] using h
    · simp only [groupAppend, if_neg hk, List.map_cons, List.mem_cons] at h
      rcases h with h | h
      · exact Or.inl (by simp [h])
      · rcases ih h with h1 | h1
        · exact Or.inl (List.mem_cons_of_mem _ h1)
        · exact Or.inr h1

theorem keysNodup_groupAppend {κ α : Type} [DecidableEq κ]
    {acc : List (κ × List α)} (k : κ) (x : α)
    (h : (acc.map Prod.fst).Nodup) : ((groupAppend acc k x).map Prod.fst).Nodup := by
  induction acc with
  | nil => simp [groupAppend]
  | cons kv rest ih =>
    rcases kv with ⟨k', xs⟩
    simp only [List.map_cons, List.nodup_cons] at h
    by_cases hk : k' = k
    · subst hk
      have heq : groupAppend ((k', xs) :: rest) k' x = (k', xs ++ [x]) :: rest := by
        simp [groupAppend]
      rw [heq, List.map_cons, List.nodup_cons]
      exact h
    · simp only [groupAppend, if_neg hk, List.map_cons, List.nodup_cons]
      refine ⟨?_, ih h.2⟩
      intro hmem
      rcases mem_keys_groupAppend hmem with h1 | h1
      · exact h.1 h1
      · exact hk h1

theorem groupByAux_getD {κ α : Type} [DecidableEq κ] (key : α → κ) :
    ∀ (l : List α) (acc : List (κ × List α)) (k : κ),
      (dictGet (l.foldl (fun a x => groupAppend a (key x) x) acc) k).getD [] =
        (dictGet acc k).getD [] ++ l.filter (fun x => key x = k) := by
  intro l
  induction l with
  | nil => intro acc k; simp
  | cons x xs ih =>
    intro acc k
    simp only [List.foldl_cons]
    by_cases hk : key x = k
    · rw [ih]
      subst hk
      rw [dictGet_groupAppend_self]
      simp [List.filter_cons]
    · rw [ih, dictGet_groupAppend_ne _ _ _ _ (fun hh => hk hh.symm)]
      have hd : (decide (key x = k)) = false := decide_eq_false hk
      simp [List.filter_cons, hd]

theorem groupByAux_none {κ α : Type} [DecidableEq κ] (key : α → κ) :
    ∀ (l : List α) (acc : List (κ × List α)) (k : κ),
      dictGet (l.foldl (fun a x => groupAppend a (key x) x) acc) k = none ↔
        dictGet acc k = none ∧ l.filter (fun x => key x = k) = [] := by
  intro l
  induction l with
  | nil => intro acc k; simp
  | cons x xs ih =>
    intro acc k
    simp only [List.foldl_cons]
    by_cases hk : key x = k
    · rw [ih]
      subst hk
      rw [dictGet_groupAppend_self]
      have hd : (decide (key x = key x)) = true := decide_eq_true rfl
      simp [List.filter_cons, hd]
    · rw [ih, dictGet_groupAppend_ne _ _ _ _ (fun hh => hk hh.symm)]
      have hd : (decide (key x = k)) = false := decide_eq_false hk
      simp [List.filter_cons, hd]

theorem keysNodup_groupBy {κ α : Type} [DecidableEq κ] (key : α → κ) (l : List α) :
    ((groupBy key l).map Prod.fst).Nodup := by
  have general : ∀ (l : List α) (acc : List (κ × List α)), (acc.map Prod.fst).Nodup →
      ((l.foldl (fun a x => groupAppend a (key x) x) acc).map Prod.fst).Nodup := by
    intro l
    induction l with
    | nil => intro acc h; exact h
    | cons x xs ih =>
      intro acc hacc
      simp only [List.foldl_cons]
      exact ih _ (keysNodup_groupAppend _ _ hacc)
  exact general l [] (by simp)

theorem dictGet_groupBy_none {κ α : Type} [DecidableEq κ] {key : α → κ}
    {l : List α} {k : κ} (h : l.filter (fun x => key x = k) = []) :
    dictGet (groupBy key l) k = none := by
  rw [groupBy]
  exact (groupByAux_none key l [] k).mpr ⟨by simp [dictGet], h⟩

theorem dictGet_groupBy_some {κ α : Type} [DecidableEq κ] {key : α → κ}
    {l : List α} {k : κ} (h : l.filter (fun x => key x = k) ≠ []) :
    dictGet (groupBy key l) k = some (l.filter (fun x => key x = k)) := by
  have hg := groupByAux_getD key l [] k
  rcases hd : dictGet (groupBy key l) k with _ | v
  · exfalso
    rw [groupBy] at hd
    exact h ((groupByAux_none key l [] k).mp hd).2
  · rw [groupBy] at hd
    rw [hd] at hg
    simp only [Option.getD_some, List.nil_append] at hg
    rw [hg]
    simp [dictGet]

theorem mem_groupBy_eq_filter {κ α : Type} [DecidableEq κ] {key : α → κ}
    {l : List α} {k : κ} {ms : List α} (h : (k, ms) ∈ groupBy key l) :
    ms = l.filter (fun x => key x = k) := by
  have hget := dictGet_eq_some_of_mem (keysNodup_groupBy key l) h
  rcases hf : l.filter (fun x => key x = k) with _ | ⟨y, ys⟩
  · rw [dictGet_groupBy_none hf] at hget
    cases hget
  · rw [dictGet_groupBy_some (by rw [hf]; simp)] at hget
    rw [hf] at hget
    cases hget
    rfl

theorem groupBy_mem_of_filter_ne {κ α : Type} [DecidableEq κ] {key : α → κ}
    {l : List α} {k : κ} (h : l.filter (fun x => key x = k) ≠ []) :
    (k, l.filter (fun x => key x = k)) ∈ groupBy key l :=
  mem_of_dictGet_eq_some (dictGet_groupBy_some h)

end Py

namespace Py

/-! ## Counter folds -/

theorem counterAux_getD {κ : Type} [DecidableEq κ] :
    ∀ (cs : List κ), cs.Nodup → ∀ (occ : List (κ × Nat)) (t : κ),
      (dictGet (cs.foldl (fun o c => dictSet o c ((dictGet o c).getD 0 + 1)) occ) t).getD 0 =
        (dictGet occ t).getD 0 + (if t ∈ cs then 1 else 0) := by
  intro cs
  induction cs with
  | nil => intro _ occ t; simp
  | cons c rest ih =>
    intro hnd occ t
    simp only [List.nodup_cons] at hnd
    simp only [List.foldl_cons]
    rw [ih hnd.2]
    by_cases hct : t = c
    · subst hct
      rw [dictGet_dictSet_self]
      have : t ∉ rest := hnd.1
      simp [this]
    · rw [dictGet_dictSet_ne _ _ _ _ hct]
      simp [List.mem_cons, hct]

theorem counterAux_none {κ : Type} [DecidableEq κ] :
    ∀ (cs : List κ) (occ : List (κ × Nat)) (t : κ),
      dictGet (cs.foldl (fun o c => dictSet o c ((dictGet o c).getD 0 + 1)) occ) t = none ↔
        dictGet occ t = none ∧ t ∉ cs := by
  intro cs
  induction cs with
  | nil => intro occ t; simp
  | cons c rest ih =>
    intro occ t
    simp only [List.foldl_cons]
    rw [ih]
    by_cases hct : t = c
    · subst hct
      rw [dictGet_dictSet_self]
      simp
    · rw [dictGet_dictSet_ne _ _ _ _ hct]
      simp [List.mem_cons, hct]

theorem counterAux_keysNodup {κ : Type} [DecidableEq κ] :
    ∀ (cs : List κ) (occ : List (κ × Nat)), ((occ.map Prod.fst).Nodup) →
      (((cs.foldl (fun o c => dictSet o c ((dictGet o c).getD 0 + 1)) occ)).map Prod.fst).Nodup := by
  intro cs
  induction cs with
  | nil => intro occ h; exact h
  | cons c rest ih =>
    intro occ h
    simp only [List.foldl_cons]
    exact ih _ (keysNodup_dictSet _ _ h)

end Py

namespace HSeq

theorem bandCandidates_nodup (limit : Nat) (pls : List Line) :
    (bandCandidates limit pls).Nodup := Py.dedupKeepFirst_nodup _

/-- The occurrence counter of `detect_running_header_footer`, declaratively:
its stored count for `t` is the number of pages whose band candidates
contain `t`. -/
theorem runningFold_getD (limit : Nat) :
    ∀ (pgs : List (Int × List Line)) (occ : List (List Char × Nat)) (t : List Char),
      (Py.dictGet (pgs.foldl (fun occ pg => (bandCandidates limit pg.2).foldl
          (fun o c => Py.dictSet o c ((Py.dictGet o c).getD 0 + 1)) occ) occ) t).getD 0 =
        (Py.dictGet occ t).getD 0 +
          (pgs.filter (fun pg => t ∈ bandCandidates limit pg.2)).length := by
  intro pgs
  induction pgs with
  | nil => intro occ t; simp
  | cons pg rest ih =>
    intro occ t
    simp only [List.foldl_cons]
    rw [ih, Py.counterAux_getD _ (bandCandidates_nodup limit pg.2)]
    by_cases h : t ∈ bandCandidates limit pg.2
    · rw [if_pos h]
      have hd : (decide (t ∈ bandCandidates limit pg.2)) = true := decide_eq_true h
      simp [List.filter_cons, hd]
      omega
    · rw [if_neg h]
      have hd : (decide (t ∈ bandCandidates limit pg.2)) = false := decide_eq_false h
      simp [List.filter_cons, hd]

theorem runningFold_none (limit : Nat) :
    ∀ (pgs : List (Int × List Line)) (occ : List (List Char × Nat)) (t : List Char),
      Py.dictGet (pgs.foldl (fun occ pg => (bandCandidates limit pg.2).foldl
          (fun o c => Py.dictSet o c ((Py.dictGet o c).getD 0 + 1)) occ) occ) t = none ↔
        Py.dictGet occ t = none ∧ ∀ pg ∈ pgs, t ∉ bandCandidates limit pg.2 := by
  intro pgs
  induction pgs with
  | nil => intro occ t; simp
  | cons pg rest ih =>
    intro occ t
    simp only [List.foldl_cons]
    rw [ih, Py.counterAux_none]
    constructor
    · rintro ⟨⟨h1, h2⟩, h3⟩
      exact ⟨h1, by
        intro q hq
        rcases List.mem_cons.mp hq with hq1 | hq1
        · exact hq1 ▸ h2
        · exact h3 q hq1⟩
    · rintro ⟨h1, h2⟩
      exact ⟨⟨h1, h2 pg (List.mem_cons_self _ _)⟩,
        fun q hq => h2 q (List.mem_cons_of_mem _ hq)⟩

theorem runningFold_keysNodup (limit : Nat) :
    ∀ (pgs : List (Int × List Line)) (occ : List (List Char × Nat)),
      ((occ.map Prod.fst).Nodup) →
      ((pgs.foldl (fun occ pg => (bandCandidates limit pg.2).foldl
          (fun o c => Py.dictSet o c ((Py.dictGet o c).getD 0 + 1)) occ) occ).map Prod.fst).Nodup := by
  intro pgs
  induction pgs with
  | nil => intro occ h; exact h
  | cons pg rest ih =>
    intro occ h
    simp only [List.foldl_cons]
    exact ih _ (Py.counterAux_keysNodup _ _ h)

end HSeq

namespace Py

theorem groupBy_ne_nil {κ α : Type} [DecidableEq κ] (key : α → κ) {l : List α}
    (h : l ≠ []) : groupBy key l ≠ [] := by
  rcases l with _ | ⟨x, xs⟩
  · exact absurd rfl h
  · intro hempty
    have hf : (x :: xs).filter (fun a => key a = key x) ≠ [] := by
      have hx : x ∈ (x :: xs).filter (fun a => key a = key x) := by
        apply List.mem_filter.mpr
        exact ⟨List.mem_cons_self _ _, by simp⟩
      intro hcontr
      rw [hcontr] at hx
      cases hx
    have := groupBy_mem_of_filter_ne hf
    rw [hempty] at this
    cases this

end Py

namespace HSeq

/-- `detect_running_header_footer` membership, declaratively: with the
default band, a normalized text is emitted exactly when it appears in the
band candidates of at least `max(2, int(0.6 * total_pages))` pages. -/
theorem detectRunning_mem_iff (lines : List Line) (h : lines ≠ []) (t : List Char) :
    t ∈ detectRunningHeaderFooter lines none ↔
      max 2 (3 * (Py.groupBy (fun l => l.page) lines).length / 5) ≤
        ((Py.groupBy (fun l => l.page) lines).filter
          (fun pg => t ∈ bandCandidates 5 pg.2)).length := by
  have hne : Py.groupBy (fun l => l.page) lines ≠ [] := Py.groupBy_ne_nil _ h
  have hlen : (Py.groupBy (fun l => l.page) lines).length ≠ 0 := by
    intro hl
    exact hne (List.length_eq_zero.mp hl)
  have hun : detectRunningHeaderFooter lines none =
      (((Py.groupBy (fun l => l.page) lines).foldl (fun occ pg =>
          (bandCandidates 5 pg.2).foldl
            (fun o c => Py.dictSet o c ((Py.dictGet o c).getD 0 + 1)) occ) []).filter
        (fun kv => decide (kv.2 ≥
          (if (Py.groupBy (fun l => l.page) lines).length ≠ 0 then
            max 2 (3 * (Py.groupBy (fun l => l.page) lines).length / 5) else 0)))).map
        Prod.fst := by
    rfl
  rw [hun, if_pos hlen]
  have hcount := runningFold_getD 5 (Py.groupBy (fun l => l.page) lines) [] t
  have hzero : (Py.dictGet ([] : List (List Char × Nat)) t).getD 0 = 0 := by
    simp [Py.dictGet]
  rw [hzero] at hcount
  constructor
  · intro ht
    rcases List.mem_map.mp ht with ⟨kv, hkvmem, hfst⟩
    rcases List.mem_filter.mp hkvmem with ⟨hmem, hth⟩
    simp only [decide_eq_true_eq, ge_iff_le] at hth
    have hnd := runningFold_keysNodup 5 (Py.groupBy (fun l => l.page) lines) [] (by simp)
    have hget : Py.dictGet ((Py.groupBy (fun l => l.page) lines).foldl (fun occ pg =>
        (bandCandidates 5 pg.2).foldl
          (fun o c => Py.dictSet o c ((Py.dictGet o c).getD 0 + 1)) occ) []) kv.1 =
        some kv.2 :=
      Py.dictGet_eq_some_of_mem hnd (by exact hmem)
    subst hfst
    rw [hget] at hcount
    simp only [Option.getD_some, Nat.zero_add] at hcount
    omega
  · intro hth
    have hpos : 0 < (((Py.groupBy (fun l => l.page) lines)).filter
        (fun pg => t ∈ bandCandidates 5 pg.2)).length := by
      have h2 : 2 ≤ max 2 (3 * (Py.groupBy (fun l => l.page) lines).length / 5) :=
        le_max_left _ _
      omega
    rcases hget : Py.dictGet ((Py.groupBy (fun l => l.page) lines).foldl (fun occ pg =>
        (bandCandidates 5 pg.2).foldl
          (fun o c => Py.dictSet o c ((Py.dictGet o c).getD 0 + 1)) occ) []) t with _ | n
    · rw [hget] at hcount
      simp only [Option.getD_none] at hcount
      omega
    · rw [hget] at hcount
      simp only [Option.getD_some, Nat.zero_add] at hcount
      have hmem := Py.mem_of_dictGet_eq_some hget
      apply List.mem_map.mpr
      refine ⟨(t, n), ?_, rfl⟩
      apply List.mem_filter.mpr
      refine ⟨hmem, ?_⟩
      simp only [decide_eq_true_eq, ge_iff_le]
      omega

end HSeq

namespace Orch

theorem intListLt_asymm : ∀ (a b : List Int),
    intListLt a b = true → intListLt b a = false := by
  intro a
  induction a with
  | nil =>
    intro b h
    cases b with
    | nil => simp [intListLt] at h
    | cons y ys => simp [intListLt]
  | cons x xs ih =>
    intro b h
    cases b with
    | nil => simp [intListLt] at h
    | cons y ys =>
      simp only [intListLt] at h ⊢
      by_cases hxy : x < y
      · rw [if_neg (by omega : ¬ y < x), if_pos hxy]
      · rw [if_neg hxy] at h
        by_cases hyx : y < x
        · rw [if_pos hyx] at h
          cases h
        · rw [if_neg hyx] at h
          rw [if_neg hyx, if_neg hxy]
          exact ih ys h

theorem orderLt_asymm : ∀ a b : WHeader, orderLt a b = true → orderLt b a = false :=
  fun a b h => intListLt_asymm _ _ h

/-- The final output of `_enforce_header_sequence` is sorted (non-strictly)
by `_order_key`: adjacent headers never compare strictly descending. -/
theorem enforceHeaderSequence_sorted (headers : List WHeader) (lines : List HSeq.Line) :
    List.Chain' (fun a b => orderLt b a = false)
      (enforceHeaderSequence headers lines).1 := by
  rw [enforceHeaderSequence]
  by_cases h : headers.isEmpty
  · rw [if_pos h]
    simp
  · rw [if_neg h]
    exact Py.sortBy_chain' orderLt_asymm _

end Orch

namespace Strict

/-- The spec's dot-leader regex `\.{3,}\s*\d{1,4}\s*$`, stated from the
spec's words for comparison with the code's `\.{3,}\s*\d+\s*$`: the match is
anchored at the end, so it exists iff after trailing whitespace the text
ends in a digit run of length 1–4 preceded (after optional whitespace) by
at least three dots.  (A run of five or more digits admits no match: the
character before any shorter digit window is a digit, which neither `\s`
nor `\.` matches.) -/
def specDotLeader (s : List Char) : Bool :=
  let r := s.reverse
  let r1 := r.dropWhile PyStr.isPySpace
  let digits := r1.takeWhile Char.isDigit
  let r2 := r1.dropWhile Char.isDigit
  let r3 := r2.dropWhile PyStr.isPySpace
  let dots := r3.takeWhile (fun c => c = '.')
  !digits.isEmpty && decide (digits.length ≤ 4) && decide (dots.length ≥ 3)

/-- Every line the spec's dot-leader regex matches, the code's
`DOTTED_LEADER_RE` matches as well. -/
theorem specDotLeader_sub (s : List Char) (h : specDotLeader s = true) :
    dottedLeaderSearch s = true := by
  simp only [specDotLeader, Bool.and_eq_true, decide_eq_true_eq] at h
  simp only [dottedLeaderSearch, HSeq.tocLeaderTail, Bool.and_eq_true, decide_eq_true_eq]
  exact ⟨h.1.1, h.2⟩

end Strict

namespace Strict

theorem tocFold_mono :
    ∀ (gs : List (Int × List BodyLineIn)) (acc : List Int) (p : Int), p ∈ acc →
      p ∈ gs.foldl (fun acc pg =>
        if ((pg.2.map (fun l => l.text)).filter dottedLeaderSearch).length ≥
            Config.HEADERS_STRICT_TOC_MIN_DOT_LEADERS then acc ++ [pg.1]
        else if ((pg.2.map (fun l => l.text)).filter
              (fun t => sectionLikeSearch (normalizeStrictText t))).length ≥
              Config.HEADERS_STRICT_TOC_MIN_SECTION_TOKENS
            && ((pg.2.map (fun l => l.text)).filter (fun t =>
              t.contains '.' && decide ((normalizeStrictText t).length ≥ 40))).length ≤
              max 1 (((pg.2.map (fun l => l.text)).filter
                (fun t => sectionLikeSearch (normalizeStrictText t))).length / 2) then
          acc ++ [pg.1]
        else acc) acc := by
  intro gs
  induction gs with
  | nil => intro acc p h; exact h
  | cons g rest ih =>
    intro acc p h
    simp only [List.foldl_cons]
    apply ih
    split
    · exact List.mem_append_left _ h
    · split
      · exact List.mem_append_left _ h
      · exact h

theorem tocFold_mem_of_dotted :
    ∀ (gs : List (Int × List BodyLineIn)) (acc : List Int) (p : Int)
      (ms : List BodyLineIn), (p, ms) ∈ gs →
      Config.HEADERS_STRICT_TOC_MIN_DOT_LEADERS ≤
        ((ms.map (fun l => l.text)).filter dottedLeaderSearch).length →
      p ∈ gs.foldl (fun acc pg =>
        if ((pg.2.map (fun l => l.text)).filter dottedLeaderSearch).length ≥
            Config.HEADERS_STRICT_TOC_MIN_DOT_LEADERS then acc ++ [pg.1]
        else if ((pg.2.map (fun l => l.text)).filter
              (fun t => sectionLikeSearch (normalizeStrictText t))).length ≥
              Config.HEADERS_STRICT_TOC_MIN_SECTION_TOKENS
            && ((pg.2.map (fun l => l.text)).filter (fun t =>
              t.contains '.' && decide ((normalizeStrictText t).length ≥ 40))).length ≤
              max 1 (((pg.2.map (fun l => l.text)).filter
                (fun t => sectionLikeSearch (normalizeStrictText t))).length / 2) then
          acc ++ [pg.1]
        else acc) acc := by
  intro gs
  induction gs with
  | nil => intro acc p ms h; cases h
  | cons g rest ih =>
    intro acc p ms hmem hdot
    rcases List.mem_cons.mp hmem with hh | hh
    · subst hh
      simp only [List.foldl_cons]
      apply tocFold_mono
      rw [if_pos hdot]
      exact List.mem_append_right _ (List.mem_singleton_self _)
    · simp only [List.foldl_cons]
      exact ih _ p ms hh hdot

/-- Whenever at least `HEADERS_STRICT_TOC_MIN_DOT_LEADERS` (default 4) of a
page's lines match the spec's dot-leader regex, `detect_toc_pages_strict`
marks that page as TOC-like, however many other lines the page has. -/
theorem detectTocPagesStrict_of_dotLeaders (lines : List BodyLineIn) (p : Int)
    (h : Config.HEADERS_STRICT_TOC_MIN_DOT_LEADERS ≤
      (lines.filter (fun l => decide (l.page = p) && specDotLeader l.text)).length) :
    p ∈ detectTocPagesStrict lines := by
  have hcnt : (lines.filter (fun l => decide (l.page = p) && specDotLeader l.text)).length ≤
      (((lines.filter (fun l => l.page = p)).map (fun l => l.text)).filter
        dottedLeaderSearch).length := by
    rw [← List.countP_eq_length_filter, ← List.countP_eq_length_filter,
      List.countP_map, List.countP_filter]
    apply List.countP_mono_left
    intro l hl h1
    simp only [Bool.and_eq_true, decide_eq_true_eq] at h1
    simp only [Function.comp, Bool.and_eq_true, decide_eq_true_eq]
    exact ⟨specDotLeader_sub _ h1.2, h1.1⟩
  have hne : lines.filter (fun l => l.page = p) ≠ [] := by
    have hpos : 0 < (lines.filter
        (fun l => decide (l.page = p) && specDotLeader l.text)).length := by
      have h4 := h
      simp only [Config.HEADERS_STRICT_TOC_MIN_DOT_LEADERS] at h4
      omega
    rcases List.exists_mem_of_length_pos hpos with ⟨x, hx⟩
    rcases List.mem_filter.mp hx with ⟨hxl, hxp⟩
    simp only [Bool.and_eq_true, decide_eq_true_eq] at hxp
    intro hcontr
    have hxin : x ∈ lines.filter (fun l => l.page = p) :=
      List.mem_filter.mpr ⟨hxl, by simp [hxp.1]⟩
    rw [hcontr] at hxin
    cases hxin
  have hmem := @Py.groupBy_mem_of_filter_ne Int BodyLineIn _ (fun l => l.page) lines p hne
  rw [detectTocPagesStrict]
  exact tocFold_mem_of_dotted _ _ p _ hmem (le_trans h hcnt)

end Strict

namespace Orch

open PyStr

theorem scanChunk_inv (pattern : Rx.RE) (lines : List HSeq.Line)
    (components : List Component) (chunk : Chunk) (fb : Option Int) :
    ∀ (idxs : List Nat) (h : WHeader),
      scanChunk pattern lines components chunk fb idxs = some h →
      ∃ i ∈ idxs, ∃ e,
        pattern.matchEnd (pyLstrip (lines.getD i dummyLine).text) = some e ∧
        h.global_idx = (lines.getD i dummyLine).global_idx ∧
        h.text =
          (if (pyLstripSet " -.):\t".data
              ((pyLstrip (lines.getD i dummyLine).text).drop e)).isEmpty then
            pyLstrip (lines.getD i dummyLine).text
          else pyLstripSet " -.):\t".data
            ((pyLstrip (lines.getD i dummyLine).text).drop e)) := by
  intro idxs
  induction idxs with
  | nil => intro h hscan; cases hscan
  | cons i rest ih =>
    intro h hscan
    rcases hm : pattern.matchEnd (pyLstrip (lines.getD i dummyLine).text) with _ | e
    · simp only [scanChunk, hm] at hscan
      rcases ih h hscan with ⟨j, hj, e, he⟩
      exact ⟨j, List.mem_cons_of_mem _ hj, e, he⟩
    · simp only [scanChunk, hm, Option.some.injEq] at hscan
      refine ⟨i, List.mem_cons_self _ _, e, hm, ?_, ?_⟩
      · rw [← hscan]
      · rw [← hscan]

/-- Inversion for `_find_header_in_chunk`: an accepted candidate always
comes from a line of the scan range whose stripped text matches the
constructed numbering regex, anchors at that line's `global_idx`, and takes
as its text the post-number remainder when non-empty and otherwise the
whole stripped line. -/
theorem findHeaderInChunk_inv (chunk : Chunk) (lines : List HSeq.Line)
    (components : List Component) (idxByGlobal : List (Int × Nat))
    (fb : Option Int) (h : WHeader)
    (hfind : findHeaderInChunk chunk lines components idxByGlobal fb = some h) :
    ∃ pattern, buildNumberPattern components = some pattern ∧
    ∃ i ∈ chunkScanRange chunk idxByGlobal, ∃ e,
      pattern.matchEnd (pyLstrip (lines.getD i dummyLine).text) = some e ∧
      h.global_idx = (lines.getD i dummyLine).global_idx ∧
      h.text =
        (if (pyLstripSet " -.):\t".data
            ((pyLstrip (lines.getD i dummyLine).text).drop e)).isEmpty then
          pyLstrip (lines.getD i dummyLine).text
        else pyLstripSet " -.):\t".data
          ((pyLstrip (lines.getD i dummyLine).text).drop e)) := by
  rw [findHeaderInChunk] at hfind
  split at hfind
  · cases hfind
  · rcases hp : buildNumberPattern components with _ | pattern
    · rw [hp] at hfind
      cases hfind
    · rw [hp] at hfind
      exact ⟨pattern, rfl, scanChunk_inv pattern lines components chunk fb _ h hfind⟩

end Orch

namespace Sections

/-- The bump loop is the identity when the incoming list carries pairwise
distinct `global_idx` values none of which are already marked used. -/
theorem bumpGo_id (byGid : List (Int × HSeq.Line)) (lineOrder : List Int) :
    ∀ (l : List RHeader) (used : List Int),
      (∀ g ∈ used, ∀ x ∈ l, x.global_idx ≠ g) →
      List.Pairwise (fun a b => a.global_idx ≠ b.global_idx) l →
      bumpGo byGid lineOrder l used = l := by
  intro l
  induction l with
  | nil => intro used _ _; rfl
  | cons entry rest ih =>
    intro used hused hpw
    have hc : used.contains entry.global_idx = false := by
      rcases hcon : used.contains entry.global_idx with _ | _
      · rfl
      · exact absurd rfl
          (hused entry.global_idx (List.mem_of_elem_eq_true hcon) entry
            (List.mem_cons_self _ _))
    rw [bumpGo, hc]
    simp only [Bool.false_eq_true, if_false]
    congr 1
    apply ih
    · intro g hg x hx
      rcases List.mem_append.mp hg with hg1 | hg1
      · exact hused g hg1 x (List.mem_cons_of_mem _ hx)
      · rw [List.mem_singleton] at hg1
        subst hg1
        exact fun hh => ((List.pairwise_cons.mp hpw).1 x hx) hh.symm
    · exact (List.pairwise_cons.mp hpw).2

/-- Every value stored in `lookup_page_line` is the `global_idx` of an input
line. -/
theorem lookupPageLine_val (lines : List HSeq.Line) :
    ∀ kv ∈ lookupPageLine lines, kv.2 ∈ lines.map HSeq.Line.global_idx := by
  have general : ∀ (ls : List HSeq.Line) (acc : List ((Int × Int) × Int)),
      (∀ kv ∈ acc, kv.2 ∈ lines.map HSeq.Line.global_idx) →
      (∀ x ∈ ls, x ∈ lines) →
      ∀ kv ∈ ls.foldl (fun acc l =>
          match Py.dictGet acc (l.page, l.line_idx) with
          | some _ => acc
          | none => acc ++ [((l.page, l.line_idx), l.global_idx)]) acc,
        kv.2 ∈ lines.map HSeq.Line.global_idx := by
    intro ls
    induction ls with
    | nil => intro acc hacc _ kv hkv; exact hacc kv hkv
    | cons x xs ih =>
      intro acc hacc hsub kv hkv
      simp only [List.foldl_cons] at hkv
      refine ih _ ?_ (fun y hy => hsub y (List.mem_cons_of_mem _ hy)) kv hkv
      intro kv' hkv'
      rcases hget : Py.dictGet acc (x.page, x.line_idx) with _ | v
      · rw [hget] at hkv'
        rcases List.mem_append.mp hkv' with h1 | h1
        · exact hacc kv' h1
        · rw [List.mem_singleton] at h1
          subst h1
          exact List.mem_map_of_mem _ (hsub x (List.mem_cons_self _ _))
      · rw [hget] at hkv'
        exact hacc kv' hkv'
  exact general lines [] (fun kv hkv => by cases hkv) (fun x hx => hx)

/-- Every value of the dedup dict is one of the resolved headers. -/
theorem dedupResolved_values (resolved : List RHeader) :
    ∀ kv ∈ dedupResolved resolved, kv.2 ∈ resolved := by
  have general : ∀ (ls acc : List _), (∀ kv ∈ acc, kv.2 ∈ resolved) →
      (∀ x ∈ ls, x ∈ resolved) →
      ∀ kv ∈ ls.foldl (fun d h =>
          match Py.dictGet d (h.number, normaliseText h.text, h.level) with
          | none => Py.dictSet d (h.number, normaliseText h.text, h.level) h
          | some ex => if ex.global_idx ≤ h.global_idx then
              Py.dictSet d (h.number, normaliseText h.text, h.level) h else d) acc,
        kv.2 ∈ resolved := by
    intro ls
    induction ls with
    | nil => intro acc hacc _ kv hkv; exact hacc kv hkv
    | cons x xs ih =>
      intro acc hacc hsub kv hkv
      simp only [List.foldl_cons] at hkv
      refine ih _ ?_ (fun y hy => hsub y (List.mem_cons_of_mem _ hy)) kv hkv
      intro kv' hkv'
      have hx : x ∈ resolved := hsub x (List.mem_cons_self _ _)
      rcases hget : Py.dictGet acc (x.number, normaliseText x.text, x.level) with _ | ex
      · simp only [hget] at hkv'
        rcases Py.mem_dictSet hkv' with h1 | h1
        · exact hacc kv' h1
        · rw [h1]; exact hx
      · simp only [hget] at hkv'
        by_cases hcmp : ex.global_idx ≤ x.global_idx
        · rw [if_pos hcmp] at hkv'
          rcases Py.mem_dictSet hkv' with h1 | h1
          · exact hacc kv' h1
          · rw [h1]; exact hx
        · rw [if_neg hcmp] at hkv'
          exact hacc kv' hkv'
  exact general resolved [] (fun kv hkv => by cases hkv) (fun x hx => hx)

/-- Provenance of the pre-bump list: every entry arises from some input
header through `resolveEntry`. -/
theorem resolvePreBump_provenance (headers : List SHeaderIn) (lines : List HSeq.Line) :
    ∀ r ∈ resolvePreBump headers lines,
      ∃ h ∈ headers, resolveEntry (lookupPageLine lines) h = some r := by
  intro r hr
  rw [resolvePreBump] at hr
  split at hr
  · cases hr
  · have hr' : r ∈ (if (List.filterMap (resolveEntry (lookupPageLine lines))
        headers).isEmpty = true then ([] : List RHeader)
      else Py.sortBy resolvedLt (List.map Prod.snd
        (dedupResolved (List.filterMap (resolveEntry (lookupPageLine lines)) headers)))) := hr
    split at hr'
    · cases hr'
    · have hr2 := Py.mem_sortBy.mp hr' 
      rcases List.mem_map.mp hr2 with ⟨kv, hkv, hsnd⟩
      have := dedupResolved_values _ kv hkv
      rw [hsnd] at this
      exact List.mem_filterMap.mp this

/-- The `global_idx` of a resolved entry is the header's declared one, or a
line `global_idx` found through the `(page, line_idx)` lookup. -/
theorem resolveEntry_gid (lines : List HSeq.Line) (h : SHeaderIn) (r : RHeader)
    (he : resolveEntry (lookupPageLine lines) h = some r) :
    h.global_idx = some r.global_idx ∨
      r.global_idx ∈ lines.map HSeq.Line.global_idx := by
  rw [resolveEntry] at he
  split at he
  · cases he
  · rcases hg : h.global_idx with _ | g
    · simp only [hg] at he
      rcases hp : h.page with _ | p
      all_goals rcases hl : h.line_idx with _ | li
      all_goals simp only [hp, hl] at he
      · cases he
      · cases he
      · cases he
      · rcases hget : Py.dictGet (lookupPageLine lines) (p, li) with _ | gid
        · rw [hget] at he; cases he
        · rw [hget] at he
          simp only [Option.some.injEq] at he
          right
          have hv := lookupPageLine_val lines _ (Py.mem_of_dictGet_eq_some hget)
          have : r.global_idx = gid := by rw [← he]
          rw [this]
          exact hv
    · simp only [hg] at he
      simp only [Option.some.injEq] at he
      left
      exact congrArg some (by rw [← he])

end Sections

namespace Sections

/-- The span loop, specified: under strictly increasing resolved anchors all
below `documentEnd`, the emitted ranges are genuinely half-open, contiguous,
non-empty, start at the resolved anchors, end at `documentEnd`, and cover
exactly `[first anchor, documentEnd)`. -/
theorem spansGo_spec (ol : List HSeq.Line) (idx : List (Int × Nat)) (dEnd : Int) :
    ∀ (r : List RHeader),
      List.Chain' (fun a b => a.global_idx < b.global_idx) r →
      (∀ x ∈ r, x.global_idx < dEnd) →
      (spansGo ol idx dEnd r).map Span.start_global_idx = r.map RHeader.global_idx ∧
      List.Chain' (fun s t => s.end_global_idx = t.start_global_idx)
        (spansGo ol idx dEnd r) ∧
      (∀ s ∈ spansGo ol idx dEnd r, s.start_global_idx < s.end_global_idx) ∧
      (∀ s, (spansGo ol idx dEnd r).getLast? = some s → s.end_global_idx = dEnd) ∧
      (∀ g : Int,
        (∃ s ∈ spansGo ol idx dEnd r, s.start_global_idx ≤ g ∧ g < s.end_global_idx) ↔
        (∃ x0, r.head? = some x0 ∧ x0.global_idx ≤ g ∧ g < dEnd)) := by
  intro r
  induction r with
  | nil =>
    intro _ _
    refine ⟨rfl, List.chain'_nil, ?_, ?_, ?_⟩
    · intro s hs; cases hs
    · intro s hs; cases hs
    · intro g
      constructor
      · rintro ⟨s, hs, _⟩; cases hs
      · rintro ⟨x0, hx0, _⟩; cases hx0
  | cons h rest ih =>
    intro hchain hbound
    have hh : h.global_idx < dEnd := hbound h (List.mem_cons_self _ _)
    have hend : ∀ e0, spanEnd dEnd h.global_idx rest = e0 →
        spansGo ol idx dEnd (h :: rest) =
          Span.mk h.text h.number h.level h.global_idx e0
            (match spanStartLine ol idx h.global_idx with
             | some l => some l.page
             | none => h.page)
            (match spanEndLine ol idx h.global_idx e0 with
             | some l => some l.page
             | none => h.page)
            :: spansGo ol idx dEnd rest := by
      intro e0 he0
      rw [← he0]
      rfl
    cases rest with
    | nil =>
      have he0 : spanEnd dEnd h.global_idx [] = dEnd := by
        rw [spanEnd]
        exact if_neg (by omega)
      have hunf := hend dEnd he0
      rw [hunf]
      simp only [spansGo]
      refine ⟨rfl, List.chain'_singleton _, ?_, ?_, ?_⟩
      · intro s hs
        rw [List.mem_singleton] at hs
        subst hs
        exact hh
      · intro s hs
        rw [List.getLast?_singleton, Option.some.injEq] at hs
        subst hs
        rfl
      · intro g
        constructor
        · rintro ⟨s, hs, hg1, hg2⟩
          rw [List.mem_singleton] at hs
          subst hs
          exact ⟨h, rfl, hg1, hg2⟩
        · rintro ⟨x0, hx0, hg1, hg2⟩
          rw [List.head?_cons, Option.some.injEq] at hx0
          subst hx0
          exact ⟨_, List.mem_singleton_self _, hg1, hg2⟩
    | cons nxt rest2 =>
      have hlt : h.global_idx < nxt.global_idx := (List.chain'_cons.mp hchain).1
      have hnd : nxt.global_idx < dEnd := hbound nxt (List.mem_cons_of_mem _
        (List.mem_cons_self _ _))
      have he0 : spanEnd dEnd h.global_idx (nxt :: rest2) = nxt.global_idx := by
        rw [spanEnd]
        exact if_neg (by omega)
      have hunf := hend nxt.global_idx he0
      rcases ih (List.Chain'.tail hchain)
        (fun x hx => hbound x (List.mem_cons_of_mem _ hx)) with
        ⟨ihmap, ihchain, ihpos, ihlast, ihcov⟩
      rw [hunf]
      refine ⟨?_, ?_, ?_, ?_, ?_⟩
      · rw [List.map_cons, ihmap]
        rfl
      · rcases hsp : spansGo ol idx dEnd (nxt :: rest2) with _ | ⟨s1, srest⟩
        · exact List.chain'_singleton _
        · refine List.Chain'.cons ?_ (hsp ▸ ihchain)
          have hm := ihmap
          rw [hsp] at hm
          simp only [List.map_cons, List.cons.injEq] at hm
          exact hm.1.symm
      · intro s hs
        rcases List.mem_cons.mp hs with hs1 | hs1
        · subst hs1
          exact hlt
        · exact ihpos s hs1
      · intro s hs
        rcases hsp : spansGo ol idx dEnd (nxt :: rest2) with _ | ⟨s1, srest⟩
        · exfalso
          have hm := ihmap
          rw [hsp] at hm
          cases hm
        · rw [hsp, List.getLast?_cons_cons] at hs
          exact ihlast s (by rw [hsp]; exact hs)
      · intro g
        constructor
        · rintro ⟨s, hs, hg1, hg2⟩
          rcases List.mem_cons.mp hs with hs1 | hs1
          · subst hs1
            simp only at hg1 hg2
            exact ⟨h, rfl, hg1, by omega⟩
          · rcases (ihcov g).mp ⟨s, hs1, hg1, hg2⟩ with ⟨x0, hx0, hxg1, hxg2⟩
            rw [List.head?_cons, Option.some.injEq] at hx0
            subst hx0
            exact ⟨h, rfl, by omega, hxg2⟩
        · rintro ⟨x0, hx0, hg1, hg2⟩
          rw [List.head?_cons, Option.some.injEq] at hx0
          subst hx0
          by_cases hcase : g < nxt.global_idx
          · exact ⟨_, List.mem_cons_self _ _, hg1, hcase⟩
          · rcases (ihcov g).mpr ⟨nxt, rfl, by omega, hg2⟩ with ⟨s, hsmem, hsg⟩
            exact ⟨s, List.mem_cons_of_mem _ hsmem, hsg⟩

end Sections

namespace Sections

theorem spans_starts_mono (l : List Span)
    (hchain : List.Chain' (fun s t => s.end_global_idx = t.start_global_idx) l)
    (hpos : ∀ s ∈ l, s.start_global_idx < s.end_global_idx) :
    ∀ x0, l.head? = some x0 → ∀ t ∈ l, x0.start_global_idx ≤ t.start_global_idx := by
  induction l with
  | nil => intro x0 hx0; cases hx0
  | cons s rest ih =>
    intro x0 hx0 t ht
    rw [List.head?_cons, Option.some.injEq] at hx0
    subst hx0
    rcases List.mem_cons.mp ht with h1 | h1
    · subst h1; exact le_refl _
    · cases rest with
      | nil => cases h1
      | cons s1 rest2 =>
        have h2 : s.end_global_idx = s1.start_global_idx := (List.chain'_cons.mp hchain).1
        have h3 : s.start_global_idx < s.end_global_idx :=
          hpos s (List.mem_cons_self _ _)
        have h4 := ih (List.Chain'.tail hchain)
          (fun x hx => hpos x (List.mem_cons_of_mem _ hx)) s1 rfl t h1
        omega

theorem spans_pairwise_disjoint (l : List Span)
    (hchain : List.Chain' (fun s t => s.end_global_idx = t.start_global_idx) l)
    (hpos : ∀ s ∈ l, s.start_global_idx < s.end_global_idx) :
    List.Pairwise (fun s t => s.end_global_idx ≤ t.start_global_idx) l := by
  induction l with
  | nil => exact List.Pairwise.nil
  | cons s rest ih =>
    refine List.Pairwise.cons ?_ (ih (List.Chain'.tail hchain)
      (fun x hx => hpos x (List.mem_cons_of_mem _ hx)))
    intro t ht
    cases rest with
    | nil => cases ht
    | cons s1 rest2 =>
      have h2 : s.end_global_idx = s1.start_global_idx := (List.chain'_cons.mp hchain).1
      have h4 := spans_starts_mono _ (List.Chain'.tail hchain)
        (fun x hx => hpos x (List.mem_cons_of_mem _ hx)) s1 rfl t ht
      omega

end Sections

namespace Locator

theorem attach_gids (n : Nat) :
    ∀ (l : List (List Char × Option (List Char) × LocHeader)) (bs : Buckets),
      ((attachSourceIdx n bs l).1).map LocHeader.global_idx =
        l.map (fun t => t.2.2.global_idx) := by
  intro l
  induction l with
  | nil => intro bs; rfl
  | cons t rest ih =>
    intro bs
    rcases t with ⟨text, number, entry⟩
    simp only [attachSourceIdx, List.map_cons]
    rw [ih]

/-- When the coverage gate discards the sequential results, the final output
is exactly the legacy matcher run over all oracle headers and the full
eligible line list. -/
theorem locateSeqCore_empty (legacyFn : List OHeader → List LocLine → List LegEntry)
    (headers : List OHeader) (lines : List LocLine) (excluded : List Int)
    (hne : headers ≠ []) :
    locateSeqCore legacyFn headers lines excluded [] =
      Py.sortBy finalLt ((attachSourceIdx headers.length (mkBuckets headers)
        ((legacyFn headers (lines.filter (eligible excluded))).map
          (fun e => (e.text, e.number, legToLoc e)))).1) := by
  have hrem : headers.filter (fun h =>
      !(!(PyStr.pyStrip (h.number.getD [])).isEmpty &&
        (([] : List SeqEntry).filterMap (fun e =>
          match e.number with
          | some n => if n.isEmpty then none else some n
          | none => none)).contains (PyStr.pyStrip (h.number.getD [])))) = headers := by
    apply List.filter_eq_self.mpr
    intro a _
    simp [List.filterMap]
  have hlines : (lines.filter (eligible excluded)).filter (fun l =>
      !(([] : List SeqEntry).map (fun e => e.global_idx)).contains l.global_idx) =
      lines.filter (eligible excluded) := by
    apply List.filter_eq_self.mpr
    intro a _
    simp [List.contains]
  simp only [locateSeqCore]
  rw [hrem, hlines]
  rw [if_neg (by
    intro hempty
    exact hne (List.isEmpty_iff.mp hempty))]
  rfl

theorem locateSeq_gate (legacyFn : List OHeader → List LocLine → List LegEntry)
    (seqOut : List SeqEntry) (headers : List OHeader) (lines : List LocLine)
    (excluded : List Int)
    (h0 : (headers.filter
      (fun h => !(PyStr.pyStrip (h.number.getD [])).isEmpty)).length ≠ 0)
    (h1 : 5 * seqOut.length <
      3 * (headers.filter
        (fun h => !(PyStr.pyStrip (h.number.getD [])).isEmpty)).length) :
    locateSeq legacyFn seqOut headers lines excluded =
      Py.sortBy finalLt ((attachSourceIdx headers.length (mkBuckets headers)
        ((legacyFn headers (lines.filter (eligible excluded))).map
          (fun e => (e.text, e.number, legToLoc e)))).1) := by
  have hne : headers ≠ [] := by
    intro hh
    subst hh
    simp at h0
  have hcond : ((headers.filter
      (fun h => !(PyStr.pyStrip (h.number.getD [])).isEmpty)).length ≠ 0
      && 5 * seqOut.length < 3 * (headers.filter
        (fun h => !(PyStr.pyStrip (h.number.getD [])).isEmpty)).length) = true := by
    simp only [Bool.and_eq_true, decide_eq_true_eq]
    exact ⟨h0, h1⟩
  simp only [locateSeq]
  rw [hcond]
  simp only [if_true]
  exact locateSeqCore_empty legacyFn headers lines excluded hne

/-- When no oracle header carries a number, the gate never fires: every
aligner result's anchor survives into the output. -/
theorem locateSeq_keeps (legacyFn : List OHeader → List LocLine → List LegEntry)
    (seqOut : List SeqEntry) (headers : List OHeader) (lines : List LocLine)
    (excluded : List Int)
    (h0 : (headers.filter
      (fun h => !(PyStr.pyStrip (h.number.getD [])).isEmpty)).length = 0) :
    ∀ e ∈ seqOut, e.global_idx ∈
      (locateSeq legacyFn seqOut headers lines excluded).map LocHeader.global_idx := by
  intro e he
  have hcond : ((headers.filter
      (fun h => !(PyStr.pyStrip (h.number.getD [])).isEmpty)).length ≠ 0
      && 5 * seqOut.length < 3 * (headers.filter
        (fun h => !(PyStr.pyStrip (h.number.getD [])).isEmpty)).length) = false := by
    simp [h0]
  simp only [locateSeq]
  rw [hcond]
  simp only [Bool.false_eq_true, if_false]
  simp only [locateSeqCore]
  have hperm := Py.sortBy_perm finalLt
    (if (headers.filter (fun h =>
        !(!(PyStr.pyStrip (h.number.getD [])).isEmpty &&
          (seqOut.filterMap (fun e =>
            match e.number with
            | some n => if n.isEmpty then none else some n
            | none => none)).contains (PyStr.pyStrip (h.number.getD []))))).isEmpty then
      (attachSourceIdx headers.length (mkBuckets headers)
        (seqOut.map (fun e => (e.title, e.number, seqToLoc e)))).1
    else
      (attachSourceIdx headers.length (mkBuckets headers)
        (seqOut.map (fun e => (e.title, e.number, seqToLoc e)))).1 ++
      (attachSourceIdx headers.length
        (attachSourceIdx headers.length (mkBuckets headers)
          (seqOut.map (fun e => (e.title, e.number, seqToLoc e)))).2
        ((legacyFn (headers.filter (fun h =>
            !(!(PyStr.pyStrip (h.number.getD [])).isEmpty &&
              (seqOut.filterMap (fun e =>
                match e.number with
                | some n => if n.isEmpty then none else some n
                | none => none)).contains (PyStr.pyStrip (h.number.getD [])))))
          ((lines.filter (eligible excluded)).filter (fun l =>
            !(seqOut.map (fun e => e.global_idx)).contains l.global_idx))).map
          (fun e => (e.text, e.number, legToLoc e)))).1)
  rw [(hperm.map LocHeader.global_idx).mem_iff]
  have hstart : e.global_idx ∈ ((attachSourceIdx headers.length (mkBuckets headers)
      (seqOut.map (fun e => (e.title, e.number, seqToLoc e)))).1).map
        LocHeader.global_idx := by
    rw [attach_gids]
    rw [List.map_map]
    exact List.mem_map.mpr ⟨e, he, rfl⟩
  split
  · exact hstart
  · rw [List.map_append]
    exact List.mem_append_left _ hstart

end Locator

/-- The modelled strict pipeline surfaces an error exactly on an
empty-after-filtering line stream, and that error's code is `no_lines`. -/
theorem runStrictHeadersPipeline_spec (headers : List Strict.LLMHeader)
    (lines : List Strict.BodyLineIn) :
    ((∃ e, runStrictHeadersPipeline headers lines = Except.error e) ↔
      strictEligibleLines lines = []) ∧
    (∀ e, runStrictHeadersPipeline headers lines = Except.error e →
      e.code = "no_lines".data) := by
  constructor
  · constructor
    · rintro ⟨e, he⟩
      rw [runStrictHeadersPipeline] at he
      split at he
      · next hemp => exact List.isEmpty_iff.mp hemp
      · cases he
    · intro hemp
      refine ⟨PipelineError.mk "no_lines".data "no lines after filtering".data, ?_⟩
      rw [runStrictHeadersPipeline, if_pos (by rw [hemp]; rfl)]
  · intro e he
    rw [runStrictHeadersPipeline] at he
    split at he
    · cases he
      rfl
    · cases he

/-! ## Concrete instances used by the claim witnesses and counterexamples -/

namespace CC

def oLine1 : HSeq.Line := HSeq.Line.mk "Intro".data 1 20 0 false
def oLine2 : HSeq.Line := HSeq.Line.mk "Scope".data 1 10 1 false
def oH1 : Orch.WHeader := Orch.WHeader.mk "Intro".data (some "1".data) 1 1 0 20 (-1)
def oH2 : Orch.WHeader := Orch.WHeader.mk "Scope".data (some "2".data) 1 1 1 10 (-1)

def cLine0 : HSeq.Line := HSeq.Line.mk "Alpha intro".data 1 0 0 false
def cLine1 : HSeq.Line := HSeq.Line.mk "body".data 1 1 1 false
def cLine2 : HSeq.Line := HSeq.Line.mk "Beta scope".data 1 2 2 false
def chunkH1 : Orch.WHeader := Orch.WHeader.mk "Intro".data none 1 1 0 0 (-1)
def chunkH2 : Orch.WHeader := Orch.WHeader.mk "Scope".data none 1 1 2 2 (-1)

def aLines : List Strict.BodyLineIn :=
  [Strict.BodyLineIn.mk "alpha".data 1 (some 5) (some 0) false false false none,
   Strict.BodyLineIn.mk "beta".data 1 (some 6) (some 1) false false false none]
def aHeaders : List Strict.LLMHeader :=
  [Strict.LLMHeader.mk "".data none (some "1.1".data) 2,
   Strict.LLMHeader.mk "".data none (some "1".data) 1]
def rItem : HSeq.HeaderItem := HSeq.HeaderItem.mk "1".data "intro".data 1 ["1".data]

def sHeaders : List Sections.SHeaderIn :=
  [Sections.SHeaderIn.mk "Alpha intro".data none 1 (some 1) (some 0) (some 0),
   Sections.SHeaderIn.mk "Beta scope".data none 1 (some 1) (some 2) (some 2)]
def sLines : List HSeq.Line := [cLine0, cLine1, cLine2]
def ghostH : Sections.SHeaderIn :=
  Sections.SHeaderIn.mk "Ghost".data none 1 (some 1) (some 0) (some 50)

def tocSeqLines : List HSeq.Line :=
  [HSeq.Line.mk "Intro ....... 3".data 1 0 0 false,
   HSeq.Line.mk "Scope ....... 4".data 1 1 1 false,
   HSeq.Line.mk "Annex ....... 5".data 1 2 2 false,
   HSeq.Line.mk "Refs ....... 6".data 1 3 3 false]
def tocBodyLines : List Strict.BodyLineIn :=
  [Strict.BodyLineIn.mk "Intro ....... 3".data 1 (some 0) (some 0) false false false none,
   Strict.BodyLineIn.mk "Scope ....... 4".data 1 (some 1) (some 1) false false false none,
   Strict.BodyLineIn.mk "Annex ....... 5".data 1 (some 2) (some 2) false false false none,
   Strict.BodyLineIn.mk "Refs ....... 6".data 1 (some 3) (some 3) false false false none]

def rLines : List HSeq.Line :=
  [HSeq.Line.mk "p3".data 1 0 0 false, HSeq.Line.mk "p3".data 2 1 0 false]

def bareLine : HSeq.Line := HSeq.Line.mk "2".data 1 0 0 false
def bareChunk : Orch.Chunk := Orch.Chunk.mk "prev".data (some "1".data) 1 0 0 1 1
def bareFound : Orch.WHeader := Orch.WHeader.mk "2".data (some "2".data) 1 1 0 0 (-1)

def cLegacy : List Locator.OHeader → List Locator.LocLine → List Locator.LegEntry :=
  fun _ _ => []
def cOH : List Locator.OHeader := [Locator.OHeader.mk "A".data (some "1".data) 1]

end CC

/-! ## The claims -/

/-- C1: the spec (P1, I1/I2) claims the final anchored output always has
strictly increasing `global_idx`.  The code's `_enforce_header_sequence`
only guarantees the weaker amended property proved here: the final output
is sorted (non-strictly) by `_order_key` — the numbering/level/source
key, not `global_idx` — so adjacent headers never compare strictly
descending under `_order_key`, while `global_idx` can decrease (see the
counterexample). -/
theorem c1_enforce_sequence_order (headers : List Orch.WHeader)
    (lines : List HSeq.Line) :
    List.Chain' (fun a b => Orch.orderLt b a = false)
      (Orch.enforceHeaderSequence headers lines).1 :=
  Orch.enforceHeaderSequence_sorted headers lines

/-- C1 counterexample: two located headers whose `_order_key` order
("1" before "2") disagrees with their anchors leave the final output with
`global_idx` 20 followed by 10 — not strictly increasing. -/
theorem c1_counterexample :
    ((Orch.enforceHeaderSequence [CC.oH1, CC.oH2] [CC.oLine1, CC.oLine2]).1).map
      (fun h => h.global_idx) = [20, 10] ∧
    ¬ ((20 : Int) < 10) := by decide

/-- C2: the spec (I3/P3) claims `global_idx(parent) < global_idx(child)`
for every anchored parent/child pair.  The amended property proved here is
what the sequential reanchor pass actually guarantees: the anchor it
stores for the parent is at most the earliest child's — equality is
possible (the implied-anchor fallback), so the bound is `≤`, not `<`; and
the strict aligner can violate the order outright (see the
counterexample). -/
theorem c2_parent_anchor_bound (lines : List HSeq.Line)
    (itemsByNum : List (List Char × HSeq.HeaderItem)) (confusables : Bool)
    (runners : List (List Char)) (tocPages : List Int)
    (posMap : List (Int × List (Int × Nat))) (fuzzyThreshold : Int)
    (parentNum : List Char) (earliestChildIdx : Int) :
    ∀ v, HSeq.reanchorParentTitleOnly lines itemsByNum confusables runners tocPages
        posMap fuzzyThreshold parentNum earliestChildIdx = some v →
      v ≤ earliestChildIdx :=
  HSeq.reanchorParentTitleOnly_le lines itemsByNum confusables runners tocPages
    posMap fuzzyThreshold parentNum earliestChildIdx

/-- C2 witness: with no lines to scan the reanchor pass stores the implied
anchor, which satisfies the bound. -/
theorem c2_witness :
    HSeq.reanchorParentTitleOnly [] [("1".data, CC.rItem)] false [] [] [] 80
      "1".data 0 = some 0 ∧ (0 : Int) ≤ 0 :=
  ⟨by decide,
   c2_parent_anchor_bound [] [("1".data, CC.rItem)] false [] [] [] 80 "1".data 0 0
     (by decide)⟩

/-- C2 counterexample: in `align_headers_llm_strict`, a child "1.1" and its
parent "1" both fall back to sequential placement; the final output anchors
the parent (at 6) after its child (at 5), and the final monotonic guard
finds no regex candidate to repair it. -/
theorem c2_counterexample :
    (Strict.alignHeadersLlmStrict CC.aHeaders CC.aLines).map
      (fun r => (r.number, r.line.global_idx)) =
      [(some "1.1".data, 5), (some "1".data, 6)] ∧
    Strict.parentOfDotted "1.1".data = "1".data := by decide

/-- C3: the spec (I6/P5) claims the emitted section spans are half-open,
disjoint, contiguous and cover `[first_anchor, last_line + 1)`.  That holds
for `build_section_spans` under the amended hypotheses proved here
(resolved anchors strictly increasing and within the document); the claim
is corrected because the also-cited `single_chunks_from_headers` emits
inclusive `end_global_idx` ranges that are not contiguous as half-open
intervals (see the counterexample). -/
theorem c3_span_partition (headers : List Sections.SHeaderIn)
    (lines : List HSeq.Line)
    (hne : Sections.resolveHeaders headers lines ≠ [])
    (hchain : List.Chain' (fun a b => a.global_idx < b.global_idx)
      (Sections.resolveHeaders headers lines))
    (hbound : ∀ x ∈ Sections.resolveHeaders headers lines,
      x.global_idx < Sections.documentEndOf lines) :
    List.Chain' (fun s t => s.end_global_idx = t.start_global_idx)
      (Sections.buildSectionSpans headers lines) ∧
    List.Pairwise (fun s t => s.end_global_idx ≤ t.start_global_idx)
      (Sections.buildSectionSpans headers lines) ∧
    (∀ s ∈ Sections.buildSectionSpans headers lines,
      s.start_global_idx < s.end_global_idx) ∧
    (∀ s, (Sections.buildSectionSpans headers lines).getLast? = some s →
      s.end_global_idx = Sections.documentEndOf lines) ∧
    (∀ g : Int,
      (∃ s ∈ Sections.buildSectionSpans headers lines,
        s.start_global_idx ≤ g ∧ g < s.end_global_idx) ↔
      (∃ x0, (Sections.resolveHeaders headers lines).head? = some x0 ∧
        x0.global_idx ≤ g ∧ g < Sections.documentEndOf lines)) := by
  have hb : Sections.buildSectionSpans headers lines =
      Sections.spansGo (Sections.orderedLinesOf lines) (Sections.lineIdxMapOf lines)
        (Sections.documentEndOf lines) (Sections.resolveHeaders headers lines) := by
    rw [Sections.buildSectionSpans]
    exact if_neg (fun hemp => hne (List.isEmpty_iff.mp hemp))
  rcases Sections.spansGo_spec (Sections.orderedLinesOf lines)
      (Sections.lineIdxMapOf lines) (Sections.documentEndOf lines)
      (Sections.resolveHeaders headers lines) hchain hbound with
    ⟨_, hch, hpos, hlast, hcov⟩
  rw [hb]
  exact ⟨hch, Sections.spans_pairwise_disjoint _ hch hpos, hpos, hlast, hcov⟩

/-- C3 witness: two resolved headers at 0 and 2 over lines 0–2 give spans
`[0,2)` and `[2,3)` satisfying every conjunct. -/
theorem c3_witness :
    List.Chain' (fun s t => s.end_global_idx = t.start_global_idx)
      (Sections.buildSectionSpans CC.sHeaders CC.sLines) ∧
    List.Pairwise (fun s t => s.end_global_idx ≤ t.start_global_idx)
      (Sections.buildSectionSpans CC.sHeaders CC.sLines) ∧
    (∀ s ∈ Sections.buildSectionSpans CC.sHeaders CC.sLines,
      s.start_global_idx < s.end_global_idx) ∧
    (∀ s, (Sections.buildSectionSpans CC.sHeaders CC.sLines).getLast? = some s →
      s.end_global_idx = Sections.documentEndOf CC.sLines) ∧
    (∀ g : Int,
      (∃ s ∈ Sections.buildSectionSpans CC.sHeaders CC.sLines,
        s.start_global_idx ≤ g ∧ g < s.end_global_idx) ↔
      (∃ x0, (Sections.resolveHeaders CC.sHeaders CC.sLines).head? = some x0 ∧
        x0.global_idx ≤ g ∧ g < Sections.documentEndOf CC.sLines)) :=
  c3_span_partition CC.sHeaders CC.sLines (by decide)
    (by
      have h : Sections.resolveHeaders CC.sHeaders CC.sLines =
          [Sections.RHeader.mk "Alpha intro".data none 1 (some 1) (some 0) 0,
           Sections.RHeader.mk "Beta scope".data none 1 (some 1) (some 2) 2] := by
        decide
      rw [h]
      exact List.chain'_cons.mpr ⟨by decide, List.chain'_singleton _⟩)
    (by decide)

/-- C3 counterexample: `single_chunks_from_headers` on headers anchored at
0 and 2 over lines 0–2 yields ranges `(0, 1)` and `(2, 2)` — the first
span's end is inclusive (line 1 belongs to it), so read as half-open
ranges they are neither contiguous nor a cover. -/
theorem c3_counterexample :
    (Orch.singleChunksFromHeaders [CC.chunkH1, CC.chunkH2]
      [CC.cLine0, CC.cLine1, CC.cLine2]).map
      (fun c => (c.start_global_idx, c.end_global_idx)) = [(0, 1), (2, 2)] ∧
    ¬ ((1 : Int) = 2) := by decide

/-- C4: the spec (P7) claims `normalize` is idempotent for every input.
The amended property proved here is conditional idempotence: a second
application is the identity whenever each rewriting stage (dot collapse
and the two confusable substitutions) already fixes the first
application's output; the whitespace-collapse, strip and casefold stages
need no condition.  Unconditionally the claim fails (see the
counterexample): confusable folding can create a new spaced-dot
opportunity that only the second pass collapses. -/
theorem c4_normalize_idem_conditional (conf : Bool) (x : List Char)
    (hdot : HSeq.dotSub (HSeq.normalize conf x) = HSeq.normalize conf x)
    (hc1 : HSeq.conf1Sub (HSeq.normalize conf x) = HSeq.normalize conf x)
    (hc2 : HSeq.conf2Sub (HSeq.normalize conf x) = HSeq.normalize conf x) :
    HSeq.normalize conf (HSeq.normalize conf x) = HSeq.normalize conf x :=
  HSeq.normalize_idem_of_stage_fixes conf x hdot hc1 hc2

/-- C4 witness: the stage-fixity hypotheses hold at "2.1 scope", so a
second `normalize` is the identity there. -/
theorem c4_witness :
    HSeq.normalize true (HSeq.normalize true "2.1 scope".data) =
      HSeq.normalize true "2.1 scope".data :=
  c4_normalize_idem_conditional true "2.1 scope".data (by decide) (by decide)
    (by decide)

/-- C4 counterexample: `normalize` is not idempotent: with confusables on,
"1 l . 2" normalizes to "11. 2" (the folded l creates "1 . 2" only after
the dot pass already ran), and a second call collapses it to "11.2". -/
theorem c4_counterexample :
    HSeq.normalize true (HSeq.normalize true "1 l . 2".data) ≠
      HSeq.normalize true "1 l . 2".data := by decide

/-- C5: an input line stream that is empty after filtering surfaces a
`NoLinesError` (code `no_lines`) instead of a result, and a non-empty
stream never raises it.  The pipeline entry point is modelled from the
spec's error table, as `run_strict_headers_pipeline` has no definition
under the repository sources. -/
theorem c5_no_lines_error (headers : List Strict.LLMHeader)
    (lines : List Strict.BodyLineIn) :
    ((∃ e, runStrictHeadersPipeline headers lines = Except.error e) ↔
      strictEligibleLines lines = []) ∧
    (∀ e, runStrictHeadersPipeline headers lines = Except.error e →
      e.code = "no_lines".data) :=
  runStrictHeadersPipeline_spec headers lines

/-- C5 witness: the empty stream produces exactly the `no_lines` error. -/
theorem c5_witness :
    runStrictHeadersPipeline [] [] = Except.error
      (PipelineError.mk "no_lines".data "no lines after filtering".data) ∧
    (PipelineError.mk "no_lines".data "no lines after filtering".data).code =
      "no_lines".data :=
  ⟨rfl, (c5_no_lines_error [] []).2 _ rfl⟩

/-- C6: with the spec's dot-leader regex `\.{3,}\s*\d{1,4}\s*$` and
`D_TOC = 4`, four matching lines always make a page TOC-like — true of
`detect_toc_pages_strict` (threshold `HEADERS_STRICT_TOC_MIN_DOT_LEADERS`,
default 4), as proved here.  The claim is corrected because the §4.2 noise
detector `detect_toc_pages` hardcodes a threshold of 6, so four such lines
do not suffice there (see the counterexample), and `_is_toc_like` in
`pdf_native` raises its threshold with the page's line count. -/
theorem c6_toc_strict_dot_leaders (lines : List Strict.BodyLineIn) (p : Int)
    (h : Config.HEADERS_STRICT_TOC_MIN_DOT_LEADERS ≤
      (lines.filter (fun l => decide (l.page = p) && Strict.specDotLeader l.text)).length) :
    p ∈ Strict.detectTocPagesStrict lines :=
  Strict.detectTocPagesStrict_of_dotLeaders lines p h

/-- C6 witness: four dot-leader lines on page 1 make the strict detector
mark page 1. -/
theorem c6_witness : (1 : Int) ∈ Strict.detectTocPagesStrict CC.tocBodyLines :=
  c6_toc_strict_dot_leaders CC.tocBodyLines 1 (by decide)

/-- C6 counterexample: the same four spec-matching dot-leader lines do not
make `detect_toc_pages` (threshold 6) classify their page as TOC-like. -/
theorem c6_counterexample :
    (∀ l ∈ CC.tocSeqLines, Strict.specDotLeader l.text = true) ∧
    HSeq.detectTocPages CC.tocSeqLines = [] := by decide

/-- C7: the spec claims a band text joins `running_texts` only when it
appears on at least `max(2, 0.6·pages)` pages and is at least 6 characters
long.  The amended property proved here drops the length clause: membership
is exactly the page-count test — `detect_running_header_footer` has no
length filter at all, so short page numbers can be suppressed (see the
counterexample). -/
theorem c7_running_header_membership (lines : List HSeq.Line)
    (h : lines ≠ []) (t : List Char) :
    t ∈ HSeq.detectRunningHeaderFooter lines none ↔
      max 2 (3 * (Py.groupBy (fun l => l.page) lines).length / 5) ≤
        ((Py.groupBy (fun l => l.page) lines).filter
          (fun pg => t ∈ HSeq.bandCandidates 5 pg.2)).length :=
  HSeq.detectRunning_mem_iff lines h t

/-- C7 witness: the membership characterization at a concrete two-page
document and the text "p3". -/
theorem c7_witness :
    "p3".data ∈ HSeq.detectRunningHeaderFooter CC.rLines none ↔
      max 2 (3 * (Py.groupBy (fun l => l.page) CC.rLines).length / 5) ≤
        ((Py.groupBy (fun l => l.page) CC.rLines).filter
          (fun pg => "p3".data ∈ HSeq.bandCandidates 5 pg.2)).length :=
  c7_running_header_membership CC.rLines (by decide) "p3".data

/-- C7 counterexample: the two-character text "p3", appearing on both
pages of a two-page document, joins `running_texts` although it is shorter
than 6 characters. -/
theorem c7_counterexample :
    HSeq.detectRunningHeaderFooter CC.rLines none = ["p3".data] ∧
    ("p3".data).length < 6 := by decide

/-- C8: the spec claims the gap filler only accepts a line whose remainder
after stripping the numbering is non-empty.  The amended property proved
here is what `_find_header_in_chunk` actually does: an accepted candidate
always comes from a scanned line matching the constructed numbering regex
and anchors there, but its text falls back to the whole stripped line when
the remainder is empty (`header_text = remainder or stripped`) — so
bare-number lines are accepted (see the counterexample). -/
theorem c8_gap_fill_acceptance (chunk : Orch.Chunk) (lines : List HSeq.Line)
    (components : List Orch.Component) (idxByGlobal : List (Int × Nat))
    (fb : Option Int) (h : Orch.WHeader)
    (hfind : Orch.findHeaderInChunk chunk lines components idxByGlobal fb = some h) :
    ∃ pattern, Orch.buildNumberPattern components = some pattern ∧
    ∃ i ∈ Orch.chunkScanRange chunk idxByGlobal, ∃ e,
      pattern.matchEnd (PyStr.pyLstrip (lines.getD i Orch.dummyLine).text) = some e ∧
      h.global_idx = (lines.getD i Orch.dummyLine).global_idx ∧
      h.text =
        (if (PyStr.pyLstripSet " -.):\t".data
            ((PyStr.pyLstrip (lines.getD i Orch.dummyLine).text).drop e)).isEmpty then
          PyStr.pyLstrip (lines.getD i Orch.dummyLine).text
        else PyStr.pyLstripSet " -.):\t".data
          ((PyStr.pyLstrip (lines.getD i Orch.dummyLine).text).drop e)) :=
  Orch.findHeaderInChunk_inv chunk lines components idxByGlobal fb h hfind

/-- C8 witness: the acceptance inversion at the concrete bare-number
chunk. -/
theorem c8_witness :
    ∃ pattern, Orch.buildNumberPattern (Orch.extractComponents (some "2".data)) =
      some pattern ∧
    ∃ i ∈ Orch.chunkScanRange CC.bareChunk [(0, 0)], ∃ e,
      pattern.matchEnd (PyStr.pyLstrip
        (([CC.bareLine] : List HSeq.Line).getD i Orch.dummyLine).text) = some e ∧
      CC.bareFound.global_idx =
        (([CC.bareLine] : List HSeq.Line).getD i Orch.dummyLine).global_idx ∧
      CC.bareFound.text =
        (if (PyStr.pyLstripSet " -.):\t".data
            ((PyStr.pyLstrip (([CC.bareLine] : List HSeq.Line).getD i
              Orch.dummyLine).text).drop e)).isEmpty then
          PyStr.pyLstrip (([CC.bareLine] : List HSeq.Line).getD i Orch.dummyLine).text
        else PyStr.pyLstripSet " -.):\t".data
          ((PyStr.pyLstrip (([CC.bareLine] : List HSeq.Line).getD i
            Orch.dummyLine).text).drop e)) :=
  c8_gap_fill_acceptance CC.bareChunk [CC.bareLine]
    (Orch.extractComponents (some "2".data)) [(0, 0)] (some 1) CC.bareFound
    (by decide)

/-- C8 counterexample: the gap filler accepts the line consisting of the
bare number "2" alone and returns it as a recovered header whose text is
that bare number — the stripped line itself. -/
theorem c8_counterexample :
    Orch.findHeaderInChunk CC.bareChunk [CC.bareLine]
      (Orch.extractComponents (some "2".data)) [(0, 0)] (some 1) =
      some CC.bareFound ∧
    CC.bareFound.text = "2".data ∧
    PyStr.pyStrip CC.bareLine.text = "2".data := by decide

/-- C9: the spec (P2) claims every output anchor is the `global_idx` of
some input line.  The amended property proved here: when the deduplicated,
sorted header list carries pairwise distinct anchors, the bump loop is the
identity, and every output anchor is either an anchor declared on an input
header or a line `global_idx` reached through the `(page, line_idx)`
lookup.  Unvalidated declared anchors pass straight through, and with
duplicate anchors the `gid += 1` bump can fabricate an index no line has
(see the counterexample). -/
theorem c9_anchor_provenance (headers : List Sections.SHeaderIn)
    (lines : List HSeq.Line)
    (hnd : List.Pairwise (fun a b => a.global_idx ≠ b.global_idx)
      (Sections.resolvePreBump headers lines)) :
    Sections.resolveHeaders headers lines = Sections.resolvePreBump headers lines ∧
    ∀ r ∈ Sections.resolveHeaders headers lines,
      (∃ h ∈ headers, h.global_idx = some r.global_idx) ∨
        r.global_idx ∈ lines.map HSeq.Line.global_idx := by
  have heq : Sections.resolveHeaders headers lines =
      Sections.resolvePreBump headers lines := by
    rw [Sections.resolveHeaders]
    exact Sections.bumpGo_id _ _ _ [] (fun g hg => by cases hg) hnd
  refine ⟨heq, ?_⟩
  intro r hr
  rw [heq] at hr
  rcases Sections.resolvePreBump_provenance headers lines r hr with ⟨h, hh, he⟩
  rcases Sections.resolveEntry_gid lines h r he with h1 | h1
  · exact Or.inl ⟨h, hh, h1⟩
  · exact Or.inr h1

/-- C9 witness: two distinct-anchor headers resolve without bumps and each
output anchor is accounted for. -/
theorem c9_witness :
    Sections.resolveHeaders CC.sHeaders CC.sLines =
      Sections.resolvePreBump CC.sHeaders CC.sLines ∧
    ∀ r ∈ Sections.resolveHeaders CC.sHeaders CC.sLines,
      (∃ h ∈ CC.sHeaders, h.global_idx = some r.global_idx) ∨
        r.global_idx ∈ CC.sLines.map HSeq.Line.global_idx :=
  c9_anchor_provenance CC.sHeaders CC.sLines (by decide)

/-- C9 counterexample: a header declaring `global_idx` 50 over lines 0–2
is emitted with anchor 50, which is the `global_idx` of no input line. -/
theorem c9_counterexample :
    (Sections.resolveHeaders [CC.ghostH] CC.sLines).map (fun r => r.global_idx) =
      [50] ∧
    ¬ ((50 : Int) ∈ CC.sLines.map HSeq.Line.global_idx) := by decide

/-- C10: in `locate_headers_in_lines` under the sequential strategy, when
some oracle header carries a number and the aligner resolves fewer than
60% of the numbered ones (`5·resolved < 3·numbered`, the exact form of the
float test for realistic counts), every sequential result is discarded and
the output is exactly the legacy matcher run over all oracle headers and
the full eligible line list; when no oracle header carries a number the
gate never fires and every aligner anchor survives into the output. -/
theorem c10_coverage_gate
    (legacyFn : List Locator.OHeader → List Locator.LocLine → List Locator.LegEntry)
    (seqOut : List Locator.SeqEntry) (headers : List Locator.OHeader)
    (lines : List Locator.LocLine) (excluded : List Int) :
    (((headers.filter
        (fun h => !(PyStr.pyStrip (h.number.getD [])).isEmpty)).length ≠ 0) →
      5 * seqOut.length < 3 * (headers.filter
        (fun h => !(PyStr.pyStrip (h.number.getD [])).isEmpty)).length →
      Locator.locateSeq legacyFn seqOut headers lines excluded =
        Py.sortBy Locator.finalLt ((Locator.attachSourceIdx headers.length
          (Locator.mkBuckets headers)
          ((legacyFn headers (lines.filter (Locator.eligible excluded))).map
            (fun e => (e.text, e.number, Locator.legToLoc e)))).1)) ∧
    (((headers.filter
        (fun h => !(PyStr.pyStrip (h.number.getD [])).isEmpty)).length = 0) →
      ∀ e ∈ seqOut, e.global_idx ∈
        (Locator.locateSeq legacyFn seqOut headers lines excluded).map
          Locator.LocHeader.global_idx) :=
  ⟨fun h0 h1 => Locator.locateSeq_gate legacyFn seqOut headers lines excluded h0 h1,
   fun h0 => Locator.locateSeq_keeps legacyFn seqOut headers lines excluded h0⟩

/-- C10 witness: one numbered oracle header and an empty aligner result
trigger the gate, and the output equals the pure legacy relocation. -/
theorem c10_witness :
    Locator.locateSeq CC.cLegacy [] CC.cOH [] [] =
      Py.sortBy Locator.finalLt ((Locator.attachSourceIdx CC.cOH.length
        (Locator.mkBuckets CC.cOH)
        ((CC.cLegacy CC.cOH (([] : List Locator.LocLine).filter
          (Locator.eligible []))).map
          (fun e => (e.text, e.number, Locator.legToLoc e)))).1) :=
  (c10_coverage_gate CC.cLegacy [] CC.cOH [] []).1 (by decide) (by decide)

